import Mathlib

/-!
# Dynamic strings library (`DStrings.c`): a shallow embedding

The C code works on a heap through raw pointers, so the embedding passes the
heap explicitly.

* A heap is a list of blocks, a pointer is a block index and a byte offset,
  `none` is the `NULL` pointer.  A released block is `none` in the heap.
* The platform is the 32-bit one the library's `unsigned` fields are made for:
  `unsigned` and `size_t` are 32 bits wide, arithmetic on them is taken
  modulo `2^32`, and an object has fewer than `2^32` bytes (`heap32`).
* A function that can leave defined behaviour (out-of-bounds access, release of
  a pointer that is not the start of a live `malloc` block, failed `assert`)
  returns `Option`; `none` means that the call does not return normally.
* The outcome of each call to the allocator is an argument (`Alloc`): `none`
  makes `malloc` return `NULL`, `some junk` makes it succeed with the
  indeterminate initial bytes `junk 0, junk 1, ...`.
-/

namespace DStrings

/-! ## Machine arithmetic -/

/-- Number of values of the C type `unsigned`. -/
def two32 : Nat := 4294967296

/-- Conversion to `unsigned`. -/
def u32 (x : Nat) : Nat := x % two32

/-- Subtraction of two `unsigned` values. -/
def usub (a b : Nat) : Nat := (a + two32 - b % two32) % two32

/-! ## Memory -/

/-- An allocated object: its bytes, and whether it came from `malloc`. -/
structure Block where
  bytes : List Nat
  dyn : Bool
deriving DecidableEq, Repr

/-- The heap: block number to live block, `none` once released. -/
abbrev Heap := List (Option Block)

/-- A non-null pointer: block number and byte offset in the block. -/
structure Ptr where
  blk : Nat
  off : Nat
deriving DecidableEq, Repr

/-- Outcome of one allocator call: `none` is failure, `some junk` the initial bytes. -/
abbrev Alloc := Option (Nat → Nat)

/-- Every object of the heap has fewer than `2^32` bytes. -/
def heap32 (h : Heap) : Bool :=
  h.all (fun b => match b with
    | none => true
    | some blk => decide (blk.bytes.length < two32))

/-- Pointer arithmetic `p + k`. -/
def padd (p : Option Ptr) (k : Nat) : Option Ptr :=
  p.map (fun q => { blk := q.blk, off := q.off + k })

/-- The live block number `b`. -/
def blockAt (h : Heap) (b : Nat) : Option Block :=
  match h[b]? with
  | some (some blk) => some blk
  | _ => none

/-- The byte number `j` of block `b`. -/
def rd (h : Heap) (b j : Nat) : Option Nat :=
  match blockAt h b with
  | none => none
  | some blk => blk.bytes[j]?

/-- Length and origin of block `b`. -/
def blockInfo (h : Heap) (b : Nat) : Option (Nat × Bool) :=
  (blockAt h b).map (fun blk => (blk.bytes.length, blk.dyn))

/-- Read `n` bytes at `p`.  Reading no byte is always defined. -/
def load (h : Heap) (p : Option Ptr) (n : Nat) : Option (List Nat) :=
  if n = 0 then some []
  else match p with
    | none => none
    | some q =>
      match blockAt h q.blk with
      | none => none
      | some blk =>
        if q.off + n ≤ blk.bytes.length then some ((blk.bytes.drop q.off).take n) else none

/-- Write the bytes `bs` at `p`.  Writing no byte is always defined. -/
def store (h : Heap) (p : Option Ptr) (bs : List Nat) : Option Heap :=
  if bs.length = 0 then some h
  else match p with
    | none => none
    | some q =>
      match blockAt h q.blk with
      | none => none
      | some blk =>
        if q.off + bs.length ≤ blk.bytes.length then
          some (h.set q.blk (some { blk with
            bytes := blk.bytes.take q.off ++ bs ++ blk.bytes.drop (q.off + bs.length) }))
        else none

/-- The byte `p[i]`. -/
def byteAt (h : Heap) (p : Option Ptr) (i : Nat) : Option Nat :=
  match p with
  | none => none
  | some q => rd h q.blk (q.off + i)

/-- C `memmove`: the source is read in full before the destination is written. -/
def memmove (h : Heap) (dst src : Option Ptr) (n : Nat) : Option Heap :=
  match load h src n with
  | none => none
  | some bs => store h dst bs

/-- C `memset`. -/
def memset (h : Heap) (dst : Option Ptr) (c n : Nat) : Option Heap :=
  store h dst (List.replicate n c)

/-- C `malloc(size)`: a fresh block at the end of the heap, or `NULL`. -/
def malloc (h : Heap) (a : Alloc) (size : Nat) : Heap × Option Ptr :=
  match a with
  | none => (h, none)
  | some junk =>
    (h ++ [some { bytes := (List.range size).map junk, dyn := true }],
     some { blk := h.length, off := 0 })

/-- C `free`: `free(NULL)` does nothing, otherwise `p` must be the start of a live
`malloc` block. -/
def free (h : Heap) (p : Option Ptr) : Option Heap :=
  match p with
  | none => some h
  | some q =>
    match blockAt h q.blk with
    | none => none
    | some blk => if q.off = 0 ∧ blk.dyn = true then some (h.set q.blk none) else none

/-- C `realloc(p, size)`: on success a new block holding the old bytes up to `size`
(then indeterminate bytes), and the old block is released; on failure `NULL` and
nothing changes. -/
def realloc (h : Heap) (a : Alloc) (p : Option Ptr) (size : Nat) : Option (Heap × Option Ptr) :=
  match p with
  | none => some (malloc h a size)
  | some q =>
    match blockAt h q.blk with
    | none => none
    | some blk =>
      if q.off = 0 ∧ blk.dyn = true then
        match a with
        | none => some (h, none)
        | some junk =>
          some ((h.set q.blk none) ++
                  [some { bytes := blk.bytes.take size ++
                            (List.range (size - blk.bytes.length)).map
                              (fun i => junk (blk.bytes.length + i)),
                          dyn := true }],
                some { blk := h.length, off := 0 })
      else none

/-- Index of the first zero byte of a byte list. -/
def firstZero : List Nat → Option Nat
  | [] => none
  | b :: bs => if b = 0 then some 0 else (firstZero bs).map (fun k => k + 1)

/-- C `strlen`: reads up to the first zero byte, which must be inside the object. -/
def strlen (h : Heap) (p : Option Ptr) : Option Nat :=
  match p with
  | none => none
  | some q =>
    match blockAt h q.blk with
    | none => none
    | some blk => if q.off ≤ blk.bytes.length then firstZero (blk.bytes.drop q.off) else none

/-- C `strncmp` on two byte lists (the readable bytes from each pointer on): the
difference of the first two bytes that differ among the first `n`, `0` when
the strings agree up to `n` bytes or up to a common terminator; `none` when the
comparison runs off one of the objects. -/
def strncmpBytes : Nat → List Nat → List Nat → Option Int
  | 0, _, _ => some 0
  | _ + 1, [], _ => none
  | _ + 1, _ :: _, [] => none
  | n + 1, x :: xs, y :: ys =>
    if x ≠ y then some ((x : Int) - (y : Int))
    else if x = 0 then some 0
    else strncmpBytes n xs ys

/-- C `strncmp`. -/
def strncmp (h : Heap) (p q : Option Ptr) (n : Nat) : Option Int :=
  if n = 0 then some 0
  else match p, q with
    | some p1, some q1 =>
      match blockAt h p1.blk, blockAt h q1.blk with
      | some b1, some b2 => strncmpBytes n (b1.bytes.drop p1.off) (b2.bytes.drop q1.off)
      | _, _ => none
    | _, _ => none

/-! ## The library -/

/-- The C `struct string`. -/
structure string where
  raw : Option Ptr
  len : Nat
  size : Nat
  resizable : Bool
deriving DecidableEq, Repr

/-- `String_raw(s)`. -/
def String_raw (s : string) : Option Ptr := s.raw

/-- `String_alloc`: `ok` tells whether the `malloc` of the structure succeeds. -/
def String_alloc (ok : Bool) : Option string :=
  if ok then some { raw := none, size := 0, len := 0, resizable := true } else none

/-- `round_up_to_the_next_power_of_2`. -/
def round_up_to_the_next_power_of_2 (num : Nat) : Nat :=
  let num := usub num 1
  let num := num ||| (num >>> 1)
  let num := num ||| (num >>> 2)
  let num := num ||| (num >>> 4)
  let num := num ||| (num >>> 8)
  let num := num ||| (num >>> 16)
  let num := u32 (num + 1)
  u32 (num + (if num = 0 then 1 else 0))

/-- `resize`: the returned pointer, the updated structure and heap. -/
def resize (h : Heap) (a : Alloc) (s : string) (size : Nat) : Option Ptr × string × Heap :=
  if s.resizable = false then (none, s, h)
  else
    let size := round_up_to_the_next_power_of_2 size
    let old_raw := s.raw
    match malloc h a size with
    | (h1, none) => (none, { s with raw := old_raw }, h1)
    | (h1, some p) =>
      let s1 := { s with raw := some p, size := size }
      if old_raw = none then (s1.raw, s1, h1) else (old_raw, s1, h1)

/-- `resize_and_cpy`. -/
def resize_and_cpy (h : Heap) (a : Alloc) (s : string) (size offset : Nat) :
    Option (Option Ptr × string × Heap) :=
  match resize h a s size with
  | (none, s1, h1) => some (none, s1, h1)
  | (some old_raw, s1, h1) =>
    if s1.len ≤ offset then
      (memmove h1 s1.raw (some old_raw) s1.len).map (fun h2 => (some old_raw, s1, h2))
    else
      (memmove h1 s1.raw (some old_raw) offset).map (fun h2 => (some old_raw, s1, h2))

/-- Lines 101 to 114 of `String_ncpy_at`: zero the gap, move the bytes, set the
length, write the terminator, release `old_raw`, return `0`. -/
def ncpy_at_write (h : Heap) (dest : string) (dest_offset : Nat) (src : Option Ptr) (n : Nat)
    (old_raw : Option Ptr) : Option (Int × string × Heap) :=
  (if dest.len < dest_offset then
     memset h (padd dest.raw dest.len) 0 (dest_offset - dest.len)
   else some h).bind fun h1 =>
  (memmove h1 (padd dest.raw dest_offset) src n).bind fun h2 =>
  let dest1 := { dest with len := u32 (n + dest_offset + 1) }
  (store h2 (padd dest1.raw (u32 (n + dest_offset))) [0]).bind fun h3 =>
  (free h3 old_raw).bind fun h4 =>
  some (0, dest1, h4)

/-- `String_ncpy_at`: the return value, the structure and the heap after the call. -/
def String_ncpy_at (h : Heap) (a : Alloc) (dest : string) (dest_offset : Nat)
    (src : Option Ptr) (n : Nat) : Option (Int × string × Heap) :=
  if src = none ∧ n ≠ 0 then none
  else if dest.size < u32 (dest_offset + n + 1) then
    match resize_and_cpy h a dest (u32 (dest_offset + n + 1)) dest_offset with
    | none => none
    | some (none, s1, h1) => some (-1, s1, h1)
    | some (some old_raw, s1, h1) =>
      ncpy_at_write h1 s1 dest_offset src n (if some old_raw = s1.raw then none else some old_raw)
  else ncpy_at_write h dest dest_offset src n none

/-- `String_ncpy(dest, src, n)`. -/
def String_ncpy (h : Heap) (a : Alloc) (dest : string) (src : Option Ptr) (n : Nat) :
    Option (Int × string × Heap) :=
  String_ncpy_at h a dest 0 src n

/-- `String_ncat`. -/
def String_ncat (h : Heap) (a : Alloc) (dest : string) (src : Option Ptr) (n : Nat) :
    Option (Int × string × Heap) :=
  if src = none then none else String_ncpy_at h a dest (usub dest.len 1) src n

/-- `String_length`. -/
def String_length (s : string) : Nat :=
  if s.resizable = false then usub s.len 1 else s.len

/-- `String_size`. -/
def String_size (s : string) : Nat := s.size

/-- `String_set_size`. -/
def String_set_size (h : Heap) (a : Alloc) (s : string) (size : Nat) :
    Option (Int × string × Heap) :=
  if s.resizable = false then some (-1, s, h)
  else if size = s.size then some (0, s, h)
  else
    let size := if size < 2 then 1 else size
    match realloc h a s.raw size with
    | none => none
    | some (h1, none) => some (-1, s, h1)
    | some (h1, some temp) =>
      let s1 := { s with size := size, raw := some temp }
      if s1.len > size then
        match store h1 (padd s1.raw (usub size 1)) [0] with
        | none => none
        | some h2 => some (0, { s1 with len := size }, h2)
      else some (0, s1, h1)

/-- `String_ncmp`. -/
def String_ncmp (h : Heap) (s1 s2 : string) (n : Nat) : Option Int :=
  strncmp h (String_raw s1) (String_raw s2) n

/-- `String_nequals(s1, s2, n)`. -/
def String_nequals (h : Heap) (s1 s2 : string) (n : Nat) : Option Bool :=
  (String_ncmp h s1 s2 n).map (fun r => decide (r = 0))

/-- `String_free`: the handle becomes `NULL`; only the heap is returned. -/
def String_free (h : Heap) (s : Option string) : Option Heap :=
  match s with
  | none => some h
  | some s1 => if s1.resizable = true then free h s1.raw else some h

/-- The loop of `strnlen`: `rem` is `n - i`. -/
def strnlen_loop (h : Heap) (s : Option Ptr) : Nat → Nat → Option Nat
  | rem, i =>
    match byteAt h s i with
    | none => none
    | some c =>
      match rem with
      | 0 => some i
      | rem1 + 1 => if c ≠ 0 then strnlen_loop h s rem1 (i + 1) else some i

/-- `strnlen` of `DStrings.c`: `s[i]` is read before `i < n` is tested. -/
def strnlen (h : Heap) (s : Option Ptr) (n : Nat) : Option Nat :=
  strnlen_loop h s n 0

/-- `String_new`: `ok` and `a` are the outcomes of the two allocations. -/
def String_new (h : Heap) (ok : Bool) (a : Alloc) (src : Option Ptr) (n : Nat) :
    Option (Option string × Heap) :=
  match String_alloc ok with
  | none => some (none, h)
  | some s =>
    match (if src ≠ none then strnlen h src n else some 0) with
    | none => none
    | some n1 =>
      match String_ncpy_at h a s 0 src n1 with
      | none => none
      | some (r, s1, h1) =>
        if r ≠ 0 then (String_free h1 (some s1)).map (fun h2 => (none, h2))
        else some (some s1, h1)

/-- `String_new_str(src)`. -/
def String_new_str (h : Heap) (ok : Bool) (a : Alloc) (src : Option Ptr) :
    Option (Option string × Heap) :=
  match strlen h src with
  | none => none
  | some k => String_new h ok a src (u32 k)

/-- `String_new_empty()`. -/
def String_new_empty (h : Heap) (ok : Bool) (a : Alloc) : Option (Option string × Heap) :=
  String_new h ok a none 0

/-- `String_new_steal`: the heap is not changed. -/
def String_new_steal (h : Heap) (ok : Bool) (src : Option Ptr) (size : Nat) :
    Option (Option string) :=
  match String_alloc ok with
  | none => some none
  | some s =>
    match (if src ≠ none then (strlen h src).map (fun k => u32 (k + 1)) else some 0) with
    | none => none
    | some len =>
      let s1 := { s with len := len }
      let (size, s2) :=
        if size < s1.len then (s1.len, { s1 with resizable := false }) else (size, s1)
      some (some { s2 with size := size, raw := src })

/-- The platform's `vsnprintf(p, cap, fmt, args)`, for a format and arguments that
render to the bytes `r`: at most `cap - 1` bytes of `r` and a terminator are
written, and the length of `r` is returned (`-1` when it exceeds `INT_MAX`). -/
def vsnprintf (h : Heap) (p : Option Ptr) (cap : Nat) (r : List Nat) : Option (Heap × Int) :=
  match (if cap = 0 then some h else store h p (r.take (cap - 1) ++ [0])) with
  | none => none
  | some h1 => some (h1, if r.length ≤ 2147483647 then (r.length : Int) else -1)

/-- `String_format_at`, for a format and arguments that render to the bytes `r`. -/
def String_format_at (h : Heap) (a : Alloc) (s : string) (offset : Nat) (r : List Nat) :
    Option (Int × string × Heap) :=
  match vsnprintf h (padd s.raw offset) (usub s.size offset) r with
  | none => none
  | some (h1, ret) =>
    let bytes_written := ((ret + 1) % (two32 : Int)).toNat
    if bytes_written > s.size then
      match resize_and_cpy h1 a s (u32 (offset + bytes_written + 1)) offset with
      | none => none
      | some (none, s1, h2) => some (-1, s1, h2)
      | some (some old_raw, s1, h2) =>
        match free h2 (some old_raw) with
        | none => none
        | some h3 =>
          match (if s1.len < offset then
                   memset h3 (padd s1.raw s1.len) 0 (offset - s1.len)
                 else some h3) with
          | none => none
          | some h4 =>
            match vsnprintf h4 (padd s1.raw offset) (usub s1.size offset) r with
            | none => none
            | some (h5, ret2) =>
              let bytes_written2 := ((ret2 + 1) % (two32 : Int)).toNat
              if bytes_written2 > s1.size then some (-1, s1, h5)
              else some (0, { s1 with len := u32 (offset + bytes_written2) }, h5)
    else some (0, { s with len := u32 (offset + bytes_written) }, h1)

/-! ## Concrete states of the repository's tests -/

/-- The bytes of `"Hello World!\n"` with its terminator. -/
def hello : List Nat := [72, 101, 108, 108, 111, 32, 87, 111, 114, 108, 100, 33, 10, 0]

/-- The source byte `i` of a copy lies in the gap that an in-place call zero-fills
before it moves the bytes. -/
def gapAlias (dest : string) (off n : Nat) (q : Ptr) (i : Nat) : Prop :=
  ¬ dest.size < u32 (off + n + 1) ∧ dest.len < off ∧
    ∃ r, dest.raw = some r ∧ q.blk = r.blk ∧ r.off + dest.len ≤ q.off + i ∧
      q.off + i < r.off + off

/-- A heap with one static object holding `"Hello World!\n"`. -/
def helloHeap : Heap := [some { bytes := hello, dyn := false }]

/-- The pointer to the text of `helloHeap`. -/
def helloPtr : Option Ptr := some { blk := 0, off := 0 }

/-- `helloHeap` after `String_new_empty()`. -/
def emptyHeap : Heap := helloHeap ++ [some { bytes := [0], dyn := true }]

/-- The String returned by `String_new_empty()` on `helloHeap`. -/
def emptyString : string := { raw := some { blk := 1, off := 0 }, len := 1, size := 1, resizable := true }

/-- The object `"\0bcdefg\0"`: the buffer of `String_new_str("abcdefg")` after
`String_ncpy(s, "", 0)` has emptied it. -/
def stale : List Nat := [0, 98, 99, 100, 101, 102, 103, 0]

/-- The emptied String whose buffer is `stale`. -/
def staleString : string :=
  { raw := some { blk := 0, off := 0 }, len := 1, size := 8, resizable := true }

/-- The object `"abcdef\0"`. -/
def abcdef : List Nat := [97, 98, 99, 100, 101, 102, 0]

/-- The bytes of `"abcdefghijklmnopqrstuvwxyz"` with the terminator. -/
def alphabet : List Nat :=
  [97, 98, 99, 100, 101, 102, 103, 104, 105, 106, 107, 108, 109, 110, 111, 112, 113, 114,
   115, 116, 117, 118, 119, 120, 121, 122, 0]

/-- The heap of `test_new_steal`: the array `buff` and the literal alphabet. -/
def stealHeap : Heap :=
  [some { bytes := hello, dyn := false }, some { bytes := alphabet, dyn := false }]

/-- What `String_new_steal` returns for `buff` when the claimed size is below 14. -/
def stolenHello : string :=
  { raw := some { blk := 0, off := 0 }, len := 14, size := 14, resizable := false }

/-- The byte list `bs` written `k` times in a row. -/
def repeated (bs : List Nat) : Nat → List Nat
  | 0 => []
  | k + 1 => repeated bs k ++ bs

/-- The loop of `test_ncat_with_initial_string_empty`: `k` calls `String_ncat(s, p, g)` in
a row, each returning `0`; the allocation of call `i`, if it allocates, succeeds with
the initial bytes `junk i`.  `none` when a call does not return `0`. -/
def ncat_times (p : Option Ptr) (g : Nat) (junk : Nat → Nat → Nat) :
    Nat → string × Heap → Option (string × Heap)
  | 0, st => some st
  | k + 1, st =>
    (ncat_times p g junk k st).bind fun st1 =>
      (String_ncat st1.2 (some (junk k)) st1.1 p g).bind fun res =>
        if res.1 = 0 then some (res.2.1, res.2.2) else none

/-- The String `s` is growable and owns its buffer: the buffer starts a live `malloc`
block that has room for the capacity, and its first `len` bytes are `content`. -/
def Owns (h : Heap) (s : string) (content : List Nat) : Prop :=
  s.resizable = true ∧ s.len = content.length ∧ s.len ≤ s.size ∧
    ∃ b L, s.raw = some { blk := b, off := 0 } ∧ blockInfo h b = some (L, true) ∧ s.size ≤ L ∧
      load h s.raw s.len = some content

/-! ## Further library functions and test states -/

/-- `String_dup_slice(s, from, to)`: `ok` and `a` are the outcomes of the two
allocations. -/
def String_dup_slice (h : Heap) (ok : Bool) (a : Alloc) (s : string) (from_ to_ : Nat) :
    Option (Option string × Heap) :=
  if to_ < from_ then none
  else
    match String_alloc ok with
    | none => some (none, h)
    | some cpy =>
      (String_ncpy_at h a cpy 0 (padd s.raw from_) (u32 (usub to_ from_ + 1))).bind fun res =>
        if res.1 ≠ 0 then (String_free res.2.2 (some res.2.1)).map (fun h2 => (none, h2))
        else some (some res.2.1, res.2.2)

/-- The heap of `test_shrink` before the calls of `String_set_size`: one `malloc` block
of 256 bytes that holds the alphabet six times and the terminator. -/
def shrinkHeap : Heap :=
  [some { bytes := repeated (alphabet.take 26) 6 ++ 0 :: List.replicate 99 7, dyn := true }]

/-- The String of `test_shrink` before the calls of `String_set_size`: 157 bytes in a
capacity of 256. -/
def shrinkString : string :=
  { raw := some { blk := 0, off := 0 }, len := 157, size := 256, resizable := true }

/-- The heap after `String_new_str("Hello World!\n")`: the buffer of 16 bytes, and the
literal alphabet. -/
def formatHeap : Heap :=
  [some { bytes := hello ++ [7, 7], dyn := true }, some { bytes := alphabet, dyn := false }]

/-- The String `String_new_str("Hello World!\n")` on `formatHeap`: length 14,
capacity 16. -/
def formatString : string :=
  { raw := some { blk := 0, off := 0 }, len := 14, size := 16, resizable := true }

/-- The heap after `String_new_str("abcdefg")` and `String_ncpy(s, "", 0)`: the buffer of
8 bytes whose first byte is the terminator, and the literal `"xy"`. -/
def gapHeap : Heap :=
  [some { bytes := [0, 98, 99, 100, 101, 102, 103, 0], dyn := true },
   some { bytes := [120, 121, 0], dyn := false }]

/-- The emptied String on `gapHeap`: length 1, capacity 8. -/
def gapString : string :=
  { raw := some { blk := 0, off := 0 }, len := 1, size := 8, resizable := true }

/-- The well-formedness invariant of a String: when the length is not 0 it is at most
the capacity, and when also the capacity is not 0 the byte at index `len - 1` is the
terminator. -/
def WellFormed (h : Heap) (s : string) : Prop :=
  (0 < s.len → s.len ≤ s.size) ∧
  (0 < s.size → 0 < s.len → byteAt h s.raw (s.len - 1) = some 0)

/-- `String_cmp(s1, s2)`: the macro `String_ncmp(s1, s2, (unsigned)-1)`. -/
def String_cmp (h : Heap) (s1 s2 : string) : Option Int :=
  String_ncmp h s1 s2 (usub 0 1)

/-- `String_equals(s1, s2)`: the macro `String_nequals(s1, s2, (unsigned)-1)`. -/
def String_equals (h : Heap) (s1 s2 : string) : Option Bool :=
  String_nequals h s1 s2 (usub 0 1)

/-- The string that a comparison bounded by `n` looks at: the bytes before the first
terminator among the first `n` bytes. -/
def comparedBytes (n : Nat) (xs : List Nat) : List Nat :=
  (xs.take n).takeWhile (fun b => b != 0)

/-- A heap with the two literals `"a"` and `"c"`. -/
def acHeap : Heap :=
  [some { bytes := [97, 0], dyn := false }, some { bytes := [99, 0], dyn := false }]

namespace String_c

/-- `String_ncpy_at` of the older `String.c`: `resize` followed by the inlined copy of
the kept prefix.  Its `resize` and `round_up_to_the_next_power_of_2`, and its lines
after the reallocation (gap fill, move, length, terminator, `free`), are the same text
as in `DStrings.c`. -/
def String_ncpy_at (h : Heap) (a : Alloc) (dest : string) (dest_offset : Nat)
    (src : Option Ptr) (n : Nat) : Option (Int × string × Heap) :=
  if src = none ∧ n ≠ 0 then none
  else if dest.size < u32 (dest_offset + n + 1) then
    match resize h a dest (u32 (dest_offset + n + 1)) with
    | (none, s1, h1) => some (-1, s1, h1)
    | (some old_raw, s1, h1) =>
      match (if s1.len ≤ dest_offset then memmove h1 s1.raw (some old_raw) s1.len
             else memmove h1 s1.raw (some old_raw) dest_offset) with
      | none => none
      | some h2 =>
        ncpy_at_write h2 s1 dest_offset src n
          (if some old_raw = s1.raw then none else some old_raw)
  else ncpy_at_write h dest dest_offset src n none

end String_c

/-- The String `s` is growable, its length is between 1 and its capacity, and its
buffer is a live `malloc` block of exactly `size` bytes. -/
def Allocated (h : Heap) (s : string) : Prop :=
  s.resizable = true ∧ 1 ≤ s.len ∧ s.len ≤ s.size ∧ s.size < two32 ∧
    ∃ b, s.raw = some { blk := b, off := 0 } ∧ blockInfo h b = some (s.size, true)

/-- The Strings obtained from a constructor by successful calls: `Derived false` from
`String_new`, `Derived true` from `String_new` or from `String_new_steal` on a source
that is not `NULL`, then by any sequence of calls of `String_ncpy_at`, `String_ncat`
and `String_set_size` that return 0.  Every call is made on a heap of the 32-bit
platform with 32-bit unsigned arguments; between two calls the heap may change
anywhere but in the block of the String's buffer. -/
inductive Derived : Bool → Heap → string → Prop
  | new {st : Bool} {h : Heap} {ok : Bool} {a : Alloc} {src : Option Ptr} {n : Nat}
      {s : string} {h1 : Heap} :
      heap32 h = true → String_new h ok a src n = some (some s, h1) → Derived st h1 s
  | steal {h : Heap} {p : Ptr} {size : Nat} {s : string} :
      heap32 h = true → String_new_steal h true (some p) size = some (some s) →
      Derived true h s
  | ncpy_at {st : Bool} {h : Heap} {a : Alloc} {s : string} {off n : Nat} {src : Option Ptr}
      {s2 : string} {h2 : Heap} :
      Derived st h s → heap32 h = true → off < two32 →
      String_ncpy_at h a s off src n = some (0, s2, h2) → Derived st h2 s2
  | ncat {st : Bool} {h : Heap} {a : Alloc} {s : string} {n : Nat} {src : Option Ptr}
      {s2 : string} {h2 : Heap} :
      Derived st h s → heap32 h = true →
      String_ncat h a s src n = some (0, s2, h2) → Derived st h2 s2
  | set_size {st : Bool} {h : Heap} {a : Alloc} {s : string} {k : Nat}
      {s2 : string} {h2 : Heap} :
      Derived st h s → k < two32 →
      String_set_size h a s k = some (0, s2, h2) → Derived st h2 s2
  | frame {st : Bool} {h h1 : Heap} {s : string} :
      Derived st h s → (∀ q, s.raw = some q → blockAt h1 q.blk = blockAt h q.blk) →
      Derived st h1 s

/-! ## Memory lemmas -/

theorem blockAt_set (h : Heap) (b b2 : Nat) (v : Option Block) :
    blockAt (h.set b v) b2 = if b = b2 ∧ b < h.length then v else blockAt h b2 := by
  unfold blockAt
  rw [List.getElem?_set]
  by_cases hb : b = b2
  · subst hb
    by_cases hl : b < h.length
    · simp only [hl, if_true, true_and]
      cases v <;> rfl
    · simp only [hl, if_false, and_false]
      rw [List.getElem?_eq_none (by omega)]
      simp
  · simp [hb]

theorem blockAt_append (h : Heap) (v : Option Block) (b : Nat) :
    blockAt (h ++ [v]) b = if b = h.length then v else blockAt h b := by
  unfold blockAt
  rw [List.getElem?_append]
  by_cases hb : b < h.length
  · have : b ≠ h.length := by omega
    simp [hb, this]
  · by_cases he : b = h.length
    · subst he
      simp
      cases v <;> rfl
    · have h1 : h[b]? = none := List.getElem?_eq_none (by omega)
      have h2 : ([v] : List (Option Block))[b - h.length]? = none :=
        List.getElem?_eq_none (by simp; omega)
      simp [hb, he, h1, h2]

theorem blockAt_lt {h : Heap} {b : Nat} {blk : Block} (hb : blockAt h b = some blk) :
    b < h.length := by
  unfold blockAt at hb
  by_contra hc
  rw [List.getElem?_eq_none (by omega)] at hb
  simp at hb

theorem load_length {h : Heap} {p : Option Ptr} {n : Nat} {bs : List Nat}
    (hl : load h p n = some bs) : bs.length = n := by
  unfold load at hl
  split at hl
  · simp at hl; subst hl; simp; omega
  · split at hl
    · simp at hl
    · split at hl
      · simp at hl
      · split at hl
        · simp at hl; subst hl; simp; omega
        · simp at hl

theorem load_zero (h : Heap) (p : Option Ptr) : load h p 0 = some [] := by simp [load]

theorem load_ptr {h : Heap} {p : Option Ptr} {n : Nat} {bs : List Nat}
    (hl : load h p n = some bs) (hn : 0 < n) : ∃ q, p = some q := by
  cases p with
  | none => simp [load] at hl; omega
  | some q => exact ⟨q, rfl⟩

theorem load_block {h : Heap} {q : Ptr} {n : Nat} {bs : List Nat}
    (hl : load h (some q) n = some bs) (hn : 0 < n) :
    ∃ blk, blockAt h q.blk = some blk ∧ q.off + n ≤ blk.bytes.length ∧
      bs = (blk.bytes.drop q.off).take n := by
  unfold load at hl
  split at hl
  · omega
  · cases hb : blockAt h q.blk with
    | none => simp [hb] at hl
    | some blk =>
      simp only [hb] at hl
      split at hl
      · simp at hl; exact ⟨blk, rfl, by assumption, hl.symm⟩
      · simp at hl

theorem load_of_block {h : Heap} {q : Ptr} {n : Nat} {blk : Block}
    (hb : blockAt h q.blk = some blk) (hn : q.off + n ≤ blk.bytes.length) :
    load h (some q) n = some ((blk.bytes.drop q.off).take n) := by
  unfold load
  by_cases h0 : n = 0
  · subst h0; simp
  · simp [h0, hb, hn]

theorem load_get {h : Heap} {q : Ptr} {n : Nat} {bs : List Nat}
    (hl : load h (some q) n = some bs) (i : Nat) (hi : i < n) :
    rd h q.blk (q.off + i) = bs[i]? := by
  obtain ⟨blk, hb, _, rfl⟩ := load_block hl (by omega)
  simp [rd, hb, List.getElem?_take, hi, List.getElem?_drop]

theorem getElem?_some_of_lt {l : List Nat} {i : Nat} (hi : i < l.length) :
    ∃ v, l[i]? = some v := ⟨_, List.getElem?_eq_getElem hi⟩

theorem store_nil (h : Heap) (p : Option Ptr) : store h p [] = some h := by simp [store]

theorem store_block {h h2 : Heap} {q : Ptr} {bs : List Nat}
    (hs : store h (some q) bs = some h2) (hn : bs ≠ []) :
    ∃ blk, blockAt h q.blk = some blk ∧ q.off + bs.length ≤ blk.bytes.length ∧
      h2 = h.set q.blk (some { blk with
        bytes := blk.bytes.take q.off ++ bs ++ blk.bytes.drop (q.off + bs.length) }) := by
  unfold store at hs
  have h0 : bs.length ≠ 0 := by
    intro hc; exact hn (List.length_eq_zero.mp hc)
  simp only [h0, if_false] at hs
  cases hb : blockAt h q.blk with
  | none => simp [hb] at hs
  | some blk =>
    simp only [hb] at hs
    split at hs
    · exact ⟨blk, rfl, by assumption, (Option.some.inj hs).symm⟩
    · simp at hs

theorem store_null {h h2 : Heap} {bs : List Nat} (hs : store h none bs = some h2) :
    bs = [] ∧ h2 = h := by
  unfold store at hs
  split at hs
  · simp at hs; exact ⟨List.length_eq_zero.mp (by assumption), hs.symm⟩
  · simp at hs

theorem store_of_block {h : Heap} {q : Ptr} {bs : List Nat} {blk : Block}
    (hb : blockAt h q.blk = some blk) (hn : q.off + bs.length ≤ blk.bytes.length)
    (h0 : bs ≠ []) :
    store h (some q) bs = some (h.set q.blk (some { blk with
        bytes := blk.bytes.take q.off ++ bs ++ blk.bytes.drop (q.off + bs.length) })) := by
  unfold store
  have : bs.length ≠ 0 := by
    intro hc; exact h0 (List.length_eq_zero.mp hc)
  simp [this, hb, hn]

theorem splice_get (l bs : List Nat) (o j : Nat) (hb : o + bs.length ≤ l.length) :
    (l.take o ++ bs ++ l.drop (o + bs.length))[j]? =
      if o ≤ j ∧ j < o + bs.length then bs[j - o]? else l[j]? := by
  rw [List.append_assoc, List.getElem?_append]
  have hlen : (List.take o l).length = o := by simp; omega
  rw [hlen]
  by_cases h1 : j < o
  · have : ¬ (o ≤ j ∧ j < o + bs.length) := by omega
    simp [h1, this, List.getElem?_take]
  · rw [List.getElem?_append]
    by_cases h2 : j - o < bs.length
    · have : o ≤ j ∧ j < o + bs.length := by omega
      simp [h1, h2, this]
    · have : ¬ (o ≤ j ∧ j < o + bs.length) := by omega
      simp only [h1, h2, this, if_false]
      rw [List.getElem?_drop]
      congr 1; omega

theorem splice_length (l bs : List Nat) (o : Nat) (hb : o + bs.length ≤ l.length) :
    (l.take o ++ bs ++ l.drop (o + bs.length)).length = l.length := by
  simp; omega

theorem rd_store {h h2 : Heap} {q : Ptr} {bs : List Nat}
    (hs : store h (some q) bs = some h2) (b j : Nat) :
    rd h2 b j = if b = q.blk ∧ q.off ≤ j ∧ j < q.off + bs.length then bs[j - q.off]?
      else rd h b j := by
  by_cases hn : bs = []
  · subst hn
    rw [store_nil] at hs
    have : h2 = h := (Option.some.inj hs).symm
    subst this
    have : ¬ (b = q.blk ∧ q.off ≤ j ∧ j < q.off + ([] : List Nat).length) := by simp
    simp only [this, if_false]
  · obtain ⟨blk, hb, hle, rfl⟩ := store_block hs hn
    unfold rd
    rw [blockAt_set]
    have hlt := blockAt_lt hb
    by_cases he : q.blk = b
    · subst he
      simp only [hlt, and_self, if_true, true_and, hb]
      exact splice_get _ _ _ _ hle
    · have : ¬ (b = q.blk ∧ q.off ≤ j ∧ j < q.off + bs.length) := by
        intro hc; exact he hc.1.symm
      simp [he, this]

theorem info_store {h h2 : Heap} {p : Option Ptr} {bs : List Nat}
    (hs : store h p bs = some h2) (b : Nat) : blockInfo h2 b = blockInfo h b := by
  by_cases hn : bs = []
  · subst hn
    rw [store_nil] at hs
    rw [(Option.some.inj hs).symm]
  · cases p with
    | none => exact absurd (store_null hs).1 hn
    | some q =>
      obtain ⟨blk, hb, hle, rfl⟩ := store_block hs hn
      unfold blockInfo
      rw [blockAt_set]
      have hlt := blockAt_lt hb
      by_cases he : q.blk = b
      · subst he
        simp only [hlt, and_self, if_true, hb, Option.map_some']
        rw [splice_length _ _ _ hle]
      · simp [he]

theorem length_store {h h2 : Heap} {p : Option Ptr} {bs : List Nat}
    (hs : store h p bs = some h2) : h2.length = h.length := by
  by_cases hn : bs = []
  · subst hn
    rw [store_nil] at hs
    rw [(Option.some.inj hs).symm]
  · cases p with
    | none => exact absurd (store_null hs).1 hn
    | some q =>
      obtain ⟨blk, hb, hle, rfl⟩ := store_block hs hn
      simp

theorem store_bound {h h2 : Heap} {q : Ptr} {bs : List Nat}
    (hs : store h (some q) bs = some h2) (hn : bs ≠ []) :
    ∃ L d, blockInfo h q.blk = some (L, d) ∧ q.off + bs.length ≤ L := by
  obtain ⟨blk, hb, hle, _⟩ := store_block hs hn
  exact ⟨blk.bytes.length, blk.dyn, by simp [blockInfo, hb], hle⟩

theorem rd_append (h : Heap) (blk : Block) (b j : Nat) :
    rd (h ++ [some blk]) b j = if b = h.length then blk.bytes[j]? else rd h b j := by
  unfold rd
  rw [blockAt_append]
  by_cases hb : b = h.length <;> simp [hb]

theorem info_append (h : Heap) (blk : Block) (b : Nat) :
    blockInfo (h ++ [some blk]) b =
      if b = h.length then some (blk.bytes.length, blk.dyn) else blockInfo h b := by
  unfold blockInfo
  rw [blockAt_append]
  by_cases hb : b = h.length <;> simp [hb]

theorem info_lt {h : Heap} {b : Nat} {x : Nat × Bool} (hb : blockInfo h b = some x) :
    b < h.length := by
  unfold blockInfo at hb
  cases hc : blockAt h b with
  | none => simp [hc] at hb
  | some blk => exact blockAt_lt hc

theorem rd_lt {h : Heap} {b j v : Nat} (hb : rd h b j = some v) : b < h.length := by
  unfold rd at hb
  cases hc : blockAt h b with
  | none => simp [hc] at hb
  | some blk => exact blockAt_lt hc

theorem free_spec {h h2 : Heap} {q : Ptr} (hf : free h (some q) = some h2) :
    q.off = 0 ∧ (∃ L, blockInfo h q.blk = some (L, true)) ∧ h2 = h.set q.blk none := by
  unfold free at hf
  simp only at hf
  cases hb : blockAt h q.blk with
  | none => simp [hb] at hf
  | some blk =>
    simp only [hb] at hf
    split at hf
    · rename_i hc
      refine ⟨hc.1, ⟨blk.bytes.length, ?_⟩, (Option.some.inj hf).symm⟩
      simp [blockInfo, hb, hc.2]
    · simp at hf

theorem free_null (h : Heap) : free h none = some h := rfl

theorem rd_free {h h2 : Heap} {q : Ptr} (hf : free h (some q) = some h2) (b j : Nat) :
    rd h2 b j = if b = q.blk then none else rd h b j := by
  obtain ⟨_, ⟨L, hL⟩, rfl⟩ := free_spec hf
  have hlt := info_lt hL
  unfold rd
  rw [blockAt_set]
  by_cases hb : q.blk = b
  · subst hb; simp [hlt]
  · have : ¬ b = q.blk := fun hc => hb hc.symm
    simp [hb, this]

theorem info_free {h h2 : Heap} {q : Ptr} (hf : free h (some q) = some h2) (b : Nat) :
    blockInfo h2 b = if b = q.blk then none else blockInfo h b := by
  obtain ⟨_, ⟨L, hL⟩, rfl⟩ := free_spec hf
  have hlt := info_lt hL
  unfold blockInfo
  rw [blockAt_set]
  by_cases hb : q.blk = b
  · subst hb; simp [hlt]
  · have : ¬ b = q.blk := fun hc => hb hc.symm
    simp [hb, this]

theorem free_of_info {h : Heap} {b L : Nat} (hb : blockInfo h b = some (L, true)) :
    free h (some { blk := b, off := 0 }) = some (h.set b none) := by
  unfold blockInfo at hb
  unfold free
  cases hc : blockAt h b with
  | none => simp [hc] at hb
  | some blk =>
    simp [hc] at hb
    simp [hc, hb.2]

/-- `heap32` in terms of `blockInfo`. -/
theorem heap32_iff (h : Heap) :
    heap32 h = true ↔ ∀ b L d, blockInfo h b = some (L, d) → L < two32 := by
  unfold heap32
  rw [List.all_eq_true]
  constructor
  · intro hall b L d hb
    unfold blockInfo blockAt at hb
    cases hg : h[b]? with
    | none => simp [hg] at hb
    | some ob =>
      cases ob with
      | none => simp [hg] at hb
      | some blk =>
        simp [hg] at hb
        have := hall (some blk) (List.getElem?_mem hg)
        simp at this
        omega
  · intro hall x hx
    cases x with
    | none => rfl
    | some blk =>
      obtain ⟨b, hb⟩ := List.mem_iff_getElem?.mp hx
      have := hall b blk.bytes.length blk.dyn (by simp [blockInfo, blockAt, hb])
      simp [this]

theorem u32_lt (x : Nat) : u32 x < two32 := Nat.mod_lt _ (by decide)

theorem u32_of_lt {x : Nat} (hx : x < two32) : u32 x = x := Nat.mod_eq_of_lt hx

theorem usub_of_le {a b : Nat} (hb : b ≤ a) (ha : a < two32) : usub a b = a - b := by
  unfold usub two32 at *
  omega

/-- The gap fill of `String_ncpy_at` (lines 106 to 108). -/
theorem gap_fill_spec {h h1 : Heap} {r : Ptr} {len off : Nat}
    (hg : (if len < off then memset h (padd (some r) len) 0 (off - len) else some h) = some h1) :
    (∀ b j, rd h1 b j =
        if len < off ∧ b = r.blk ∧ r.off + len ≤ j ∧ j < r.off + off then some 0
        else rd h b j) ∧
    (∀ b, blockInfo h1 b = blockInfo h b) ∧ h1.length = h.length := by
  by_cases hlt : len < off
  · simp only [hlt, if_true, memset, padd, Option.map_some'] at hg
    refine ⟨fun b j => ?_, fun b => info_store hg b, length_store hg⟩
    rw [rd_store hg b j]
    simp only [List.length_replicate, hlt, true_and]
    by_cases hc : b = r.blk ∧ r.off + len ≤ j ∧ j < r.off + len + (off - len)
    · have hc2 : b = r.blk ∧ r.off + len ≤ j ∧ j < r.off + off := ⟨hc.1, hc.2.1, by omega⟩
      simp only [hc, hc2, and_self, if_true, List.getElem?_replicate]
      have : j - (r.off + len) < off - len := by omega
      simp [this]
    · have hc2 : ¬ (b = r.blk ∧ r.off + len ≤ j ∧ j < r.off + off) := by
        intro hx; exact hc ⟨hx.1, hx.2.1, by omega⟩
      simp only [hc, hc2, if_false]
  · simp only [hlt, if_false] at hg
    have : h1 = h := (Option.some.inj hg).symm
    subst this
    simp [hlt]

theorem ncpy_at_write_spec {h : Heap} {dest : string} {off n : Nat} {src old : Option Ptr}
    {ret : Int} {s2 : string} {h2 : Heap}
    (hw : ncpy_at_write h dest off src n old = some (ret, s2, h2)) :
    ∃ (r : Ptr) (bs : List Nat) (h3 : Heap),
      dest.raw = some r ∧ ret = 0 ∧ s2 = { dest with len := u32 (n + off + 1) } ∧
      bs.length = n ∧
      free h3 old = some h2 ∧
      (∀ i, i < n → ∃ q, src = some q ∧
          bs[i]? = (if dest.len < off ∧ q.blk = r.blk ∧ r.off + dest.len ≤ q.off + i ∧
                      q.off + i < r.off + off then some 0 else rd h q.blk (q.off + i))) ∧
      (∀ b j, rd h3 b j =
        if b = r.blk ∧ j = r.off + u32 (n + off) then some 0
        else if b = r.blk ∧ r.off + off ≤ j ∧ j < r.off + off + n then bs[j - (r.off + off)]?
        else if dest.len < off ∧ b = r.blk ∧ r.off + dest.len ≤ j ∧ j < r.off + off then some 0
        else rd h b j) ∧
      (∀ b, blockInfo h3 b = blockInfo h b) ∧ h3.length = h.length ∧
      (∃ L d, blockInfo h r.blk = some (L, d) ∧ r.off + u32 (n + off) + 1 ≤ L ∧
        (0 < n → r.off + off + n ≤ L)) := by
  unfold ncpy_at_write at hw
  simp only [Option.bind_eq_some] at hw
  obtain ⟨h1, hg, h2a, hm, h3, hst, h4, hf, hw⟩ := hw
  simp only [Option.some.injEq, Prod.mk.injEq] at hw
  obtain ⟨rfl, rfl, rfl⟩ := hw
  cases hr : dest.raw with
  | none =>
    -- the terminator cannot be written through a null pointer
    simp only [hr, padd, Option.map_none'] at hst
    have := (store_null hst).1
    simp at this
  | some r =>
    simp only [hr] at hg hm hst
    obtain ⟨g1, g2, g3⟩ := gap_fill_spec hg
    unfold memmove at hm
    cases hl : load h1 src n with
    | none => simp [hl] at hm
    | some bs =>
      simp only [hl, padd, Option.map_some'] at hm hst
      have hlen := load_length hl
      refine ⟨r, bs, h3, rfl, rfl, rfl, hlen, hf, ?_, ?_, ?_, ?_, ?_⟩
      · intro i hi
        obtain ⟨q, rfl⟩ := load_ptr hl (by omega)
        refine ⟨q, rfl, ?_⟩
        rw [← load_get hl i hi, g1]
      · intro b j
        rw [rd_store hst b j, rd_store hm b j, g1 b j]
        simp only [List.length_singleton, hlen]
        by_cases c1 : b = r.blk ∧ j = r.off + u32 (n + off)
        · have : b = r.blk ∧ r.off + u32 (n + off) ≤ j ∧ j < r.off + u32 (n + off) + 1 :=
            ⟨c1.1, by omega, by omega⟩
          have h0 : j - (r.off + u32 (n + off)) = 0 := by omega
          simp [c1, h0]
        · have : ¬ (b = r.blk ∧ r.off + u32 (n + off) ≤ j ∧ j < r.off + u32 (n + off) + 1) := by
            intro hx; exact c1 ⟨hx.1, by omega⟩
          simp only [this, c1, if_false]
      · intro b
        rw [info_store hst b, info_store hm b, g2 b]
      · rw [length_store hst, length_store hm, g3]
      · obtain ⟨L, d, hL, hle⟩ := store_bound hst (by simp)
        rw [info_store hm, g2] at hL
        refine ⟨L, d, hL, by simpa using hle, fun hn => ?_⟩
        have hne : bs ≠ [] := by
          intro hc; rw [hc] at hlen; simp at hlen; omega
        obtain ⟨L2, d2, hL2, hle2⟩ := store_bound hm hne
        rw [g2, hL] at hL2
        simp only [Option.some.injEq, Prod.mk.injEq] at hL2
        simp only [hlen] at hle2
        omega

theorem round_up_lt (x : Nat) : round_up_to_the_next_power_of_2 x < two32 := by
  unfold round_up_to_the_next_power_of_2
  exact u32_lt _

theorem malloc_none (h : Heap) (size : Nat) : malloc h none size = (h, none) := rfl

theorem malloc_some (h : Heap) (junk : Nat → Nat) (size : Nat) :
    malloc h (some junk) size =
      (h ++ [some { bytes := (List.range size).map junk, dyn := true }],
       some { blk := h.length, off := 0 }) := rfl

theorem resize_none {h : Heap} {a : Alloc} {s : string} {size : Nat} {s1 : string} {h1 : Heap}
    (hr : resize h a s size = (none, s1, h1)) :
    s1 = s ∧ h1 = h ∧ (s.resizable = false ∨ a = none) := by
  rcases s with ⟨raw, len, sz, res⟩
  cases res with
  | false =>
    simp only [resize, if_true, Prod.mk.injEq, true_and] at hr
    exact ⟨hr.1.symm, hr.2.symm, Or.inl rfl⟩
  | true =>
    cases a with
    | none =>
      simp only [resize, malloc_none, Prod.mk.injEq, true_and] at hr
      simp at hr
      exact ⟨hr.1.symm, hr.2.symm, Or.inr rfl⟩
    | some junk =>
      cases raw with
      | none => simp [resize, malloc_some] at hr
      | some r => simp [resize, malloc_some] at hr

theorem resize_some {h : Heap} {a : Alloc} {s : string} {size : Nat} {old : Ptr}
    {s1 : string} {h1 : Heap}
    (hr : resize h a s size = (some old, s1, h1)) :
    s.resizable = true ∧ ∃ junk, a = some junk ∧
      h1 = h ++ [some { bytes := (List.range (round_up_to_the_next_power_of_2 size)).map junk,
                        dyn := true }] ∧
      s1 = { s with raw := some { blk := h.length, off := 0 },
                    size := round_up_to_the_next_power_of_2 size } ∧
      old = s.raw.getD { blk := h.length, off := 0 } := by
  rcases s with ⟨raw, len, sz, res⟩
  cases res with
  | false => simp [resize] at hr
  | true =>
    cases a with
    | none => simp [resize, malloc_none] at hr
    | some junk =>
      refine ⟨rfl, junk, rfl, ?_⟩
      cases raw with
      | none =>
        simp [resize, malloc_some] at hr
        obtain ⟨h1e, h2e, h3e⟩ := hr
        exact ⟨h3e.symm, h2e.symm, by simp [h1e]⟩
      | some r =>
        simp [resize, malloc_some] at hr
        obtain ⟨h1e, h2e, h3e⟩ := hr
        exact ⟨h3e.symm, h2e.symm, by simp [h1e]⟩

theorem resize_and_cpy_none {h : Heap} {a : Alloc} {s : string} {size off : Nat}
    {s1 : string} {h1 : Heap}
    (hr : resize_and_cpy h a s size off = some (none, s1, h1)) :
    s1 = s ∧ h1 = h ∧ (s.resizable = false ∨ a = none) := by
  unfold resize_and_cpy at hr
  rcases hx : resize h a s size with ⟨o, sx, hx1⟩
  rw [hx] at hr
  cases o with
  | none =>
    simp only [Option.some.injEq, Prod.mk.injEq, true_and] at hr
    obtain ⟨rfl, rfl⟩ := hr
    exact resize_none hx
  | some old =>
    exfalso
    simp only at hr
    by_cases hc : sx.len ≤ off
    · simp only [hc, if_true, Option.map_eq_some'] at hr
      obtain ⟨_, _, hr⟩ := hr
      simp at hr
    · simp only [hc, if_false, Option.map_eq_some'] at hr
      obtain ⟨_, _, hr⟩ := hr
      simp at hr

theorem resize_and_cpy_some {h : Heap} {a : Alloc} {s : string} {size off : Nat} {old : Ptr}
    {s1 : string} {h2 : Heap}
    (hr : resize_and_cpy h a s size off = some (some old, s1, h2)) :
    s.resizable = true ∧ ∃ junk, a = some junk ∧
      s1 = { s with raw := some { blk := h.length, off := 0 },
                    size := round_up_to_the_next_power_of_2 size } ∧
      old = s.raw.getD { blk := h.length, off := 0 } ∧
      memmove (h ++ [some { bytes := (List.range (round_up_to_the_next_power_of_2 size)).map junk,
                            dyn := true }])
        (some { blk := h.length, off := 0 }) (some old)
        (if s.len ≤ off then s.len else off) = some h2 := by
  unfold resize_and_cpy at hr
  rcases hx : resize h a s size with ⟨o, sx, hx1⟩
  rw [hx] at hr
  cases o with
  | none => simp at hr
  | some old2 =>
    obtain ⟨hres, junk, rfl, rfl, rfl, rfl⟩ := resize_some hx
    refine ⟨hres, junk, rfl, ?_⟩
    simp only at hr
    by_cases hc : s.len ≤ off
    · simp only [hc, if_true, Option.map_eq_some'] at hr ⊢
      obtain ⟨hh, hm, hr⟩ := hr
      simp only [Prod.mk.injEq, Option.some.injEq] at hr
      obtain ⟨rfl, rfl, rfl⟩ := hr
      exact ⟨rfl, rfl, hm⟩
    · simp only [hc, if_false, Option.map_eq_some'] at hr ⊢
      obtain ⟨hh, hm, hr⟩ := hr
      simp only [Prod.mk.injEq, Option.some.injEq] at hr
      obtain ⟨rfl, rfl, rfl⟩ := hr
      exact ⟨rfl, rfl, hm⟩

/-- Effect of the prefix copy of `resize_and_cpy` into the fresh block. -/
theorem prefix_copy_spec {h h2 : Heap} {blk : Block} {old : Ptr} {k : Nat}
    (hm : memmove (h ++ [some blk]) (some { blk := h.length, off := 0 }) (some old) k = some h2) :
    (∀ b j, rd h2 b j =
        if b = h.length then
          (if j < k then rd (h ++ [some blk]) old.blk (old.off + j) else blk.bytes[j]?)
        else rd h b j) ∧
    (∀ b, blockInfo h2 b =
        if b = h.length then some (blk.bytes.length, blk.dyn) else blockInfo h b) ∧
    h2.length = h.length + 1 := by
  unfold memmove at hm
  cases hl : load (h ++ [some blk]) (some old) k with
  | none => simp [hl] at hm
  | some bs =>
    simp only [hl] at hm
    have hlen := load_length hl
    refine ⟨fun b j => ?_, fun b => ?_, ?_⟩
    · rw [rd_store hm b j, rd_append]
      simp only [hlen, Nat.zero_le, true_and, Nat.zero_add, Nat.sub_zero]
      by_cases hb : b = h.length
      · by_cases hj : j < k
        · simp only [hb, hj, and_self, if_true]
          exact (load_get hl j hj).symm
        · simp [hb, hj]
      · simp [hb]
    · rw [info_store hm b, info_append]
    · rw [length_store hm]; simp

theorem ncpy_at_fail {h : Heap} {a : Alloc} {dest : string} {off n : Nat} {src : Option Ptr}
    {ret : Int} {s2 : string} {h2 : Heap}
    (hc : String_ncpy_at h a dest off src n = some (ret, s2, h2)) (hne : ret ≠ 0) :
    ret = -1 ∧ s2 = dest ∧ h2 = h ∧ dest.size < u32 (off + n + 1) ∧
      (dest.resizable = false ∨ a = none) := by
  unfold String_ncpy_at at hc
  by_cases h1 : src = none ∧ n ≠ 0
  · simp [h1] at hc
  · simp only [h1, if_false] at hc
    by_cases h2c : dest.size < u32 (off + n + 1)
    · simp only [h2c, if_true] at hc
      cases hr : resize_and_cpy h a dest (u32 (off + n + 1)) off with
      | none => simp [hr] at hc
      | some x =>
        rcases x with ⟨o, s1, h1x⟩
        cases o with
        | none =>
          simp only [hr, Option.some.injEq, Prod.mk.injEq] at hc
          obtain ⟨rfl, rfl, rfl⟩ := hc
          obtain ⟨e1, e2, e3⟩ := resize_and_cpy_none hr
          exact ⟨rfl, e1, e2, h2c, e3⟩
        | some old =>
          simp only [hr] at hc
          obtain ⟨_, _, _, _, e, _⟩ := ncpy_at_write_spec hc
          exact absurd e hne
    · simp only [h2c, if_false] at hc
      obtain ⟨_, _, _, _, e, _⟩ := ncpy_at_write_spec hc
      exact absurd e hne

theorem ncpy_at_ok {h : Heap} {a : Alloc} {dest : string} {off n : Nat} {src : Option Ptr}
    {s2 : string} {h2 : Heap}
    (hc : String_ncpy_at h a dest off src n = some (0, s2, h2)) :
    ∃ (r2 : Ptr) (L : Nat) (d : Bool),
      s2.raw = some r2 ∧ s2.len = u32 (n + off + 1) ∧ s2.resizable = dest.resizable ∧
      rd h2 r2.blk (r2.off + u32 (n + off)) = some 0 ∧
      (∀ i q v, i < n → src = some q → rd h q.blk (q.off + i) = some v →
        ¬ gapAlias dest off n q i → off + i ≠ u32 (n + off) →
        rd h2 r2.blk (r2.off + (off + i)) = some v) ∧
      (∀ j, dest.len ≤ j → j < off → rd h2 r2.blk (r2.off + j) = some 0) ∧
      (∀ j v, j < dest.len → j < off → j ≠ u32 (n + off) → byteAt h dest.raw j = some v →
        rd h2 r2.blk (r2.off + j) = some v) ∧
      blockInfo h2 r2.blk = some (L, d) ∧ r2.off + u32 (n + off) + 1 ≤ L ∧
      (0 < n → r2.off + off + n ≤ L) ∧ (heap32 h = true → L < two32) ∧
      (∀ b j, b ≠ r2.blk → (∀ r, dest.raw = some r → b ≠ r.blk) → rd h2 b j = rd h b j) ∧
      ((¬ dest.size < u32 (off + n + 1) ∧ s2.raw = dest.raw ∧ s2.size = dest.size ∧
        (∀ b, blockInfo h2 b = blockInfo h b)) ∨
       (dest.size < u32 (off + n + 1) ∧ dest.resizable = true ∧ a ≠ none ∧
        s2.raw = some { blk := h.length, off := 0 } ∧
        s2.size = round_up_to_the_next_power_of_2 (u32 (off + n + 1)) ∧
        blockInfo h2 h.length = some (s2.size, true))) := by
  unfold String_ncpy_at at hc
  by_cases h1 : src = none ∧ n ≠ 0
  · simp [h1] at hc
  simp only [h1, if_false] at hc
  by_cases h2c : dest.size < u32 (off + n + 1)
  · -- the reallocating path
    simp only [h2c, if_true] at hc
    cases hr : resize_and_cpy h a dest (u32 (off + n + 1)) off with
    | none => simp [hr] at hc
    | some x =>
      rcases x with ⟨o, s1, h1x⟩
      cases o with
      | none => simp [hr] at hc
      | some old =>
        simp only [hr] at hc
        obtain ⟨hres, junk, ha, rfl, hold, hm⟩ := resize_and_cpy_some hr
        obtain ⟨p1, p2, p3⟩ := prefix_copy_spec hm
        obtain ⟨r, bs, h3, hraw, _, rfl, hlen, hf, hsrc, hrd, hinfo, hl3, Lw, dw, hLw, hb1, hb2⟩ :=
          ncpy_at_write_spec hc
        simp only [Option.some.injEq] at hraw
        subst hraw
        -- the released block is not the new one
        have hfree : ∀ b j, b = h.length → rd h2 b j = rd h3 b j := by
          intro b j hb
          by_cases ho : some old = some ({ blk := h.length, off := 0 } : Ptr)
          · simp only [ho, if_true] at hf
            rw [free_null] at hf
            rw [(Option.some.inj hf)]
          · simp only [ho, if_false] at hf
            obtain ⟨f1, _, _⟩ := free_spec hf
            rw [rd_free hf]
            have : b ≠ old.blk := by
              intro hx
              apply ho
              rcases old with ⟨ob, oo⟩
              simp at f1 hx ⊢
              exact ⟨by omega, f1⟩
            simp [this]
        have hLw2 : Lw = round_up_to_the_next_power_of_2 (u32 (off + n + 1)) ∧ dw = true := by
          rw [p2] at hLw
          simpa using hLw.symm
        dsimp only at hrd hb1 hb2 hsrc hLw
        have hnew : blockInfo h2 h.length = some (Lw, dw) := by
          rw [← hLw, ← hinfo]
          by_cases ho : some old = some ({ blk := h.length, off := 0 } : Ptr)
          · simp only [ho, if_true] at hf
            rw [free_null] at hf
            rw [(Option.some.inj hf)]
          · simp only [ho, if_false] at hf
            obtain ⟨f1, _, _⟩ := free_spec hf
            rw [info_free hf]
            have : h.length ≠ old.blk := by
              intro hx
              apply ho
              rcases old with ⟨ob, oo⟩
              simp at f1 hx ⊢
              exact ⟨by omega, f1⟩
            simp [this]
        refine ⟨{ blk := h.length, off := 0 }, Lw, dw, rfl, rfl, rfl, ?_, ?_, ?_, ?_, hnew, ?_,
          ?_, ?_, ?_, ?_⟩
        · dsimp only
          rw [hfree _ _ rfl, hrd, if_pos (by omega)]
        · intro i q v hi hq hv _ hne
          dsimp only
          rw [hfree _ _ rfl, hrd, if_neg (by omega), if_pos (by omega)]
          obtain ⟨q2, hq2, hbs⟩ := hsrc i hi
          rw [hq] at hq2
          simp only [Option.some.injEq] at hq2
          subst hq2
          have hqlt := rd_lt hv
          have : 0 + (off + i) - (0 + off) = i := by omega
          rw [this, hbs, if_neg (by omega), p1, if_neg (by omega)]
          exact hv
        · intro j hj1 hj2
          dsimp only
          rw [hfree _ _ rfl, hrd]
          by_cases c1 : j = u32 (n + off)
          · rw [if_pos (by omega)]
          · rw [if_neg (by omega), if_neg (by omega), if_pos (by omega)]
        · intro j v hj1 hj2 hj3 hv
          dsimp only
          rw [hfree _ _ rfl, hrd, if_neg (by omega), if_neg (by omega), if_neg (by omega), p1,
            if_pos rfl]
          cases hdr : dest.raw with
          | none => simp [hdr, byteAt] at hv
          | some r0 =>
            simp only [hdr, byteAt] at hv
            simp only [hdr, Option.getD_some] at hold
            subst hold
            have hk : 0 + j < (if dest.len ≤ off then dest.len else off) := by
              split <;> omega
            have := rd_lt hv
            rw [if_pos hk, rd_append, if_neg (by omega)]
            simpa using hv
        · simpa using hb1
        · simpa using hb2
        · intro _
          rw [hLw2.1]
          exact round_up_lt _
        · intro b j hb1x hb2x
          dsimp only at hb1x
          have e3 : rd h3 b j = rd h b j := by
            rw [hrd, if_neg (by omega), if_neg (by omega), if_neg (by omega), p1,
              if_neg (by omega)]
          by_cases ho : some old = some ({ blk := h.length, off := 0 } : Ptr)
          · simp only [ho, if_true] at hf
            rw [free_null] at hf
            rw [← (Option.some.inj hf)]
            exact e3
          · simp only [ho, if_false] at hf
            rw [rd_free hf, e3]
            cases hdr : dest.raw with
            | none =>
              simp only [hdr, Option.getD_none] at hold
              exact absurd (by rw [hold]) ho
            | some r0 =>
              simp only [hdr, Option.getD_some] at hold
              subst hold
              have := hb2x _ hdr
              simp [this]
        · right
          refine ⟨h2c, hres, ?_, rfl, rfl, ?_⟩
          · rw [ha]; simp
          · rw [hnew, hLw2.1, hLw2.2]
  · -- the in-place path
    simp only [h2c, if_false] at hc
    obtain ⟨r, bs, h3, hraw, _, rfl, hlen, hf, hsrc, hrd, hinfo, hl3, Lw, dw, hLw, hb1, hb2⟩ :=
      ncpy_at_write_spec hc
    rw [free_null] at hf
    have hf : h3 = h2 := Option.some.inj hf
    subst hf
    refine ⟨r, Lw, dw, hraw, rfl, rfl, ?_, ?_, ?_, ?_, ?_, hb1, hb2, ?_, ?_, ?_⟩
    · rw [hrd, if_pos (by omega)]
    · intro i q v hi hq hv hga hne
      rw [hrd, if_neg (by omega), if_pos (by omega)]
      obtain ⟨q2, hq2, hbs⟩ := hsrc i hi
      rw [hq] at hq2
      simp only [Option.some.injEq] at hq2
      subst hq2
      have : r.off + (off + i) - (r.off + off) = i := by omega
      rw [this, hbs]
      have c3 : ¬ (dest.len < off ∧ q.blk = r.blk ∧ r.off + dest.len ≤ q.off + i ∧
          q.off + i < r.off + off) := by
        intro hx
        exact hga ⟨h2c, hx.1, r, hraw, hx.2.1, hx.2.2.1, hx.2.2.2⟩
      rw [if_neg c3]
      exact hv
    · intro j hj1 hj2
      rw [hrd]
      by_cases c1 : j = u32 (n + off)
      · rw [if_pos (by omega)]
      · rw [if_neg (by omega), if_neg (by omega), if_pos (by omega)]
    · intro j v hj1 hj2 hj3 hv
      rw [hrd, if_neg (by omega), if_neg (by omega), if_neg (by omega)]
      simpa [hraw, byteAt] using hv
    · rw [hinfo]; exact hLw
    · intro h32
      exact (heap32_iff h).mp h32 _ _ _ hLw
    · intro b j hb1x _
      rw [hrd, if_neg (by omega), if_neg (by omega), if_neg (by omega)]
    · left
      exact ⟨h2c, hraw.symm ▸ rfl, rfl, hinfo⟩

theorem byteAt_some (h : Heap) (q : Ptr) (i : Nat) :
    byteAt h (some q) i = rd h q.blk (q.off + i) := rfl

theorem strncmpBytes_same : ∀ (n : Nat) (xs ys : List Nat),
    (∀ i, i < n → ∃ v, xs[i]? = some v ∧ ys[i]? = some v) → strncmpBytes n xs ys = some 0
  | 0, _, _, _ => by simp [strncmpBytes]
  | n + 1, xs, ys, hxy => by
    obtain ⟨v, hx, hy⟩ := hxy 0 (by omega)
    cases xs with
    | nil => simp at hx
    | cons x xs =>
      cases ys with
      | nil => simp at hy
      | cons y ys =>
        simp at hx hy
        have hxy2 : x = y := by rw [hx, hy]
        subst hxy2
        simp only [strncmpBytes, ne_eq, not_true_eq_false, if_false]
        by_cases h0 : x = 0
        · simp [h0]
        · simp only [h0, if_false]
          apply strncmpBytes_same n xs ys
          intro i hi
          obtain ⟨w, hx, hy⟩ := hxy (i + 1) (by omega)
          exact ⟨w, by simpa using hx, by simpa using hy⟩

theorem strncmp_same {h : Heap} {p q : Ptr} {n : Nat}
    (hpq : ∀ i, i < n → ∃ v, rd h p.blk (p.off + i) = some v ∧ rd h q.blk (q.off + i) = some v) :
    strncmp h (some p) (some q) n = some 0 := by
  unfold strncmp
  by_cases h0 : n = 0
  · simp [h0]
  · simp only [h0, if_false]
    obtain ⟨v, hp, hq⟩ := hpq 0 (by omega)
    unfold rd at hp hq
    cases hbp : blockAt h p.blk with
    | none => simp [hbp] at hp
    | some b1 =>
      cases hbq : blockAt h q.blk with
      | none => simp [hbq] at hq
      | some b2 =>
        simp only
        apply strncmpBytes_same
        intro i hi
        obtain ⟨w, hp2, hq2⟩ := hpq i hi
        simp only [rd, hbp, hbq] at hp2 hq2
        exact ⟨w, by rw [List.getElem?_drop]; exact hp2, by rw [List.getElem?_drop]; exact hq2⟩

/-- A successful `String_ncpy_at` on a 32-bit heap has not wrapped around. -/
theorem ncpy_at_nowrap {h : Heap} {a : Alloc} {dest : string} {off n : Nat} {src : Option Ptr}
    {s2 : string} {h2 : Heap}
    (hc : String_ncpy_at h a dest off src n = some (0, s2, h2))
    (h32 : heap32 h = true) (hoff : off < two32) : off + n + 1 < two32 := by
  obtain ⟨r2, L, d, _, _, _, _, _, _, _, _, hb1, hb2, hb3, _, _⟩ := ncpy_at_ok hc
  have hL := hb3 h32
  by_cases hn : 0 < n
  · have := hb2 hn
    have e : u32 (n + off) = n + off := u32_of_lt (by omega)
    rw [e] at hb1
    omega
  · have hn0 : n = 0 := by omega
    subst hn0
    have e : u32 (0 + off) = off := by rw [Nat.zero_add]; exact u32_of_lt hoff
    rw [e] at hb1
    omega

theorem firstZero_lt : ∀ (l : List Nat) (k : Nat), firstZero l = some k → k < l.length
  | [], k, hk => by simp [firstZero] at hk
  | b :: bs, k, hk => by
    unfold firstZero at hk
    by_cases hb : b = 0
    · simp [hb] at hk
      subst hk
      simp
    · simp only [hb, if_false, Option.map_eq_some'] at hk
      obtain ⟨j, hj, rfl⟩ := hk
      have := firstZero_lt bs j hj
      simp
      omega

theorem strlen_lt {h : Heap} {p : Option Ptr} {k : Nat} (h32 : heap32 h = true)
    (hk : strlen h p = some k) : k + 1 < two32 := by
  unfold strlen at hk
  cases p with
  | none => simp at hk
  | some q =>
    simp only at hk
    cases hb : blockAt h q.blk with
    | none => simp [hb] at hk
    | some blk =>
      simp only [hb] at hk
      by_cases hq : q.off ≤ blk.bytes.length
      · simp only [hq, if_true] at hk
        have h1 := firstZero_lt _ _ hk
        have h2 := (heap32_iff h).mp h32 q.blk blk.bytes.length blk.dyn (by simp [blockInfo, hb])
        simp at h1
        omega
      · simp [hq] at hk

theorem strlen_info {h : Heap} {q : Ptr} {k : Nat} (hk : strlen h (some q) = some k) :
    ∃ L d, blockInfo h q.blk = some (L, d) ∧ q.off + k + 1 ≤ L := by
  unfold strlen at hk
  simp only at hk
  cases hb : blockAt h q.blk with
  | none => simp [hb] at hk
  | some blk =>
    simp only [hb] at hk
    by_cases hq : q.off ≤ blk.bytes.length
    · simp only [hq, if_true] at hk
      have h1 := firstZero_lt _ _ hk
      simp at h1
      exact ⟨blk.bytes.length, blk.dyn, by simp [blockInfo, hb], by omega⟩
    · simp [hq] at hk

theorem le_lor (a b : Nat) : a ≤ a ||| b :=
  Nat.le_of_testBit (by intro i hi; simp [hi])

theorem shiftRight_lt {a k : Nat} (s : Nat) (ha : a < 2 ^ k) : a >>> s < 2 ^ k := by
  rw [Nat.shiftRight_eq_div_pow]
  exact Nat.lt_of_le_of_lt (Nat.div_le_self _ _) ha

/-- Up to `2^31` the result of `round_up_to_the_next_power_of_2` is not below its
argument. -/
theorem round_up_ge {x : Nat} (h1 : 1 ≤ x) (h2 : x ≤ 2147483648) :
    x ≤ round_up_to_the_next_power_of_2 x := by
  simp only [round_up_to_the_next_power_of_2]
  have e0 : usub x 1 = x - 1 := usub_of_le h1 (by unfold two32; omega)
  rw [e0]
  have hm : x - 1 < 2 ^ 31 := by norm_num; omega
  generalize hxm : x - 1 = m at hm e0 ⊢
  have a1 : m ||| m >>> 1 < 2 ^ 31 := Nat.or_lt_two_pow hm (shiftRight_lt 1 hm)
  have b1 := le_lor m (m >>> 1)
  generalize m ||| m >>> 1 = m1 at a1 b1 ⊢
  have a2 : m1 ||| m1 >>> 2 < 2 ^ 31 := Nat.or_lt_two_pow a1 (shiftRight_lt 2 a1)
  have b2 := le_lor m1 (m1 >>> 2)
  generalize m1 ||| m1 >>> 2 = m2 at a2 b2 ⊢
  have a3 : m2 ||| m2 >>> 4 < 2 ^ 31 := Nat.or_lt_two_pow a2 (shiftRight_lt 4 a2)
  have b3 := le_lor m2 (m2 >>> 4)
  generalize m2 ||| m2 >>> 4 = m3 at a3 b3 ⊢
  have a4 : m3 ||| m3 >>> 8 < 2 ^ 31 := Nat.or_lt_two_pow a3 (shiftRight_lt 8 a3)
  have b4 := le_lor m3 (m3 >>> 8)
  generalize m3 ||| m3 >>> 8 = m4 at a4 b4 ⊢
  have a5 : m4 ||| m4 >>> 16 < 2 ^ 31 := Nat.or_lt_two_pow a4 (shiftRight_lt 16 a4)
  have b5 := le_lor m4 (m4 >>> 16)
  generalize m4 ||| m4 >>> 16 = m5 at a5 b5 ⊢
  have a6 : m5 < 2147483648 := a5
  have e1 : u32 (m5 + 1) = m5 + 1 := u32_of_lt (by unfold two32; omega)
  have e2 : ¬ (m5 + 1 = 0) := by omega
  simp only [e1, e2, if_false, Nat.add_zero]
  omega

theorem store_total {h : Heap} {q : Ptr} {bs : List Nat} {L : Nat} {d : Bool}
    (hi : blockInfo h q.blk = some (L, d)) (hle : q.off + bs.length ≤ L) :
    ∃ h2, store h (some q) bs = some h2 := by
  by_cases hn : bs = []
  · subst hn; exact ⟨h, store_nil _ _⟩
  · unfold blockInfo at hi
    cases hb : blockAt h q.blk with
    | none => simp [hb] at hi
    | some blk =>
      simp [hb] at hi
      exact ⟨_, store_of_block hb (by omega) hn⟩

theorem load_total {h : Heap} {q : Ptr} {n : Nat} {L : Nat} {d : Bool}
    (hi : blockInfo h q.blk = some (L, d)) (hle : q.off + n ≤ L) :
    ∃ bs, load h (some q) n = some bs := by
  unfold blockInfo at hi
  cases hb : blockAt h q.blk with
  | none => simp [hb] at hi
  | some blk =>
    simp [hb] at hi
    exact ⟨_, load_of_block hb (by omega)⟩

theorem load_info {h : Heap} {q : Ptr} {n : Nat} {bs : List Nat}
    (hl : load h (some q) n = some bs) (hn : 0 < n) :
    ∃ L d, blockInfo h q.blk = some (L, d) ∧ q.off + n ≤ L := by
  obtain ⟨blk, hb, hle, _⟩ := load_block hl hn
  exact ⟨blk.bytes.length, blk.dyn, by simp [blockInfo, hb], hle⟩

/-- A load succeeds in a heap whose blocks have the lengths of a heap where it
succeeds. -/
theorem load_transfer {h h1 : Heap} {p : Option Ptr} {n : Nat} {bs : List Nat}
    (hl : load h p n = some bs) (hinfo : ∀ b, blockInfo h1 b = blockInfo h b) :
    ∃ bs1, load h1 p n = some bs1 := by
  by_cases hn : n = 0
  · subst hn; exact ⟨[], load_zero _ _⟩
  · obtain ⟨q, rfl⟩ := load_ptr hl (by omega)
    obtain ⟨L, d, hi, hle⟩ := load_info hl (by omega)
    rw [← hinfo] at hi
    exact load_total hi hle

theorem ncpy_at_write_total {h : Heap} {dest : string} {off n : Nat} {src old : Option Ptr}
    {r : Ptr} {L : Nat} {d : Bool} {bs : List Nat}
    (hraw : dest.raw = some r) (hinfo : blockInfo h r.blk = some (L, d))
    (hfit : r.off + off + n + 1 ≤ L) (hnw : off + n + 1 < two32)
    (hsrc : load h src n = some bs)
    (hold : old = none ∨ ∃ b Lo, old = some { blk := b, off := 0 } ∧
      blockInfo h b = some (Lo, true)) :
    ∃ s2 h2, ncpy_at_write h dest off src n old = some (0, s2, h2) := by
  unfold ncpy_at_write
  simp only [hraw, padd, Option.map_some']
  -- the gap fill
  have hg : ∃ h1, (if dest.len < off then
      memset h (some { blk := r.blk, off := r.off + dest.len }) 0 (off - dest.len)
      else some h) = some h1 := by
    by_cases hlt : dest.len < off
    · simp only [hlt, if_true, memset]
      exact store_total (q := { blk := r.blk, off := r.off + dest.len }) hinfo
        (by simp; omega)
    · simp [hlt]
  obtain ⟨h1, hg⟩ := hg
  obtain ⟨_, g2, _⟩ := gap_fill_spec (r := r) hg
  obtain ⟨bs1, hl1⟩ := load_transfer hsrc g2
  have hlen1 := load_length hl1
  have hi1 : blockInfo h1 r.blk = some (L, d) := by rw [g2]; exact hinfo
  obtain ⟨h2a, hm⟩ := @store_total h1 { blk := r.blk, off := r.off + off } bs1 L d hi1
    (by simp; omega)
  have hi2 : blockInfo h2a r.blk = some (L, d) := by rw [info_store hm]; exact hi1
  have e1 : u32 (n + off) = n + off := u32_of_lt (by omega)
  obtain ⟨h3, hst⟩ := @store_total h2a { blk := r.blk, off := r.off + (n + off) } [0] L d
    hi2 (by simp; omega)
  have hi3 : ∀ b, blockInfo h3 b = blockInfo h b := by
    intro b; rw [info_store hst, info_store hm, g2]
  have hf : ∃ h4, free h3 old = some h4 := by
    rcases hold with rfl | ⟨b, Lo, rfl, hb⟩
    · exact ⟨h3, rfl⟩
    · exact ⟨_, free_of_info (by rw [hi3]; exact hb)⟩
  obtain ⟨h4, hf⟩ := hf
  refine ⟨{ raw := some r, len := u32 (n + off + 1), size := dest.size,
            resizable := dest.resizable }, h4, ?_⟩
  simp only [hg, Option.some_bind, memmove, hl1, hm, e1, hst, hf]

theorem load_transfer_at {h h1 : Heap} {p : Option Ptr} {n : Nat} {bs : List Nat}
    (hl : load h p n = some bs)
    (hinfo : 0 < n → ∀ q, p = some q → blockInfo h1 q.blk = blockInfo h q.blk) :
    ∃ bs1, load h1 p n = some bs1 := by
  by_cases hn : n = 0
  · subst hn; exact ⟨[], load_zero _ _⟩
  · obtain ⟨q, rfl⟩ := load_ptr hl (by omega)
    obtain ⟨L, d, hi, hle⟩ := load_info hl (by omega)
    rw [← hinfo (by omega) q rfl] at hi
    exact load_total hi hle

theorem ncpy_at_inplace_total {h : Heap} {a : Alloc} {dest : string} {off n : Nat}
    {src : Option Ptr} {r : Ptr} {L : Nat} {d : Bool} {bs : List Nat}
    (hraw : dest.raw = some r) (hinfo : blockInfo h r.blk = some (L, d))
    (hfit : r.off + off + n + 1 ≤ L) (hnw : off + n + 1 < two32)
    (hcap : off + n + 1 ≤ dest.size) (hsrc : load h src n = some bs) :
    ∃ s2 h2, String_ncpy_at h a dest off src n = some (0, s2, h2) := by
  unfold String_ncpy_at
  have h1 : ¬ (src = none ∧ n ≠ 0) := by
    intro hc
    rw [hc.1] at hsrc
    simp [load, hc.2] at hsrc
  have h2 : ¬ dest.size < u32 (off + n + 1) := by
    rw [u32_of_lt hnw]; omega
  simp only [h1, h2, if_false]
  exact ncpy_at_write_total hraw hinfo hfit hnw hsrc (Or.inl rfl)

theorem ncpy_at_grow_total {h : Heap} {junk : Nat → Nat} {dest : string} {off n : Nat}
    {src : Option Ptr} {bs : List Nat}
    (hres : dest.resizable = true) (hcap : dest.size < off + n + 1)
    (hnw : off + n + 1 ≤ 2147483648) (hsrc : load h src n = some bs)
    (hown : (dest.raw = none ∧ dest.len = 0) ∨
      ∃ b L, dest.raw = some { blk := b, off := 0 } ∧ blockInfo h b = some (L, true) ∧
        min dest.len off ≤ L) :
    ∃ s2 h2, String_ncpy_at h (some junk) dest off src n = some (0, s2, h2) := by
  have hlt : off + n + 1 < two32 := by unfold two32; omega
  have hR := round_up_ge (x := off + n + 1) (by omega) hnw
  rcases dest with ⟨raw, len, sz, res⟩
  simp only at hres hcap hown
  subst hres
  unfold String_ncpy_at
  have h1 : ¬ (src = none ∧ n ≠ 0) := by
    intro hc
    rw [hc.1] at hsrc
    simp [load, hc.2] at hsrc
  have h2 : sz < u32 (off + n + 1) := by
    rw [u32_of_lt hlt]; omega
  simp only [h1, h2, if_false, if_true, u32_of_lt hlt]
  generalize hRd : round_up_to_the_next_power_of_2 (off + n + 1) = R at hR
  have hinf1 : ∀ b, blockInfo (h ++ [some { bytes := (List.range R).map junk, dyn := true }]) b =
      if b = h.length then some (R, true) else blockInfo h b := by
    intro b; rw [info_append]; simp
  have hk : (if len ≤ off then len else off) = min len off := by
    split <;> omega
  -- the prefix copy
  have hcopy : ∃ old h1x, resize_and_cpy h (some junk)
        { raw := raw, len := len, size := sz, resizable := true } (off + n + 1) off =
      some (some old,
        { raw := some { blk := h.length, off := 0 }, len := len, size := R, resizable := true },
        h1x) ∧
      (∀ b, blockInfo h1x b = if b = h.length then some (R, true) else blockInfo h b) ∧
      ((some old = some ({ blk := h.length, off := 0 } : Ptr)) ∨
        (old.blk ≠ h.length ∧ old.off = 0 ∧ ∃ Lo, blockInfo h old.blk = some (Lo, true))) := by
    rcases hown with ⟨rfl, rfl⟩ | ⟨b, L, rfl, hb, hmin⟩
    · refine ⟨{ blk := h.length, off := 0 },
        h ++ [some { bytes := (List.range R).map junk, dyn := true }], ?_, hinf1, Or.inl rfl⟩
      simp [resize_and_cpy, resize, malloc_some, hRd, memmove, load_zero, store_nil]
    · have hblt := info_lt hb
      have hne : b ≠ h.length := by omega
      have hi0 : blockInfo (h ++ [some { bytes := (List.range R).map junk, dyn := true }]) b =
          some (L, true) := by
        rw [hinf1, if_neg hne]; exact hb
      obtain ⟨bs0, hl0⟩ := load_total (q := { blk := b, off := 0 })
        (n := min len off) hi0 (by simp; omega)
      have hlen0 := load_length hl0
      obtain ⟨h1x, hst⟩ := @store_total
        (h ++ [some { bytes := (List.range R).map junk, dyn := true }])
        { blk := h.length, off := 0 } bs0 R true
        (by rw [hinf1, if_pos rfl]) (by simp; omega)
      refine ⟨{ blk := b, off := 0 }, h1x, ?_,
        fun b2 => by rw [info_store hst b2, hinf1], Or.inr ⟨hne, rfl, L, hb⟩⟩
      simp only [resize_and_cpy, resize, malloc_some, hRd, memmove, Bool.true_eq_false, if_false,
        reduceCtorEq]
      by_cases hc : len ≤ off
      · have e : min len off = len := by omega
        rw [e] at hl0
        simp only [hc, if_true, hl0, hst, Option.map_some']
      · have e : min len off = off := by omega
        rw [e] at hl0
        simp only [hc, if_false, hl0, hst, Option.map_some']
  obtain ⟨old, h1x, hrc, hinf2, hold⟩ := hcopy
  rw [hrc]
  simp only
  have hsrc2 : ∃ bs2, load h1x src n = some bs2 := by
    apply load_transfer_at hsrc
    intro hn q hq
    subst hq
    obtain ⟨Lq, dq, hiq, _⟩ := load_info hsrc hn
    have := info_lt hiq
    rw [hinf2, if_neg (by omega)]
  obtain ⟨bs2, hsrc2⟩ := hsrc2
  rw [if_pos hcap]
  apply ncpy_at_write_total (r := { blk := h.length, off := 0 }) (L := R) (d := true) rfl
    (by rw [hinf2, if_pos rfl]) (by simp; omega) hlt hsrc2
  rcases hold with ho | ⟨ho1, ho2, Lo, hLo⟩
  · left; simp [ho]
  · right
    refine ⟨old.blk, Lo, ?_, by rw [hinf2, if_neg ho1]; exact hLo⟩
    have : ¬ (some old = some ({ blk := h.length, off := 0 } : Ptr)) := by
      intro hc
      simp only [Option.some.injEq] at hc
      rw [hc] at ho1
      exact ho1 rfl
    rcases old with ⟨ob, oo⟩
    simp only at ho2
    subst ho2
    simp only [this, if_false]

theorem load_of_rd {h : Heap} {q : Ptr} {N : Nat} {l : List Nat}
    (hl : l.length = N) (hN : 0 < N)
    (hr : ∀ i, i < N → rd h q.blk (q.off + i) = l[i]?) :
    load h (some q) N = some l := by
  obtain ⟨v, hv⟩ := getElem?_some_of_lt (l := l) (i := N - 1) (by omega)
  have h1 := hr (N - 1) (by omega)
  rw [hv] at h1
  unfold rd at h1
  cases hb : blockAt h q.blk with
  | none => simp [hb] at h1
  | some blk =>
    simp only [hb] at h1
    have hlt : q.off + (N - 1) < blk.bytes.length := by
      by_contra hc
      rw [List.getElem?_eq_none (by omega)] at h1
      simp at h1
    rw [load_of_block hb (by omega)]
    congr 1
    apply List.ext_getElem?
    intro i
    rw [List.getElem?_take, List.getElem?_drop]
    by_cases hi : i < N
    · simp only [hi, if_true]
      have := hr i hi
      simp only [rd, hb] at this
      exact this
    · simp only [hi, if_false]
      rw [List.getElem?_eq_none (by omega)]

/-- What `String_new_steal` returns, when it returns a String. -/
theorem new_steal_spec {h : Heap} {src : Option Ptr} {size : Nat} {s : string}
    (hs : String_new_steal h true src size = some (some s)) :
    s.raw = src ∧ s.len < two32 ∧
    (size < s.len → s.size = s.len ∧ s.resizable = false) ∧
    (¬ size < s.len → s.size = size ∧ s.resizable = true) := by
  unfold String_new_steal String_alloc at hs
  cases src with
  | none =>
    by_cases hc : size < 0
    · omega
    · simp [hc] at hs
      subst hs
      simp [two32]
  | some q =>
    cases hk : strlen h (some q) with
    | none => simp [hk] at hs
    | some k =>
      have hlen := u32_lt (k + 1)
      by_cases hc : size < u32 (k + 1)
      · simp [hk, hc] at hs
        subst hs
        simp [hc, hlen]
      · simp [hk, hc] at hs
        subst hs
        simp [hc, hlen]

theorem ncpy_at_not_resizable {h : Heap} {a : Alloc} {s : string} {off n : Nat}
    {p : Option Ptr} (hres : s.resizable = false) (hp : p = none → n = 0)
    (hneed : s.size < u32 (off + n + 1)) :
    String_ncpy_at h a s off p n = some (-1, s, h) := by
  unfold String_ncpy_at
  have h1 : ¬ (p = none ∧ n ≠ 0) := fun hc => hc.2 (hp hc.1)
  simp only [h1, if_false, hneed, if_true, resize_and_cpy, resize, hres]

theorem store_oob {h : Heap} {q : Ptr} {bs : List Nat} {b : Block}
    (hb : blockAt h q.blk = some b) (hpos : 0 < bs.length)
    (hlt : b.bytes.length < q.off + bs.length) :
    store h (some q) bs = none := by
  unfold store
  have h0 : ¬ bs.length = 0 := by omega
  have h1 : ¬ q.off + bs.length ≤ b.bytes.length := by omega
  simp only [h0, if_false, hb, h1]

theorem bytes_written_eq {k : Nat} (hk : k ≤ 2147483647) :
    ((((k : Int)) + 1) % (two32 : Int)).toNat = k + 1 := by
  unfold two32
  have : ((k : Int) + 1) % ((4294967296 : Nat) : Int) = (k : Int) + 1 :=
    Int.emod_eq_of_lt (by omega) (by omega)
  rw [this]
  omega

theorem load_get_all {h : Heap} {p : Option Ptr} {n : Nat} {bs : List Nat}
    (hl : load h p n = some bs) (i : Nat) (hi : i < n) :
    ∃ q v, p = some q ∧ bs[i]? = some v ∧ rd h q.blk (q.off + i) = some v := by
  obtain ⟨q, rfl⟩ := load_ptr hl (by omega)
  have hlen := load_length hl
  obtain ⟨v, hv⟩ := getElem?_some_of_lt (l := bs) (i := i) (by omega)
  exact ⟨q, v, rfl, hv, by rw [load_get hl i hi]; exact hv⟩

/-- The content after a successful `String_ncpy_at` at an offset inside the old
content: the old bytes before the offset, the source bytes, a terminator. -/
theorem ncpy_at_result {h : Heap} {a : Alloc} {dest : string} {off n : Nat} {src : Option Ptr}
    {s2 : string} {h2 : Heap} {pre bs : List Nat}
    (hc : String_ncpy_at h a dest off src n = some (0, s2, h2))
    (hnw : off + n + 1 < two32) (hoff : off ≤ dest.len)
    (hpre : load h dest.raw off = some pre) (hsrc : load h src n = some bs) :
    s2.len = off + n + 1 ∧ load h2 s2.raw (off + n + 1) = some (pre ++ bs ++ [0]) := by
  obtain ⟨r2, L, d, hraw, hlen, _, hterm, hmov, _, hkeep, _, _, _, _, _, _⟩ := ncpy_at_ok hc
  have e1 : u32 (n + off) = n + off := u32_of_lt (by omega)
  have e2 : u32 (n + off + 1) = n + off + 1 := u32_of_lt (by omega)
  rw [e1] at hterm
  have hpl := load_length hpre
  have hbl := load_length hsrc
  refine ⟨by rw [hlen, e2]; omega, ?_⟩
  rw [hraw]
  apply load_of_rd (by simp [hpl, hbl]; omega) (by omega)
  intro i hi
  by_cases h1 : i < off
  · obtain ⟨q, v, hq, hv, hrv⟩ := load_get_all hpre i h1
    have := hkeep i v (by omega) h1 (by omega) (by rw [hq, byteAt_some]; exact hrv)
    rw [this, List.append_assoc, List.getElem?_append_left (by omega), hv]
  · by_cases h2x : i < off + n
    · obtain ⟨q, v, hq, hv, hrv⟩ := load_get_all hsrc (i - off) (by omega)
      have hg : ¬ gapAlias dest off n q (i - off) := by
        intro hx
        have := hx.2.1
        omega
      have := hmov (i - off) q v (by omega) hq hrv hg (by omega)
      have e : off + (i - off) = i := by omega
      rw [e] at this
      rw [this, List.append_assoc, List.getElem?_append_right (by omega), hpl,
        List.getElem?_append_left (by omega), hv]
    · have e : i = n + off := by omega
      subst e
      rw [hterm, List.getElem?_append_right (by simp; omega)]
      have hl1 : (pre ++ bs).length = n + off := by simp; omega
      rw [hl1]
      simp

theorem repeated_length (bs : List Nat) : ∀ k, (repeated bs k).length = bs.length * k
  | 0 => by simp [repeated]
  | k + 1 => by
    simp only [repeated, List.length_append, repeated_length bs k]
    rw [Nat.mul_succ]

theorem repeated_comm (bs : List Nat) : ∀ k, bs ++ repeated bs k = repeated bs k ++ bs
  | 0 => by simp [repeated]
  | k + 1 => by
    simp only [repeated]
    rw [← List.append_assoc, repeated_comm bs k]

/-- The source of an append stays readable and apart from the buffer. -/
theorem src_kept {h h2 : Heap} {dest : string} {p : Option Ptr} {g : Nat} {bs : List Nat}
    {r2 : Ptr}
    (hsrc : load h p g = some bs)
    (hframe : ∀ b j, b ≠ r2.blk → (∀ r, dest.raw = some r → b ≠ r.blk) → rd h2 b j = rd h b j)
    (hne : ∀ q, p = some q → 0 < g → q.blk ≠ r2.blk)
    (hsep : ∀ q r, p = some q → 0 < g → dest.raw = some r → q.blk ≠ r.blk) :
    load h2 p g = some bs := by
  by_cases hg : g = 0
  · subst hg
    rw [load_zero] at hsrc ⊢
    exact hsrc
  · obtain ⟨q, rfl⟩ := load_ptr hsrc (by omega)
    have hlen := load_length hsrc
    apply load_of_rd hlen (by omega)
    intro i hi
    rw [hframe q.blk (q.off + i) (hne q rfl (by omega))
      (fun r hr => hsep q r rfl (by omega) hr)]
    exact load_get hsrc i hi

/-- One append to a String that owns its buffer, from a source in another object. -/
theorem ncat_step {h : Heap} {junk : Nat → Nat} {s : string} {content bs : List Nat}
    {p : Option Ptr}
    (ho : Owns h s (content ++ [0])) (hp : p ≠ none)
    (hsrc : load h p bs.length = some bs)
    (hsep : ∀ q r, p = some q → 0 < bs.length → s.raw = some r → q.blk ≠ r.blk)
    (hbound : content.length + bs.length + 1 ≤ 2147483648) :
    ∃ s1 h1, String_ncat h (some junk) s p bs.length = some (0, s1, h1) ∧
      Owns h1 s1 (content ++ bs ++ [0]) ∧ load h1 p bs.length = some bs ∧
      (∀ q r, p = some q → 0 < bs.length → s1.raw = some r → q.blk ≠ r.blk) := by
  obtain ⟨hres, hlen, hsz, b, L, hraw, hinfo, hcap, hcontent⟩ := ho
  have hlen2 : s.len = content.length + 1 := by rw [hlen]; simp
  have hL1 : s.len ≤ L := by omega
  have hlt : s.len < two32 := by
    by_contra hc
    unfold two32 at hc
    omega
  have eoff : usub s.len 1 = content.length := by
    rw [usub_of_le (by omega) hlt]; omega
  unfold String_ncat
  simp only [hp, if_false, eoff]
  -- the old content before the terminator
  have hpre : load h s.raw content.length = some content := by
    rw [hraw] at hcontent ⊢
    obtain ⟨blk, hb, hle, hc⟩ := load_block hcontent (by omega)
    rw [load_of_block hb (by omega)]
    have h3 : List.take content.length (content ++ [0]) = content := by simp
    rw [hc, List.take_take] at h3
    have e : min content.length s.len = content.length := by omega
    rw [e] at h3
    exact congrArg some h3
  -- the call returns 0
  have hex : ∃ s1 h1, String_ncpy_at h (some junk) s content.length p bs.length =
      some (0, s1, h1) := by
    by_cases hfits : content.length + bs.length + 1 ≤ s.size
    · exact ncpy_at_inplace_total hraw hinfo (by simp only; omega) (by unfold two32; omega)
        hfits hsrc
    · exact ncpy_at_grow_total hres (by omega) hbound hsrc
        (Or.inr ⟨b, L, hraw, hinfo, by omega⟩)
  obtain ⟨s1, h1, hcall⟩ := hex
  have hnw : content.length + bs.length + 1 < two32 := by unfold two32; omega
  obtain ⟨hl1, hc1⟩ := ncpy_at_result hcall hnw (by omega) hpre hsrc
  obtain ⟨r2, L2, d2, hraw2, _, hres2, _, _, _, _, hinfo2, hb1, _, _, hframe, hpath⟩ :=
    ncpy_at_ok hcall
  have hne : ∀ q, p = some q → 0 < bs.length → q.blk ≠ r2.blk := by
    intro q hq hg
    rcases hpath with ⟨_, hp1, _, _⟩ | ⟨_, _, _, hp1, _, _⟩
    · rw [hraw2, hraw] at hp1
      simp only [Option.some.injEq] at hp1
      rw [hp1]
      exact hsep q _ hq hg hraw
    · rw [hraw2] at hp1
      simp only [Option.some.injEq] at hp1
      rw [hp1]
      subst hq
      obtain ⟨Lq, dq, hiq, _⟩ := load_info hsrc hg
      have := info_lt hiq
      simp only
      omega
  refine ⟨s1, h1, hcall, ?_, ?_, ?_⟩
  · refine ⟨by rw [hres2]; exact hres, by rw [hl1]; simp; omega, ?_, ?_⟩
    · rcases hpath with ⟨hfit, _, hp2, _⟩ | ⟨_, _, _, _, hp2, _⟩
      · rw [hp2, hl1]
        rw [u32_of_lt hnw] at hfit
        omega
      · rw [hp2, hl1, u32_of_lt hnw]
        exact round_up_ge (by omega) hbound
    · rcases hpath with ⟨_, hp1, hp2, hp3⟩ | ⟨_, _, _, hp1, hp2, hp3⟩
      · refine ⟨b, L, by rw [hp1]; exact hraw, by rw [hp3]; exact hinfo, by rw [hp2]; exact hcap,
          ?_⟩
        rw [hl1]; exact hc1
      · refine ⟨h.length, s1.size, hp1, hp3, Nat.le_refl _, ?_⟩
        rw [hl1]; exact hc1
  · exact src_kept hsrc hframe hne (fun q r hq hg hr => hsep q r hq hg hr)
  · intro q r hq hg hr
    rw [hraw2] at hr
    simp only [Option.some.injEq] at hr
    rw [← hr]
    exact hne q hq hg

/-- `k` appends in a row to a String that owns its buffer. -/
theorem ncat_times_spec {p : Option Ptr} {bs : List Nat} {junk : Nat → Nat → Nat} (hp : p ≠ none) :
    ∀ (k : Nat) (h : Heap) (s : string) (content : List Nat),
      Owns h s (content ++ [0]) → load h p bs.length = some bs →
      (∀ q r, p = some q → 0 < bs.length → s.raw = some r → q.blk ≠ r.blk) →
      content.length + bs.length * k + 1 ≤ 2147483648 →
      ∃ s1 h1, ncat_times p bs.length junk k (s, h) = some (s1, h1) ∧
        Owns h1 s1 (content ++ repeated bs k ++ [0]) ∧ load h1 p bs.length = some bs ∧
        (∀ q r, p = some q → 0 < bs.length → s1.raw = some r → q.blk ≠ r.blk)
  | 0, h, s, content, ho, hsrc, hsep, _ => by
    refine ⟨s, h, rfl, ?_, hsrc, hsep⟩
    simpa [repeated] using ho
  | k + 1, h, s, content, ho, hsrc, hsep, hb => by
    have hb2 : content.length + bs.length * k + 1 ≤ 2147483648 := by
      rw [Nat.mul_succ] at hb; omega
    obtain ⟨s1, h1, hrun, ho1, hsrc1, hsep1⟩ :=
      ncat_times_spec hp k h s content ho hsrc hsep hb2
    have hb3 : (content ++ repeated bs k).length + bs.length + 1 ≤ 2147483648 := by
      rw [List.length_append, repeated_length]
      rw [Nat.mul_succ] at hb; omega
    obtain ⟨s2, h2, hcall, ho2, hsrc2, hsep2⟩ :=
      @ncat_step h1 (junk k) s1 (content ++ repeated bs k) bs p ho1 hp hsrc1 hsep1 hb3
    refine ⟨s2, h2, ?_, ?_, hsrc2, hsep2⟩
    · rw [ncat_times, hrun]
      simp only [Option.some_bind, hcall, if_true]
    · simpa [repeated, List.append_assoc] using ho2

/-- `String_ncpy_at` at offset 0 on the structure `String_alloc` returns. -/
theorem ncpy_at_fresh {h : Heap} {junk : Nat → Nat} {src : Option Ptr} {n : Nat} {bs : List Nat}
    (hsrc : load h src n = some bs) (hn : n + 1 ≤ 2147483648) :
    ∃ s1 h1, String_ncpy_at h (some junk)
        { raw := none, size := 0, len := 0, resizable := true } 0 src n = some (0, s1, h1) ∧
      Owns h1 s1 (bs ++ [0]) ∧ s1.raw = some { blk := h.length, off := 0 } ∧
      (∀ b j, b ≠ h.length → rd h1 b j = rd h b j) := by
  have hnw : 0 + n + 1 < two32 := by unfold two32; omega
  obtain ⟨s1, h1, hcall⟩ := @ncpy_at_grow_total h junk
    { raw := none, size := 0, len := 0, resizable := true } 0 n src bs rfl
    (by simp only; omega) (by omega) hsrc (Or.inl ⟨rfl, rfl⟩)
  obtain ⟨hl1, hc1⟩ := ncpy_at_result hcall hnw (Nat.le_refl _) (load_zero _ _) hsrc
  obtain ⟨r2, L2, d2, hraw2, _, hres2, _, _, _, _, _, _, _, _, hframe, hpath⟩ := ncpy_at_ok hcall
  have hbl := load_length hsrc
  rcases hpath with ⟨hfit, _, _, _⟩ | ⟨_, _, _, hp1, hp2, hp3⟩
  · exfalso
    apply hfit
    rw [u32_of_lt hnw]
    simp only
    omega
  · refine ⟨s1, h1, hcall, ⟨hres2, by rw [hl1]; simp; omega, ?_, h.length, s1.size, hp1, hp3,
      Nat.le_refl _, ?_⟩, hp1, ?_⟩
    · rw [hl1, hp2, u32_of_lt hnw]
      exact round_up_ge (by omega) (by omega)
    · rw [hl1]
      simpa using hc1
    · intro b j hb
      rw [hraw2] at hp1
      simp only [Option.some.injEq] at hp1
      apply hframe b j (by rw [hp1]; exact hb)
      intro r hr
      simp at hr

theorem firstZero_of_take : ∀ (bs l : List Nat), (∀ x ∈ bs, x ≠ 0) →
    List.take (bs.length + 1) l = bs ++ [0] → firstZero l = some bs.length
  | [], l, _, ht => by
    cases l with
    | nil => simp at ht
    | cons y ys =>
      simp at ht
      simp [firstZero, ht]
  | x :: xs, l, hnz, ht => by
    cases l with
    | nil => simp at ht
    | cons y ys =>
      simp only [List.length_cons, List.take_succ_cons, List.cons_append, List.cons.injEq] at ht
      obtain ⟨rfl, ht2⟩ := ht
      have hy : y ≠ 0 := hnz y (by simp)
      have := firstZero_of_take xs ys (fun z hz => hnz z (by simp [hz])) ht2
      simp [firstZero, hy, this]

theorem strnlen_loop_spec {h : Heap} {s : Option Ptr} : ∀ (rem i : Nat),
    (∀ j, i ≤ j → j < i + rem → ∃ v, byteAt h s j = some v ∧ v ≠ 0) →
    (∃ v, byteAt h s (i + rem) = some v) → strnlen_loop h s rem i = some (i + rem)
  | 0, i, _, hend => by
    obtain ⟨v, hv⟩ := hend
    rw [strnlen_loop]
    simp only [Nat.add_zero] at hv
    simp [hv]
  | rem + 1, i, hnz, hend => by
    obtain ⟨v, hv, hv0⟩ := hnz i (Nat.le_refl _) (by omega)
    rw [strnlen_loop]
    simp only [hv, ne_eq, hv0, not_false_eq_true, if_true]
    rw [strnlen_loop_spec rem (i + 1) (fun j hj1 hj2 => hnz j (by omega) (by omega))
      (by rw [show i + 1 + rem = i + (rem + 1) by omega]; exact hend)]
    congr 1
    omega

/-- A payload of non-zero bytes followed by a terminator: what `strlen`, `strnlen`
and the readers of the payload see. -/
theorem payload_spec {h : Heap} {p : Ptr} {bs : List Nat} (hnz : ∀ x ∈ bs, x ≠ 0)
    (hp : load h (some p) (bs.length + 1) = some (bs ++ [0])) :
    strlen h (some p) = some bs.length ∧ strnlen h (some p) bs.length = some bs.length ∧
    load h (some p) bs.length = some bs := by
  obtain ⟨blk, hb, hle, hc⟩ := load_block hp (by omega)
  have hget : ∀ j, j < bs.length + 1 → byteAt h (some p) j = (bs ++ [0])[j]? := by
    intro j hj
    rw [byteAt_some]
    exact load_get hp j hj
  refine ⟨?_, ?_, ?_⟩
  · unfold strlen
    simp only [hb]
    rw [if_pos (by omega)]
    exact firstZero_of_take bs _ hnz hc.symm
  · unfold strnlen
    have := @strnlen_loop_spec h (some p) bs.length 0 ?_ ?_
    · simpa using this
    · intro j _ hj
      rw [hget j (by omega), List.getElem?_append_left (by omega)]
      obtain ⟨v, hv⟩ := getElem?_some_of_lt (l := bs) (i := j) (by omega)
      exact ⟨v, hv, hnz v (List.getElem?_mem hv)⟩
    · rw [hget _ (by omega)]
      simp
  · rw [load_of_block hb (by omega)]
    have h3 : List.take bs.length (bs ++ [0]) = bs := by simp
    rw [hc, List.take_take] at h3
    have e : min bs.length (bs.length + 1) = bs.length := by omega
    rw [e] at h3
    exact congrArg some h3

theorem new_empty_spec (h : Heap) (junk : Nat → Nat) :
    ∃ s1 h1, String_new_empty h true (some junk) = some (some s1, h1) ∧
      Owns h1 s1 [0] ∧ s1.raw = some { blk := h.length, off := 0 } ∧
      (∀ b j, b ≠ h.length → rd h1 b j = rd h b j) := by
  obtain ⟨s1, h1, hcall, ho, hraw, hframe⟩ :=
    @ncpy_at_fresh h junk none 0 [] (load_zero _ _) (by omega)
  refine ⟨s1, h1, ?_, by simpa using ho, hraw, hframe⟩
  simp [String_new_empty, String_new, String_alloc, hcall]

theorem new_str_spec {h : Heap} {p : Ptr} {bs : List Nat} (junk : Nat → Nat)
    (hnz : ∀ x ∈ bs, x ≠ 0) (hp : load h (some p) (bs.length + 1) = some (bs ++ [0]))
    (hlen : bs.length + 1 ≤ 2147483648) :
    ∃ s1 h1, String_new_str h true (some junk) (some p) = some (some s1, h1) ∧
      Owns h1 s1 (bs ++ [0]) ∧ s1.raw = some { blk := h.length, off := 0 } ∧
      (∀ b j, b ≠ h.length → rd h1 b j = rd h b j) := by
  obtain ⟨h1x, h2x, h3x⟩ := payload_spec hnz hp
  obtain ⟨s1, h1, hcall, ho, hraw, hframe⟩ := @ncpy_at_fresh h junk (some p) bs.length bs h3x hlen
  refine ⟨s1, h1, ?_, ho, hraw, hframe⟩
  have e : u32 bs.length = bs.length := u32_of_lt (by unfold two32; omega)
  simp [String_new_str, String_new, String_alloc, h1x, e, h2x, hcall]

theorem firstZero_spec : ∀ (l : List Nat) (k : Nat), firstZero l = some k →
    ∃ bs : List Nat, bs.length = k ∧ (∀ x ∈ bs, x ≠ 0) ∧ l.take (k + 1) = bs ++ [0]
  | [], k, hk => by simp [firstZero] at hk
  | b :: l, k, hk => by
    unfold firstZero at hk
    by_cases hb : b = 0
    · simp only [hb, if_true, Option.some.injEq] at hk
      subst hk
      subst hb
      exact ⟨[], rfl, by simp, by simp⟩
    · simp only [hb, if_false, Option.map_eq_some'] at hk
      obtain ⟨j, hj, rfl⟩ := hk
      obtain ⟨bs, h1, h2, h3⟩ := firstZero_spec l j hj
      refine ⟨b :: bs, by simp [h1], ?_, by simp [h3]⟩
      intro x hx
      rcases List.mem_cons.mp hx with rfl | hx
      · exact hb
      · exact h2 x hx

/-- A pointer on which `strlen` returns `k` points to `k` non-zero bytes and a
terminator. -/
theorem cstring_of_strlen {h : Heap} {p : Ptr} {k : Nat} (hk : strlen h (some p) = some k) :
    ∃ bs : List Nat, bs.length = k ∧ (∀ x ∈ bs, x ≠ 0) ∧
      load h (some p) (k + 1) = some (bs ++ [0]) := by
  unfold strlen at hk
  simp only at hk
  cases hb : blockAt h p.blk with
  | none => simp [hb] at hk
  | some blk =>
    simp only [hb] at hk
    by_cases hq : p.off ≤ blk.bytes.length
    · simp only [hq, if_true] at hk
      have hlt := firstZero_lt _ _ hk
      simp at hlt
      obtain ⟨bs, h1, h2, h3⟩ := firstZero_spec _ _ hk
      refine ⟨bs, h1, h2, ?_⟩
      rw [load_of_block hb (by omega), h3]
    · simp [hq] at hk

/-- `strnlen` of the library on a C string of length `k`: `min(n, k)`. -/
theorem strnlen_loop_min {h : Heap} {s : Option Ptr} {k : Nat}
    (hnz : ∀ j, j < k → ∃ v, byteAt h s j = some v ∧ v ≠ 0) (hz : byteAt h s k = some 0) :
    ∀ (rem i : Nat), i ≤ k → strnlen_loop h s rem i = some (min (i + rem) k)
  | 0, i, hi => by
    rw [strnlen_loop]
    have hv : ∃ v, byteAt h s i = some v := by
      by_cases hik : i < k
      · obtain ⟨v, hv, _⟩ := hnz i hik
        exact ⟨v, hv⟩
      · have : i = k := by omega
        subst this
        exact ⟨0, hz⟩
    obtain ⟨v, hv⟩ := hv
    simp only [hv, Nat.add_zero]
    congr 1
    omega
  | rem + 1, i, hi => by
    rw [strnlen_loop]
    by_cases hik : i < k
    · obtain ⟨v, hv, hv0⟩ := hnz i hik
      simp only [hv, ne_eq, hv0, not_false_eq_true, if_true]
      rw [strnlen_loop_min hnz hz rem (i + 1) (by omega)]
      congr 1
      omega
    · have : i = k := by omega
      subst this
      simp only [hz, ne_eq, not_true_eq_false, if_false]
      congr 1
      omega

theorem strnlen_min {h : Heap} {p : Ptr} {bs : List Nat} (n : Nat)
    (hnz : ∀ x ∈ bs, x ≠ 0) (hp : load h (some p) (bs.length + 1) = some (bs ++ [0])) :
    strnlen h (some p) n = some (min n bs.length) ∧
    load h (some p) (min n bs.length) = some (bs.take (min n bs.length)) := by
  have hget : ∀ j, j < bs.length + 1 → byteAt h (some p) j = (bs ++ [0])[j]? := by
    intro j hj
    rw [byteAt_some]
    exact load_get hp j hj
  constructor
  · unfold strnlen
    have := @strnlen_loop_min h (some p) bs.length ?_ ?_ n 0 (Nat.zero_le _)
    · simpa using this
    · intro j hj
      rw [hget j (by omega), List.getElem?_append_left (by omega)]
      obtain ⟨v, hv⟩ := getElem?_some_of_lt (l := bs) (i := j) (by omega)
      exact ⟨v, hv, hnz v (List.getElem?_mem hv)⟩
    · rw [hget _ (by omega)]
      simp
  · obtain ⟨blk, hb, hle, hc⟩ := load_block hp (by omega)
    rw [load_of_block hb (by omega)]
    have h3 : List.take (min n bs.length) (bs ++ [0]) = List.take (min n bs.length) bs := by
      rw [List.take_append_of_le_length (by omega)]
    rw [hc, List.take_take] at h3
    have e : min (min n bs.length) (bs.length + 1) = min n bs.length := by omega
    rw [e] at h3
    exact congrArg some h3

/-- A successful `String_ncpy_at` at offset 0 on the structure `String_alloc` returns,
on a heap of the 32-bit platform. -/
theorem ncpy_at_fresh_ok {h : Heap} {a : Alloc} {src : Option Ptr} {n : Nat} {bs : List Nat}
    {s1 : string} {h1 : Heap}
    (hc : String_ncpy_at h a { raw := none, size := 0, len := 0, resizable := true } 0 src n =
      some (0, s1, h1))
    (h32 : heap32 h = true) (hsrc : load h src n = some bs) :
    Owns h1 s1 (bs ++ [0]) ∧ s1.raw = some { blk := h.length, off := 0 } ∧
    (∀ b j, b ≠ h.length → rd h1 b j = rd h b j) ∧ n + 1 < two32 := by
  have hnw0 := ncpy_at_nowrap hc h32 (by decide)
  have hnw : 0 + n + 1 < two32 := hnw0
  obtain ⟨hl1, hc1⟩ := ncpy_at_result hc hnw (Nat.le_refl _) (load_zero _ _) hsrc
  obtain ⟨r2, L2, d2, hraw2, _, hres2, _, _, _, _, hinfo, hb1, _, _, hframe, hpath⟩ := ncpy_at_ok hc
  have hbl := load_length hsrc
  rcases hpath with ⟨hfit, _, _, _⟩ | ⟨_, _, _, hp1, hp2, hp3⟩
  · exfalso
    apply hfit
    rw [u32_of_lt hnw]
    simp only
    omega
  · have hr2 : r2 = { blk := h.length, off := 0 } := by
      rw [hraw2] at hp1
      exact Option.some.inj hp1
    subst hr2
    rw [hp3] at hinfo
    simp only [Option.some.injEq, Prod.mk.injEq] at hinfo
    refine ⟨⟨hres2, by rw [hl1]; simp; omega, ?_, h.length, s1.size, hp1, hp3,
      Nat.le_refl _, ?_⟩, hp1, ?_, by omega⟩
    · rw [hl1]
      rw [u32_of_lt (by omega)] at hb1
      simp only at hb1
      omega
    · rw [hl1]
      simpa using hc1
    · intro b j hb
      apply hframe b j hb
      intro r hr
      simp at hr

/-- What a call of `String_new` that returns a String has done. -/
theorem new_unfold {h : Heap} {ok : Bool} {a : Alloc} {src : Option Ptr} {n : Nat}
    {s : string} {h1 : Heap}
    (hn : String_new h ok a src n = some (some s, h1)) :
    ∃ m, (if src ≠ none then strnlen h src n else some 0) = some m ∧
      String_ncpy_at h a { raw := none, size := 0, len := 0, resizable := true } 0 src m =
        some (0, s, h1) := by
  unfold String_new String_alloc at hn
  cases ok with
  | false => simp at hn
  | true =>
    simp only [if_true] at hn
    cases hm : (if src ≠ none then strnlen h src n else some 0) with
    | none => simp [hm] at hn
    | some m =>
      simp only [hm] at hn
      cases hc : String_ncpy_at h a { raw := none, size := 0, len := 0, resizable := true } 0 src m with
      | none => simp [hc] at hn
      | some res =>
        rcases res with ⟨r, s1, h1x⟩
        simp only [hc] at hn
        by_cases hr : r = 0
        · subst hr
          simp only [ne_eq, not_true_eq_false, if_false, Option.some.injEq, Prod.mk.injEq] at hn
          obtain ⟨rfl, rfl⟩ := hn
          exact ⟨m, rfl, hc⟩
        · simp only [ne_eq, hr, not_false_eq_true, if_true, Option.map_eq_some'] at hn
          obtain ⟨_, _, hx⟩ := hn
          simp at hx

theorem new_fold {h : Heap} {a : Alloc} {src : Option Ptr} {n m : Nat}
    {s : string} {h1 : Heap}
    (hm : (if src ≠ none then strnlen h src n else some 0) = some m)
    (hc : String_ncpy_at h a { raw := none, size := 0, len := 0, resizable := true } 0 src m =
        some (0, s, h1)) :
    String_new h true a src n = some (some s, h1) := by
  unfold String_new String_alloc
  simp only [if_true, hm, hc]
  simp

/-- A successful `String_new` on a C string of length `k`. -/
theorem new_ok {h : Heap} {a : Alloc} {p : Ptr} {n k : Nat} {s : string} {h1 : Heap}
    (h32 : heap32 h = true) (hk : strlen h (some p) = some k)
    (hn : String_new h true a (some p) n = some (some s, h1)) :
    ∃ bs : List Nat, load h (some p) (min n k) = some bs ∧ Owns h1 s (bs ++ [0]) ∧
      s.raw = some { blk := h.length, off := 0 } ∧
      (∀ b j, b ≠ h.length → rd h1 b j = rd h b j) := by
  obtain ⟨cs, hl, hnz, hp⟩ := cstring_of_strlen hk
  subst hl
  obtain ⟨hm, hld⟩ := strnlen_min n hnz hp
  obtain ⟨m, hm1, hc⟩ := new_unfold hn
  simp only [ne_eq, not_false_eq_true, if_true, reduceCtorEq] at hm1
  rw [hm] at hm1
  cases hm1
  obtain ⟨ho, hraw, hfr, _⟩ := ncpy_at_fresh_ok hc h32 hld
  exact ⟨_, hld, ho, hraw, hfr⟩

/-- `String_new` on a C string of length `k` returns a String when both allocations
succeed and `min(n, k) + 1` is at most `2^31`. -/
theorem new_total {h : Heap} {p : Ptr} {k : Nat} (n : Nat) (junk : Nat → Nat)
    (hk : strlen h (some p) = some k) (hlen : min n k + 1 ≤ 2147483648) :
    ∃ s h1, String_new h true (some junk) (some p) n = some (some s, h1) := by
  obtain ⟨cs, hl, hnz, hp⟩ := cstring_of_strlen hk
  subst hl
  obtain ⟨hm, hld⟩ := strnlen_min n hnz hp
  obtain ⟨s1, h1, hcall, _⟩ := @ncpy_at_fresh h junk (some p) _ _ hld hlen
  exact ⟨s1, h1, new_fold (by simpa using hm) hcall⟩

/-- A slice of a readable range is readable. -/
theorem load_slice {h : Heap} {q : Ptr} {n : Nat} {cs : List Nat}
    (hl : load h (some q) n = some cs) (f m : Nat) (hfm : f + m ≤ n) (hm : 0 < m) :
    load h (some { blk := q.blk, off := q.off + f }) m = some ((cs.drop f).take m) := by
  obtain ⟨blk, hb, hle, rfl⟩ := load_block hl (by omega)
  rw [@load_of_block h { blk := q.blk, off := q.off + f } m blk hb (by simp only; omega)]
  congr 1
  simp only
  rw [List.drop_take, List.take_take, List.drop_drop]
  congr 1
  omega

theorem dup_fold {h : Heap} {a : Alloc} {s : string} {f t : Nat} {c : string} {h1 : Heap}
    (hft : f ≤ t)
    (hc : String_ncpy_at h a { raw := none, size := 0, len := 0, resizable := true } 0
      (padd s.raw f) (u32 (usub t f + 1)) = some (0, c, h1)) :
    String_dup_slice h true a s f t = some (some c, h1) := by
  unfold String_dup_slice String_alloc
  rw [if_neg (by omega)]
  simp only [if_true, hc]
  simp

/-- The bytes `String_dup_slice(s, f, t)` copies, for `f <= t` below the length of a
String whose `len` bytes are readable. -/
theorem slice_spec {h : Heap} {s : string} {cs : List Nat} {f t : Nat}
    (hcs : load h s.raw s.len = some cs) (hft : f ≤ t) (ht : t < s.len) (hl : s.len < two32) :
    u32 (usub t f + 1) = t - f + 1 ∧
    load h (padd s.raw f) (t - f + 1) = some ((cs.drop f).take (t - f + 1)) := by
  have e1 : usub t f = t - f := usub_of_le hft (by omega)
  have e2 : u32 (t - f + 1) = t - f + 1 := u32_of_lt (by omega)
  obtain ⟨q, hq⟩ := load_ptr hcs (by omega)
  rw [e1, e2, hq]
  rw [hq] at hcs
  exact ⟨rfl, load_slice hcs f (t - f + 1) (by omega) (by omega)⟩

/-- One step of the bit smearing: when the `w` bits from `p` downwards are set, the
`2 * w` bits from `p` downwards are set afterwards. -/
theorem smear_step {m p w : Nat} (hlt : m < 2 ^ (p + 1))
    (hbits : ∀ i, i ≤ p → p < i + w → m.testBit i = true) :
    m ||| m >>> w < 2 ^ (p + 1) ∧
    ∀ i, i ≤ p → p < i + (w + w) → (m ||| m >>> w).testBit i = true := by
  refine ⟨Nat.or_lt_two_pow hlt (shiftRight_lt w hlt), ?_⟩
  intro i hi hp
  rw [Nat.testBit_or, Nat.testBit_shiftRight]
  by_cases hc : p < i + w
  · rw [hbits i hi hc]
    rfl
  · rw [hbits (w + i) (by omega) (by omega)]
    simp

/-- The five smearing steps turn a number whose highest bit is bit `p <= 31` into
`2^(p+1) - 1`. -/
theorem smear_spec {m p : Nat} (hp : p ≤ 31) (hge : 2 ^ p ≤ m) (hlt : m < 2 ^ (p + 1)) :
    let m1 := m ||| (m >>> 1)
    let m2 := m1 ||| (m1 >>> 2)
    let m3 := m2 ||| (m2 >>> 4)
    let m4 := m3 ||| (m3 >>> 8)
    let m5 := m4 ||| (m4 >>> 16)
    m5 = 2 ^ (p + 1) - 1 := by
  intro m1 m2 m3 m4 m5
  have h0 : ∀ i, i ≤ p → p < i + 1 → m.testBit i = true := by
    intro i hi hpi
    have : i = p := by omega
    subst this
    rw [Nat.testBit_to_div_mod]
    have : m / 2 ^ i = 1 := by
      apply Nat.div_eq_of_lt_le
      · omega
      · rw [Nat.pow_succ] at hlt
        omega
    simp [this]
  obtain ⟨a1, b1⟩ := smear_step hlt h0
  obtain ⟨a2, b2⟩ := smear_step a1 b1
  obtain ⟨a3, b3⟩ := smear_step a2 b2
  obtain ⟨a4, b4⟩ := smear_step a3 b3
  obtain ⟨a5, b5⟩ := smear_step a4 b4
  apply Nat.eq_of_testBit_eq
  intro i
  rw [Nat.testBit_two_pow_sub_one]
  by_cases hi : i < p + 1
  · rw [b5 i (by omega) (by omega)]
    simp [hi]
  · have : m5 < 2 ^ i := Nat.lt_of_lt_of_le a5 (Nat.pow_le_pow_right (by omega) (by omega))
    rw [Nat.testBit_lt_two_pow this]
    simp [hi]

/-- `round_up_to_the_next_power_of_2` by cases on `num - 1` (unsigned): 1 when it is 0
or has bit 31 set, otherwise twice its highest bit. -/
theorem round_up_cases (x : Nat) :
    (usub x 1 = 0 ∧ round_up_to_the_next_power_of_2 x = 1) ∨
    (2 ^ 31 ≤ usub x 1 ∧ round_up_to_the_next_power_of_2 x = 1) ∨
    (∃ p, p < 31 ∧ 2 ^ p ≤ usub x 1 ∧ usub x 1 < 2 ^ (p + 1) ∧
      round_up_to_the_next_power_of_2 x = 2 ^ (p + 1)) := by
  have hm : usub x 1 < 2 ^ 32 := by
    unfold usub two32
    exact Nat.mod_lt _ (by norm_num)
  simp only [round_up_to_the_next_power_of_2]
  generalize usub x 1 = m at hm ⊢
  by_cases h0 : m = 0
  · left
    subst h0
    exact ⟨rfl, by decide⟩
  · right
    have hpos : 0 < m := Nat.pos_of_ne_zero h0
    have hge : 2 ^ Nat.log 2 m ≤ m := Nat.pow_log_le_self 2 h0
    have hlt : m < 2 ^ (Nat.log 2 m + 1) := Nat.lt_pow_succ_log_self (by norm_num) m
    have hp : Nat.log 2 m ≤ 31 := by
      have : Nat.log 2 m < 32 := Nat.log_lt_of_lt_pow h0 hm
      omega
    have hs := smear_spec hp hge hlt
    simp only at hs
    rw [hs]
    generalize Nat.log 2 m = p at hge hlt hp hs ⊢
    have hpos2 : 0 < 2 ^ (p + 1) := Nat.two_pow_pos _
    have e : 2 ^ (p + 1) - 1 + 1 = 2 ^ (p + 1) := by omega
    rw [e]
    by_cases hp31 : p = 31
    · left
      subst hp31
      exact ⟨hge, by decide⟩
    · right
      have hpl : p < 31 := by omega
      have hb : 2 ^ (p + 1) ≤ 2 ^ 31 := Nat.pow_le_pow_right (by norm_num) (by omega)
      have e2 : u32 (2 ^ (p + 1)) = 2 ^ (p + 1) := u32_of_lt (by unfold two32; omega)
      refine ⟨p, hpl, hge, hlt, ?_⟩
      rw [e2, if_neg (by omega), Nat.add_zero, e2]

/-- The result of `round_up_to_the_next_power_of_2` is a power of two, at most `2^31`. -/
theorem round_up_pow (x : Nat) :
    ∃ e, e ≤ 31 ∧ round_up_to_the_next_power_of_2 x = 2 ^ e := by
  rcases round_up_cases x with ⟨_, h⟩ | ⟨_, h⟩ | ⟨p, hp, _, _, h⟩
  · exact ⟨0, by omega, by rw [h]; rfl⟩
  · exact ⟨0, by omega, by rw [h]; rfl⟩
  · exact ⟨p + 1, by omega, h⟩

/-- Outside `1 .. 2^31` the round-up gives 1. -/
theorem round_up_wrap {x : Nat} (hx : x < two32) (h : x = 0 ∨ 2147483648 < x) :
    round_up_to_the_next_power_of_2 x = 1 := by
  rcases round_up_cases x with ⟨_, h1⟩ | ⟨_, h1⟩ | ⟨p, hp, hge, hlt, _⟩
  · exact h1
  · exact h1
  · exfalso
    have hb : 2 ^ (p + 1) ≤ 2 ^ 31 := Nat.pow_le_pow_right (by norm_num) (by omega)
    unfold usub two32 at hge hlt
    unfold two32 at hx
    have hpos2 : 0 < 2 ^ p := Nat.two_pow_pos _
    rcases h with h | h
    · subst h
      norm_num at hlt
      omega
    · have : (x + 4294967296 - 1 % 4294967296) % 4294967296 = x - 1 := by omega
      rw [this] at hlt
      omega

/-- A `vsnprintf` that returns has returned the length of `r`. -/
theorem vsnprintf_ret {h h1 : Heap} {p : Option Ptr} {cap : Nat} {r : List Nat} {ret : Int}
    (hv : vsnprintf h p cap r = some (h1, ret)) (hr : r.length ≤ 2147483647) :
    ret = (r.length : Int) ∧
    (if cap = 0 then some h else store h p (r.take (cap - 1) ++ [0])) = some h1 := by
  unfold vsnprintf at hv
  cases hs : (if cap = 0 then some h else store h p (r.take (cap - 1) ++ [0])) with
  | none => simp [hs] at hv
  | some hx =>
    simp only [hs, hr, if_true, Option.some.injEq, Prod.mk.injEq] at hv
    exact ⟨hv.2.symm, by rw [hv.1]⟩

/-- A successful `String_format_at` that took the reallocating path. -/
theorem format_at_grow_ok {h : Heap} {a : Alloc} {s : string} {off : Nat} {r : List Nat}
    {s2 : string} {h5 : Heap}
    (hc : String_format_at h a s off r = some (0, s2, h5))
    (hr : r.length ≤ 2147483647) (hg : s.size < r.length + 1) :
    s2.size = round_up_to_the_next_power_of_2 (u32 (off + (r.length + 1) + 1)) ∧
    s2.len = u32 (off + (r.length + 1)) ∧ s2.resizable = true ∧
    s2.raw = some { blk := h.length, off := 0 } ∧
    r.length + 1 ≤ s2.size ∧ (usub s2.size off ≠ 0 → off + 1 ≤ s2.size) := by
  unfold String_format_at at hc
  cases hv : vsnprintf h (padd s.raw off) (usub s.size off) r with
  | none => simp [hv] at hc
  | some x =>
    rcases x with ⟨h1, ret⟩
    obtain ⟨hret, hst1⟩ := vsnprintf_ret hv hr
    subst hret
    have hlen1 : h1.length = h.length := by
      by_cases hcap : usub s.size off = 0
      · rw [if_pos hcap] at hst1
        cases hst1
        rfl
      · rw [if_neg hcap] at hst1
        exact length_store hst1
    simp only [hv, bytes_written_eq hr] at hc
    rw [if_pos (by omega)] at hc
    cases hrc : resize_and_cpy h1 a s (u32 (off + (r.length + 1) + 1)) off with
    | none => simp [hrc] at hc
    | some y =>
      rcases y with ⟨o, s1, h2⟩
      cases o with
      | none => simp [hrc] at hc
      | some old =>
        simp only [hrc] at hc
        obtain ⟨hres, junk, _, hs1, _, hmv⟩ := resize_and_cpy_some hrc
        cases hf : free h2 (some old) with
        | none => simp [hf] at hc
        | some h3 =>
          simp only [hf] at hc
          cases hms : (if s1.len < off then memset h3 (padd s1.raw s1.len) 0 (off - s1.len)
              else some h3) with
          | none => simp [hms] at hc
          | some h4 =>
            simp only [hms] at hc
            cases hv2 : vsnprintf h4 (padd s1.raw off) (usub s1.size off) r with
            | none => simp [hv2] at hc
            | some z =>
              rcases z with ⟨h5x, ret2⟩
              obtain ⟨hret2, hst2⟩ := vsnprintf_ret hv2 hr
              subst hret2
              simp only [hv2, bytes_written_eq hr] at hc
              by_cases hfit : r.length + 1 > s1.size
              · simp [hfit] at hc
              · simp only [hfit, if_false, Option.some.injEq, Prod.mk.injEq, true_and] at hc
                obtain ⟨rfl, rfl⟩ := hc
                subst hs1
                simp only at hfit hst2
                refine ⟨rfl, rfl, hres, by rw [hlen1], by dsimp only; omega, ?_⟩
                intro hcap
                dsimp only at hcap ⊢
                rw [if_neg hcap] at hst2
                obtain ⟨L, d, hi, hb⟩ := store_bound hst2 (by simp)
                simp only [padd, Option.map_some', List.length_append, List.length_singleton] at hi hb
                have hi4 : blockInfo h4 h1.length = blockInfo h3 h1.length := by
                  by_cases hlo : s.len < off
                  · simp only [hlo, if_true] at hms
                    exact info_store hms _
                  · simp only [hlo, if_false, Option.some.injEq] at hms
                    rw [hms]
                rw [hi4, info_free hf] at hi
                by_cases hold : h1.length = old.blk
                · simp [hold] at hi
                · simp only [hold, if_false] at hi
                  unfold memmove at hmv
                  cases hl : load (h1 ++ [some { bytes := (List.range (round_up_to_the_next_power_of_2
                      (u32 (off + (r.length + 1) + 1)))).map junk, dyn := true }]) (some old)
                      (if s.len ≤ off then s.len else off) with
                  | none => simp [hl] at hmv
                  | some bs =>
                    simp only [hl] at hmv
                    rw [info_store hmv, info_append] at hi
                    simp only [if_true, List.length_map, List.length_range, Option.some.injEq,
                      Prod.mk.injEq] at hi
                    omega

/-- A successful `String_ncpy_at` that took the reallocating path: the capacity is a
power of two and holds `off + n + 1` bytes. -/
theorem ncpy_at_grow_size {h : Heap} {a : Alloc} {dest : string} {off n : Nat}
    {src : Option Ptr} {s2 : string} {h2 : Heap}
    (hoff : off < two32) (hn : n < two32) (hg : dest.size < u32 (off + n + 1))
    (hc : String_ncpy_at h a dest off src n = some (0, s2, h2)) :
    (∃ e, s2.size = 2 ^ e) ∧ off + n + 1 ≤ s2.size := by
  obtain ⟨r2, L, d, hraw, _, _, _, _, _, _, hinfo, hb1, hb2, _, _, hpath⟩ := ncpy_at_ok hc
  rcases hpath with ⟨hfit, _⟩ | ⟨_, _, _, hp1, hp2, hp3⟩
  · exact absurd hg hfit
  · have hr2 : r2 = { blk := h.length, off := 0 } := by
      rw [hraw] at hp1
      exact Option.some.inj hp1
    subst hr2
    rw [hp3] at hinfo
    simp only [Option.some.injEq, Prod.mk.injEq] at hinfo
    obtain ⟨e, he, hpow⟩ := round_up_pow (u32 (off + n + 1))
    rw [← hp2] at hpow
    have hS : s2.size ≤ 2147483648 := by
      rw [hpow]
      exact Nat.pow_le_pow_right (by norm_num) he
    refine ⟨⟨e, hpow⟩, ?_⟩
    simp only at hb1 hb2
    unfold u32 two32 at hb1
    unfold two32 at hoff hn
    omega

/-- A successful `String_format_at` that took the reallocating path: the capacity is
a power of two and holds the requested `offset + bytes_written + 1` bytes. -/
theorem format_at_grow_size {h : Heap} {a : Alloc} {s : string} {off : Nat} {r : List Nat}
    {s2 : string} {h5 : Heap}
    (hoff : off < two32) (hr : r.length ≤ 2147483647) (hg : s.size < r.length + 1)
    (hc : String_format_at h a s off r = some (0, s2, h5)) :
    (∃ e, s2.size = 2 ^ e) ∧ off + (r.length + 1) + 1 ≤ s2.size := by
  obtain ⟨hsz, _, _, _, hbw, hcap⟩ := format_at_grow_ok hc hr hg
  obtain ⟨e, he, hpow⟩ := round_up_pow (u32 (off + (r.length + 1) + 1))
  rw [← hsz] at hpow
  have hS : s2.size ≤ 2147483648 := by
    rw [hpow]
    exact Nat.pow_le_pow_right (by norm_num) he
  have hS1 : 1 ≤ s2.size := by
    rw [hpow]
    exact Nat.two_pow_pos e
  refine ⟨⟨e, hpow⟩, ?_⟩
  have hoffS : off ≤ s2.size := by
    by_cases hz : usub s2.size off = 0
    · unfold usub two32 at hz
      unfold two32 at hoff
      omega
    · have := hcap hz
      omega
  by_cases hN : 2 ≤ u32 (off + (r.length + 1) + 1) ∧ u32 (off + (r.length + 1) + 1) ≤ 2147483648
  · have hge := round_up_ge (by omega) hN.2
    rw [← hsz] at hge
    unfold u32 two32 at hge hN
    unfold two32 at hoff
    omega
  · have hw : s2.size = 1 := by
      rw [hsz]
      by_cases h1 : u32 (off + (r.length + 1) + 1) = 1
      · rw [h1]
        decide
      · exact round_up_wrap (u32_lt _) (by omega)
    unfold u32 two32 at hN
    unfold two32 at hoff
    omega

/-- A `realloc` that returns a pointer: it points to a new `malloc` block of `size`
bytes that holds the old bytes below `size`. -/
theorem realloc_some {h : Heap} {a : Alloc} {p : Option Ptr} {size : Nat} {h1 : Heap}
    {temp : Ptr} (hr : realloc h a p size = some (h1, some temp)) :
    ∃ nb : Block, temp = { blk := h.length, off := 0 } ∧ blockAt h1 h.length = some nb ∧
      nb.dyn = true ∧ nb.bytes.length = size ∧
      (∀ i v, i < size → byteAt h p i = some v → nb.bytes[i]? = some v) := by
  unfold realloc at hr
  cases p with
  | none =>
    cases a with
    | none => simp [malloc_none] at hr
    | some junk =>
      simp only [malloc_some, Option.some.injEq, Prod.mk.injEq] at hr
      obtain ⟨rfl, rfl⟩ := hr
      refine ⟨{ bytes := (List.range size).map junk, dyn := true }, rfl, ?_, rfl, by simp, ?_⟩
      · rw [blockAt_append, if_pos rfl]
      · intro i v _ hv
        simp [byteAt] at hv
  | some q =>
    simp only at hr
    cases hb : blockAt h q.blk with
    | none => simp [hb] at hr
    | some blk =>
      simp only [hb] at hr
      by_cases hc : q.off = 0 ∧ blk.dyn = true
      · rw [if_pos hc] at hr
        cases a with
        | none => simp at hr
        | some junk =>
          simp only [Option.some.injEq, Prod.mk.injEq] at hr
          obtain ⟨rfl, rfl⟩ := hr
          refine ⟨_, rfl, (blockAt_append _ _ _).trans (if_pos (by simp)), rfl, ?_, ?_⟩
          · simp only [List.length_append, List.length_take, List.length_map, List.length_range]
            omega
          · intro i v hi hv
            simp only [byteAt, rd, hb, hc.1, Nat.zero_add] at hv
            have hlt : i < blk.bytes.length := by
              by_contra hge
              rw [List.getElem?_eq_none (by omega)] at hv
              simp at hv
            simp only
            rw [List.getElem?_append_left (by simp; omega), List.getElem?_take_of_lt hi]
            exact hv
      · rw [if_neg hc] at hr
        simp at hr

/-- A successful `String_set_size(s, k)` with `k` different from the capacity. -/
theorem set_size_ok {h : Heap} {a : Alloc} {s : string} {k : Nat} {s2 : string} {h2 : Heap}
    (hc : String_set_size h a s k = some (0, s2, h2)) (hk : k ≠ s.size) (hk32 : k < two32) :
    s2.size = max k 1 ∧ s2.raw = some { blk := h.length, off := 0 } ∧ s2.resizable = true ∧
    blockInfo h2 h.length = some (max k 1, true) ∧
    (max k 1 < s.len → s2.len = max k 1 ∧ rd h2 h.length (max k 1 - 1) = some 0) ∧
    (¬ max k 1 < s.len → s2.len = s.len) ∧
    (∀ i v, i < max k 1 → (max k 1 < s.len → i ≠ max k 1 - 1) → byteAt h s.raw i = some v →
      rd h2 h.length i = some v) := by
  unfold String_set_size at hc
  by_cases hres : s.resizable = false
  · simp [hres] at hc
  rw [if_neg hres, if_neg hk] at hc
  have hres2 : s.resizable = true := by simpa using hres
  have ek : (if k < 2 then 1 else k) = max k 1 := by
    by_cases h2k : k < 2
    · rw [if_pos h2k]
      omega
    · rw [if_neg h2k]
      omega
  simp only [ek] at hc
  cases hr : realloc h a s.raw (max k 1) with
  | none => simp [hr] at hc
  | some x =>
    rcases x with ⟨h1, o⟩
    cases o with
    | none => simp [hr] at hc
    | some temp =>
      simp only [hr] at hc
      obtain ⟨nb, rfl, hnb, hdyn, hlen, hkeep⟩ := realloc_some hr
      have hinfo1 : blockInfo h1 h.length = some (max k 1, true) := by
        simp [blockInfo, hnb, hlen, hdyn]
      have hrd1 : ∀ i, rd h1 h.length i = nb.bytes[i]? := by
        intro i
        simp [rd, hnb]
      by_cases hsh : s.len > max k 1
      · rw [if_pos hsh] at hc
        have e1 : usub (max k 1) 1 = max k 1 - 1 :=
          usub_of_le (by omega) (by unfold two32 at hk32 ⊢; omega)
        simp only [padd, Option.map_some', Nat.zero_add, e1] at hc
        cases hst : store h1 (some { blk := h.length, off := max k 1 - 1 }) [0] with
        | none => simp [hst] at hc
        | some h3 =>
          simp only [hst, Option.some.injEq, Prod.mk.injEq, true_and] at hc
          obtain ⟨rfl, rfl⟩ := hc
          refine ⟨rfl, rfl, hres2, by rw [info_store hst]; exact hinfo1, ?_, ?_, ?_⟩
          · intro _
            refine ⟨rfl, ?_⟩
            rw [rd_store hst, if_pos ⟨rfl, Nat.le_refl _, by simp only [List.length_singleton]; omega⟩]
            simp
          · intro hn
            exact absurd hsh hn
          · intro i v hi hne hv
            rw [rd_store hst, if_neg (by simp only [List.length_singleton]; have := hne hsh; omega),
              hrd1]
            exact hkeep i v hi hv
      · rw [if_neg hsh] at hc
        simp only [Option.some.injEq, Prod.mk.injEq, true_and] at hc
        obtain ⟨rfl, rfl⟩ := hc
        refine ⟨rfl, rfl, hres2, hinfo1, ?_, ?_, ?_⟩
        · intro hlt
          exact absurd hlt hsh
        · intro _
          rfl
        · intro i v hi _ hv
          rw [hrd1]
          exact hkeep i v hi hv

/-- `realloc` of a live `malloc` block returns a pointer when the allocation succeeds. -/
theorem realloc_total {h : Heap} {b L : Nat} (junk : Nat → Nat) (size : Nat)
    (hi : blockInfo h b = some (L, true)) :
    ∃ h1, realloc h (some junk) (some { blk := b, off := 0 }) size =
      some (h1, some { blk := h.length, off := 0 }) := by
  unfold blockInfo at hi
  cases hb : blockAt h b with
  | none => simp [hb] at hi
  | some blk =>
    simp only [hb, Option.map_some', Option.some.injEq, Prod.mk.injEq] at hi
    unfold realloc
    simp only [hb, hi.2, and_self, if_true]
    exact ⟨_, rfl⟩

/-- `String_set_size` on a String that owns its buffer returns 0 when the allocation
succeeds. -/
theorem set_size_total {h : Heap} {s : string} {cs : List Nat} (junk : Nat → Nat) (k : Nat)
    (ho : Owns h s cs) (hk32 : k < two32) :
    ∃ s2 h2, String_set_size h (some junk) s k = some (0, s2, h2) := by
  obtain ⟨hres, _, _, b, L, hraw, hinfo, _, _⟩ := ho
  unfold String_set_size
  rw [if_neg (by simp [hres])]
  by_cases hk : k = s.size
  · rw [if_pos hk]
    exact ⟨_, _, rfl⟩
  rw [if_neg hk]
  have ek : (if k < 2 then 1 else k) = max k 1 := by
    by_cases h2k : k < 2
    · rw [if_pos h2k]
      omega
    · rw [if_neg h2k]
      omega
  simp only [ek]
  obtain ⟨h1, hr⟩ := realloc_total junk (max k 1) hinfo
  rw [hraw, hr]
  simp only
  obtain ⟨nb, _, hnb, hdyn, hlen, _⟩ := realloc_some hr
  by_cases hsh : s.len > max k 1
  · rw [if_pos hsh]
    have e1 : usub (max k 1) 1 = max k 1 - 1 :=
      usub_of_le (by omega) (by unfold two32 at hk32 ⊢; omega)
    simp only [padd, Option.map_some', Nat.zero_add, e1]
    have hinfo1 : blockInfo h1 h.length = some (max k 1, true) := by
      simp [blockInfo, hnb, hlen, hdyn]
    obtain ⟨h3, hst⟩ := @store_total h1 { blk := h.length, off := max k 1 - 1 } [0] _ _ hinfo1
      (by simp only [List.length_singleton]; omega)
    rw [hst]
    exact ⟨_, _, rfl⟩
  · rw [if_neg hsh]
    exact ⟨_, _, rfl⟩

/-- A successful `String_ncpy_at` on a heap of the 32-bit platform leaves a
well-formed String of length `off + n + 1`. -/
theorem ncpy_at_wf {h : Heap} {a : Alloc} {dest : string} {off n : Nat} {src : Option Ptr}
    {s2 : string} {h2 : Heap}
    (h32 : heap32 h = true) (hoff : off < two32) (hn : n < two32)
    (hc : String_ncpy_at h a dest off src n = some (0, s2, h2)) :
    s2.len = off + n + 1 ∧ WellFormed h2 s2 := by
  have hnw := ncpy_at_nowrap hc h32 hoff
  obtain ⟨r2, L, d, hraw, hlen, _, hterm, _, _, _, _, _, _, _, _, hpath⟩ := ncpy_at_ok hc
  have e1 : n + off + 1 = off + n + 1 := by omega
  have e2 : u32 (n + off) = off + n := by
    rw [u32_of_lt (by omega)]
    omega
  rw [e1, u32_of_lt hnw] at hlen
  rw [e2] at hterm
  refine ⟨hlen, ?_, ?_⟩
  · intro _
    rcases hpath with ⟨hfit, _, hsz, _⟩ | ⟨hg, _, _, _, _, _⟩
    · rw [u32_of_lt hnw] at hfit
      omega
    · have := (ncpy_at_grow_size hoff hn hg hc).2
      omega
  · intro _ _
    rw [hraw, hlen]
    simp only [byteAt]
    exact hterm

/-- A `String_set_size(s, k)` with `k` equal to the capacity that returns 0 has
changed nothing. -/
theorem set_size_same {h : Heap} {a : Alloc} {s : string} {k : Nat} {s2 : string} {h2 : Heap}
    (hc : String_set_size h a s k = some (0, s2, h2)) (hk : k = s.size) :
    s2 = s ∧ h2 = h := by
  unfold String_set_size at hc
  by_cases hres : s.resizable = false
  · simp [hres] at hc
  · rw [if_neg hres, if_pos hk] at hc
    simp only [Option.some.injEq, Prod.mk.injEq, true_and] at hc
    exact ⟨hc.1.symm, hc.2.symm⟩

/-- A successful `String_set_size` keeps a String well-formed. -/
theorem set_size_wf {h : Heap} {a : Alloc} {s : string} {k : Nat} {s2 : string} {h2 : Heap}
    (hwf : WellFormed h s) (hk32 : k < two32)
    (hc : String_set_size h a s k = some (0, s2, h2)) : WellFormed h2 s2 := by
  by_cases hk : k = s.size
  · obtain ⟨rfl, rfl⟩ := set_size_same hc hk
    exact hwf
  · obtain ⟨hsz, hraw, _, _, hsh, hkeep, hbytes⟩ := set_size_ok hc hk hk32
    by_cases hlt : max k 1 < s.len
    · obtain ⟨hl2, hz⟩ := hsh hlt
      refine ⟨fun _ => by omega, fun _ _ => ?_⟩
      rw [hraw, hl2]
      simp only [byteAt, Nat.zero_add]
      exact hz
    · have hl2 := hkeep hlt
      refine ⟨fun _ => by omega, fun _ hpos => ?_⟩
      rw [hl2] at hpos
      have hle := hwf.1 hpos
      have hz := hwf.2 (by omega) hpos
      rw [hraw, hl2]
      simp only [byteAt, Nat.zero_add]
      exact hbytes _ _ (by omega) (fun hc2 => absurd hc2 hlt) hz

/-- Every String that `String_new` returns on a heap of the 32-bit platform is
well-formed. -/
theorem new_wf {h : Heap} {ok : Bool} {a : Alloc} {src : Option Ptr} {n : Nat} {s : string}
    {h1 : Heap} (h32 : heap32 h = true)
    (hn : String_new h ok a src n = some (some s, h1)) : WellFormed h1 s := by
  obtain ⟨m, _, hc⟩ := new_unfold hn
  have hnw := ncpy_at_nowrap hc h32 (by decide)
  exact (ncpy_at_wf h32 (by decide) (by omega) hc).2

/-- Every String that `String_new_steal` returns on a heap of the 32-bit platform is
well-formed. -/
theorem new_steal_wf {h : Heap} {src : Option Ptr} {size : Nat} {s : string}
    (h32 : heap32 h = true)
    (hs : String_new_steal h true src size = some (some s)) : WellFormed h s := by
  obtain ⟨hraw, _, h1, h2⟩ := new_steal_spec hs
  refine ⟨fun _ => ?_, fun _ hpos => ?_⟩
  · by_cases hc : size < s.len
    · have := (h1 hc).1
      omega
    · have := (h2 hc).1
      omega
  · cases src with
    | none =>
      exfalso
      simp [String_new_steal, String_alloc] at hs
      subst hs
      simp at hpos
    | some p =>
      cases hk : strlen h (some p) with
      | none => simp [String_new_steal, String_alloc, hk] at hs
      | some k =>
        have hlt := strlen_lt h32 hk
        have e : u32 (k + 1) = k + 1 := u32_of_lt hlt
        obtain ⟨bs, hbl, _, hld⟩ := cstring_of_strlen hk
        have hlen : s.len = k + 1 := by
          simp only [String_new_steal, String_alloc, if_true, ne_eq, reduceCtorEq,
            not_false_eq_true, hk, Option.map_some', e] at hs
          by_cases hc : size < k + 1
          · simp only [hc, if_true, Option.some.injEq] at hs
            rw [← hs]
          · simp only [hc, if_false, Option.some.injEq] at hs
            rw [← hs]
        rw [hraw, hlen, byteAt_some, Nat.add_sub_cancel]
        have := load_get hld k (by omega)
        rw [this, List.getElem?_append_right (by omega)]
        simp [hbl]

theorem comparedBytes_zero (xs : List Nat) : comparedBytes 0 xs = [] := by
  simp [comparedBytes]

theorem comparedBytes_cons (n x : Nat) (xs : List Nat) :
    comparedBytes (n + 1) (x :: xs) = if x = 0 then [] else x :: comparedBytes n xs := by
  unfold comparedBytes
  by_cases hx : x = 0
  · simp [hx, List.takeWhile]
  · have hb : (x != 0) = true := by simp [hx]
    simp only [List.take_succ_cons, List.takeWhile, hb, hx, if_false]

/-- The sign of `strncmp` is the lexicographic order of the compared strings. -/
theorem strncmpBytes_sign : ∀ (n : Nat) (xs ys : List Nat) (r : Int),
    strncmpBytes n xs ys = some r →
      (r < 0 ↔ List.Lex (· < ·) (comparedBytes n xs) (comparedBytes n ys)) ∧
      (r = 0 ↔ comparedBytes n xs = comparedBytes n ys) ∧
      (0 < r ↔ List.Lex (· < ·) (comparedBytes n ys) (comparedBytes n xs))
  | 0, xs, ys, r, hr => by
    simp only [strncmpBytes, Option.some.injEq] at hr
    subst hr
    simp [comparedBytes_zero]
  | n + 1, [], ys, r, hr => by simp [strncmpBytes] at hr
  | n + 1, x :: xs, [], r, hr => by simp [strncmpBytes] at hr
  | n + 1, x :: xs, y :: ys, r, hr => by
    rw [strncmpBytes] at hr
    rw [comparedBytes_cons, comparedBytes_cons]
    by_cases hxy : x = y
    · subst hxy
      simp only [ne_eq, not_true_eq_false, if_false] at hr
      by_cases hx : x = 0
      · simp only [hx, if_true, Option.some.injEq] at hr
        subst hr
        simp [hx]
      · simp only [hx, if_false] at hr ⊢
        have ih := strncmpBytes_sign n xs ys r hr
        rw [List.Lex.cons_iff, List.Lex.cons_iff]
        simpa using ih
    · simp only [ne_eq, hxy, not_false_eq_true, if_true, Option.some.injEq] at hr
      subst hr
      by_cases hx : x = 0
      · subst hx
        have hy : y ≠ 0 := fun hc => hxy hc.symm
        have hy2 : 0 < y := Nat.pos_of_ne_zero hy
        simp only [if_true, hy, if_false]
        refine ⟨⟨fun _ => List.Lex.nil, fun _ => by omega⟩, ⟨fun hc => by omega, fun hc => by simp at hc⟩,
          ⟨fun hc => by omega, fun hc => by cases hc⟩⟩
      · by_cases hy : y = 0
        · subst hy
          have hx2 : 0 < x := Nat.pos_of_ne_zero hx
          simp only [if_true, hx, if_false]
          refine ⟨⟨fun hc => by omega, fun hc => by cases hc⟩,
            ⟨fun hc => by omega, fun hc => by simp at hc⟩,
            ⟨fun _ => List.Lex.nil, fun _ => by omega⟩⟩
        · simp only [hx, hy, if_false]
          refine ⟨⟨fun hc => List.Lex.rel (by omega), fun hc => ?_⟩,
            ⟨fun hc => by omega, fun hc => absurd (List.cons.inj hc).1 hxy⟩,
            ⟨fun hc => List.Lex.rel (by omega), fun hc => ?_⟩⟩
          · cases hc with
            | cons _ => exact absurd rfl hxy
            | rel h => omega
          · cases hc with
            | cons _ => exact absurd rfl hxy
            | rel h => omega

/-- `strncmp` returns on two strings that have a terminator. -/
theorem strncmpBytes_total : ∀ (n : Nat) (xs ys : List Nat) (k1 k2 : Nat),
    firstZero xs = some k1 → firstZero ys = some k2 → ∃ r, strncmpBytes n xs ys = some r
  | 0, _, _, _, _, _, _ => ⟨0, by simp [strncmpBytes]⟩
  | n + 1, [], _, _, _, h1, _ => by simp [firstZero] at h1
  | n + 1, _ :: _, [], _, _, _, h2 => by simp [firstZero] at h2
  | n + 1, x :: xs, y :: ys, k1, k2, h1, h2 => by
    rw [strncmpBytes]
    by_cases hxy : x = y
    · subst hxy
      simp only [ne_eq, not_true_eq_false, if_false]
      by_cases hx : x = 0
      · exact ⟨0, by simp [hx]⟩
      · simp only [hx, if_false]
        simp only [firstZero, hx, if_false, Option.map_eq_some'] at h1 h2
        obtain ⟨j1, hj1, _⟩ := h1
        obtain ⟨j2, hj2, _⟩ := h2
        exact strncmpBytes_total n xs ys j1 j2 hj1 hj2
    · exact ⟨(x : Int) - (y : Int), by simp [hxy]⟩

/-- A `vsnprintf` with bound `cap` changes no byte outside the `cap` bytes at `p`. -/
theorem vsnprintf_frame {h h1 : Heap} {q : Ptr} {cap : Nat} {r : List Nat} {ret : Int}
    (hv : vsnprintf h (some q) cap r = some (h1, ret)) (b j : Nat)
    (hout : ¬ (b = q.blk ∧ q.off ≤ j ∧ j < q.off + cap)) :
    rd h1 b j = rd h b j := by
  unfold vsnprintf at hv
  by_cases hcap : cap = 0
  · simp only [hcap, if_true, Option.some.injEq, Prod.mk.injEq] at hv
    rw [← hv.1]
  · simp only [hcap, if_false] at hv
    cases hs : store h (some q) (r.take (cap - 1) ++ [0]) with
    | none => simp [hs] at hv
    | some hx =>
      simp only [hs, Option.some.injEq, Prod.mk.injEq] at hv
      obtain ⟨rfl, _⟩ := hv
      rw [rd_store hs, if_neg]
      intro hc
      apply hout
      have hl : (r.take (cap - 1) ++ [0]).length ≤ cap := by
        simp only [List.length_append, List.length_take, List.length_singleton]
        omega
      exact ⟨hc.1, hc.2.1, by omega⟩

/-- A `vsnprintf` keeps the length of every block. -/
theorem vsnprintf_info {h h1 : Heap} {p : Option Ptr} {cap : Nat} {r : List Nat} {ret : Int}
    (hv : vsnprintf h p cap r = some (h1, ret)) (b : Nat) :
    blockInfo h1 b = blockInfo h b := by
  unfold vsnprintf at hv
  by_cases hcap : cap = 0
  · simp only [hcap, if_true, Option.some.injEq, Prod.mk.injEq] at hv
    rw [← hv.1]
  · simp only [hcap, if_false] at hv
    cases hs : store h p (r.take (cap - 1) ++ [0]) with
    | none => simp [hs] at hv
    | some hx =>
      simp only [hs, Option.some.injEq, Prod.mk.injEq] at hv
      obtain ⟨rfl, _⟩ := hv
      exact info_store hs b

/-- A successful `String_ncpy_at` on an allocated String, or on the structure that
`String_alloc` returns, leaves an allocated String. -/
theorem ncpy_at_alloc {h : Heap} {a : Alloc} {dest : string} {off n : Nat}
    {src : Option Ptr} {s2 : string} {h2 : Heap}
    (hpre : Allocated h dest ∨
      dest = { raw := none, size := 0, len := 0, resizable := true })
    (h32 : heap32 h = true) (hoff : off < two32)
    (hc : String_ncpy_at h a dest off src n = some (0, s2, h2)) :
    Allocated h2 s2 ∧ s2.len = off + n + 1 ∧ off + n + 1 ≤ s2.size := by
  have hnw := ncpy_at_nowrap hc h32 hoff
  obtain ⟨hlen, hwf⟩ := ncpy_at_wf h32 hoff (by omega) hc
  have hle : s2.len ≤ s2.size := hwf.1 (by omega)
  obtain ⟨r2, L, d, hraw, _, hres, _, _, _, _, hinfo, _, _, _, _, hpath⟩ := ncpy_at_ok hc
  have hresd : dest.resizable = true := by
    rcases hpre with hp | hp
    · exact hp.1
    · rw [hp]
  refine ⟨⟨by rw [hres]; exact hresd, by omega, hle, ?_⟩, hlen, by omega⟩
  rcases hpath with ⟨hfit, hraw2, hsz, hinf⟩ | ⟨_, _, _, hp1, hp2, hp3⟩
  · rcases hpre with hp | hp
    · obtain ⟨_, _, _, hs32, b, hb1, hb2⟩ := hp
      rw [hsz, hraw2]
      exact ⟨hs32, b, hb1, by rw [hinf]; exact hb2⟩
    · exfalso
      apply hfit
      rw [hp, u32_of_lt hnw]
      simp only
      omega
  · refine ⟨?_, h.length, hp1, hp3⟩
    rw [hp2]
    exact round_up_lt _

/-- A successful `String_set_size` keeps a String allocated. -/
theorem set_size_alloc {h : Heap} {a : Alloc} {s : string} {k : Nat} {s2 : string}
    {h2 : Heap} (hpre : Allocated h s) (hk32 : k < two32)
    (hc : String_set_size h a s k = some (0, s2, h2)) : Allocated h2 s2 := by
  by_cases hk : k = s.size
  · obtain ⟨rfl, rfl⟩ := set_size_same hc hk
    exact hpre
  · obtain ⟨hsz, hraw, hres, hinfo, hsh, hkeep, _⟩ := set_size_ok hc hk hk32
    obtain ⟨_, hl1, _, _, _⟩ := hpre
    have hm : max k 1 < two32 := by unfold two32 at hk32 ⊢; omega
    refine ⟨hres, ?_, ?_, by rw [hsz]; exact hm, h.length, hraw, by rw [hsz]; exact hinfo⟩
    · by_cases hlt : max k 1 < s.len
      · rw [(hsh hlt).1]
        omega
      · rw [hkeep hlt]
        exact hl1
    · by_cases hlt : max k 1 < s.len
      · rw [(hsh hlt).1, hsz]
      · rw [hkeep hlt, hsz]
        omega

theorem derived_alloc_aux {st : Bool} {h : Heap} {s : string} (hd : Derived st h s) :
    st = false → Allocated h s := by
  induction hd with
  | new h32 hn =>
    intro _
    obtain ⟨m, _, hc⟩ := new_unfold hn
    exact (ncpy_at_alloc (Or.inr rfl) h32 (by decide) hc).1
  | steal _ _ =>
    intro hst
    cases hst
  | ncpy_at _ h32 hoff hc ih =>
    intro hst
    exact (ncpy_at_alloc (Or.inl (ih hst)) h32 hoff hc).1
  | @ncat st0 h0 a0 s0 n0 src s2 h2 _ h32 hc ih =>
    intro hst
    unfold String_ncat at hc
    by_cases hsrc : src = none
    · simp [hsrc] at hc
    · rw [if_neg hsrc] at hc
      have hoff : usub s0.len 1 < two32 := Nat.mod_lt _ (by decide)
      exact (ncpy_at_alloc (Or.inl (ih hst)) h32 hoff hc).1
  | set_size _ hk hc ih =>
    intro hst
    exact set_size_alloc (ih hst) hk hc
  | frame _ hfr ih =>
    intro hst
    obtain ⟨h1, h2, h3, h4, b, hb1, hb2⟩ := ih hst
    refine ⟨h1, h2, h3, h4, b, hb1, ?_⟩
    have := hfr _ hb1
    simp only at this
    unfold blockInfo at hb2 ⊢
    rw [this]
    exact hb2

/-- Every String obtained from `String_new` by successful calls is allocated. -/
theorem derived_alloc {h : Heap} {s : string} (hd : Derived false h s) : Allocated h s :=
  derived_alloc_aux hd rfl

/-- `String_ncpy_at` on an allocated String returns 0 when the source is readable, the
allocation (if one is made) succeeds and `off + n + 1 < 2^31`: no step of the call
leaves a block. -/
theorem ncpy_at_alloc_total {h : Heap} {s : string} {off n : Nat} {src : Option Ptr}
    {bs : List Nat} (junk : Nat → Nat) (hpre : Allocated h s)
    (hnw : off + n + 1 < 2147483648) (hsrc : load h src n = some bs) :
    ∃ s2 h2, String_ncpy_at h (some junk) s off src n = some (0, s2, h2) := by
  obtain ⟨hres, _, hle, _, b, hraw, hinfo⟩ := hpre
  by_cases hcap : off + n + 1 ≤ s.size
  · exact ncpy_at_inplace_total hraw hinfo (by simp only; omega) (by unfold two32; omega)
      hcap hsrc
  · exact ncpy_at_grow_total hres (by omega) (by omega) hsrc
      (Or.inr ⟨b, s.size, hraw, hinfo, by omega⟩)

/-- The String that `String_new_steal` returns for a source that is not `NULL`. -/
theorem new_steal_len {h : Heap} {p : Ptr} {size : Nat} {s : string}
    (h32 : heap32 h = true)
    (hs : String_new_steal h true (some p) size = some (some s)) :
    1 ≤ s.len ∧ s.len < two32 ∧ s.raw = some p := by
  obtain ⟨hraw, hlt32, _, _⟩ := new_steal_spec hs
  refine ⟨?_, hlt32, hraw⟩
  cases hk : strlen h (some p) with
  | none => simp [String_new_steal, String_alloc, hk] at hs
  | some k =>
    have hlt := strlen_lt h32 hk
    have e : u32 (k + 1) = k + 1 := u32_of_lt hlt
    simp only [String_new_steal, String_alloc, if_true, ne_eq, reduceCtorEq,
      not_false_eq_true, hk, Option.map_some', e] at hs
    by_cases hc : size < k + 1
    · simp only [hc, if_true, Option.some.injEq] at hs
      rw [← hs]
      simp
    · simp only [hc, if_false, Option.some.injEq] at hs
      rw [← hs]
      simp

/-- A successful `String_ncpy_at` on a heap of the 32-bit platform leaves a length of
at least 1 and a buffer. -/
theorem ncpy_at_len {h : Heap} {a : Alloc} {dest : string} {off n : Nat} {src : Option Ptr}
    {s2 : string} {h2 : Heap} (h32 : heap32 h = true) (hoff : off < two32)
    (hc : String_ncpy_at h a dest off src n = some (0, s2, h2)) :
    1 ≤ s2.len ∧ s2.len < two32 ∧ s2.raw ≠ none := by
  have hnw := ncpy_at_nowrap hc h32 hoff
  obtain ⟨hlen, _⟩ := ncpy_at_wf h32 hoff (by omega) hc
  obtain ⟨r2, _, _, hraw, _⟩ := ncpy_at_ok hc
  refine ⟨by omega, by omega, ?_⟩
  rw [hraw]
  simp

/-- Every String obtained from `String_new`, or from `String_new_steal` on a source that
is not `NULL`, by successful calls has a length of at least 1 and a buffer. -/
theorem derived_len {st : Bool} {h : Heap} {s : string} (hd : Derived st h s) :
    1 ≤ s.len ∧ s.len < two32 ∧ s.raw ≠ none := by
  induction hd with
  | new h32 hn =>
    obtain ⟨m, _, hc⟩ := new_unfold hn
    exact ncpy_at_len h32 (by decide) hc
  | steal h32 hs =>
    obtain ⟨h1, h2, h3⟩ := new_steal_len h32 hs
    exact ⟨h1, h2, by rw [h3]; simp⟩
  | ncpy_at _ h32 hoff hc _ => exact ncpy_at_len h32 hoff hc
  | @ncat st0 h0 a0 s0 n0 src s2 h2 _ h32 hc _ =>
    unfold String_ncat at hc
    by_cases hsrc : src = none
    · simp [hsrc] at hc
    · rw [if_neg hsrc] at hc
      have hoff : usub s0.len 1 < two32 := Nat.mod_lt _ (by decide)
      exact ncpy_at_len h32 hoff hc
  | @set_size st0 h0 a0 s0 k s2 h2 _ hk hc ih =>
    by_cases hks : k = s0.size
    · obtain ⟨rfl, rfl⟩ := set_size_same hc hks
      exact ih
    · obtain ⟨_, hraw, _, _, hsh, hkeep, _⟩ := set_size_ok hc hks hk
      obtain ⟨i1, i2, _⟩ := ih
      have hm : max k 1 < two32 := by unfold two32 at hk ⊢; omega
      refine ⟨?_, ?_, by rw [hraw]; simp⟩
      · by_cases hlt : max k 1 < s0.len
        · rw [(hsh hlt).1]
          omega
        · rw [hkeep hlt]
          exact i1
      · by_cases hlt : max k 1 < s0.len
        · rw [(hsh hlt).1]
          exact hm
        · rw [hkeep hlt]
          exact i2
  | frame _ _ ih => exact ih

/-- After a `String_ncpy_at` at offset 0 that returns 0, the first `n` bytes of the
String are those of a source that lies in another object than the old buffer:
`strncmp` on `n` bytes gives 0. -/
theorem ncpy_compare {h : Heap} {a : Alloc} {dest : string} {n : Nat} {q : Ptr}
    {bs : List Nat} {s2 : string} {h2 : Heap}
    (hb : 0 + n + 1 < two32) (hsrc : load h (some q) n = some bs)
    (hsep : ∀ r, dest.raw = some r → q.blk ≠ r.blk)
    (hc : String_ncpy_at h a dest 0 (some q) n = some (0, s2, h2)) :
    strncmp h2 s2.raw (some q) n = some 0 := by
  obtain ⟨r2, L, d, hraw, _, _, _, hmov, _, _, _, _, _, _, hframe, hpath⟩ := ncpy_at_ok hc
  rw [hraw]
  apply strncmp_same
  intro i hi
  obtain ⟨v, hv⟩ := getElem?_some_of_lt (l := bs) (i := i) (by rw [load_length hsrc]; exact hi)
  have hr1 := load_get hsrc i hi
  rw [hv] at hr1
  have hng : ¬ gapAlias dest 0 n q i := by
    intro hg
    have := hg.2.1
    omega
  have hr2 := hmov i q v hi rfl hr1 hng (by rw [u32_of_lt (by omega)]; omega)
  refine ⟨v, by simpa using hr2, ?_⟩
  have hlt := rd_lt hr1
  rw [hframe q.blk (q.off + i) ?_ (fun r hr => hsep r hr)]
  · exact hr1
  · rcases hpath with ⟨_, hp, _, _⟩ | ⟨_, _, _, hp, _, _⟩
    · rw [hraw] at hp
      exact hsep r2 hp.symm
    · rw [hraw] at hp
      simp only [Option.some.injEq] at hp
      subst hp
      simp only
      omega

/-! ## The claims -/

/-- C1 as stated fails when the source overlaps bytes of the destination that the
call itself rewrites.  (1) The buffer `"\0bcdefg\0"` is what `String_new_str("abcdefg")`
followed by `String_ncpy(s, "", 0)` leaves; `String_ncpy_at(s, 3, String_raw(s) + 1, 2)`
returns `0`, the source held `b`, `c` at the call, but the in-place path zero-fills the
gap `[1, 3)` first and the bytes `[3, 5)` of the result are `0`, `0`.  (2) With `s2`
adopting `String_raw(s1) + 1`, `String_ncpy(s1, String_raw(s2), 3)` returns `0` and
`String_nequals(s1, s2, 3)` is false afterwards. -/
theorem C1_counterexample :
    (String_new_str [some { bytes := [97, 98, 99, 100, 101, 102, 103, 0], dyn := false }]
        true (some (fun _ => 7)) (some { blk := 0, off := 0 }) =
      some (some { raw := some { blk := 1, off := 0 }, len := 8, size := 8, resizable := true },
        [some { bytes := [97, 98, 99, 100, 101, 102, 103, 0], dyn := false },
         some { bytes := [97, 98, 99, 100, 101, 102, 103, 0], dyn := true }]) ∧
     String_ncpy [some { bytes := [97, 98, 99, 100, 101, 102, 103, 0], dyn := true }] none
        { raw := some { blk := 0, off := 0 }, len := 8, size := 8, resizable := true }
        (some { blk := 0, off := 7 }) 0 =
      some (0, staleString, [some { bytes := stale, dyn := true }])) ∧
    (load [some { bytes := stale, dyn := true }] (some { blk := 0, off := 1 }) 2 = some [98, 99] ∧
     String_ncpy_at [some { bytes := stale, dyn := true }] none staleString 3
        (some { blk := 0, off := 1 }) 2 =
      some (0, { staleString with len := 6 },
        [some { bytes := [0, 0, 0, 0, 0, 0, 103, 0], dyn := true }]) ∧
     byteAt [some { bytes := [0, 0, 0, 0, 0, 0, 103, 0], dyn := true }]
        (some { blk := 0, off := 0 }) 3 ≠ some 98) ∧
    (String_new_steal [some { bytes := abcdef, dyn := true }] true (some { blk := 0, off := 1 }) 0 =
      some (some { raw := some { blk := 0, off := 1 }, len := 6, size := 6, resizable := false }) ∧
     String_ncpy [some { bytes := abcdef, dyn := true }] none
        { raw := some { blk := 0, off := 0 }, len := 7, size := 7, resizable := true }
        (String_raw { raw := some { blk := 0, off := 1 }, len := 6, size := 6, resizable := false })
        3 =
      some (0, { raw := some { blk := 0, off := 0 }, len := 4, size := 7, resizable := true },
        [some { bytes := [98, 99, 100, 0, 101, 102, 0], dyn := true }]) ∧
     String_nequals [some { bytes := [98, 99, 100, 0, 101, 102, 0], dyn := true }]
        { raw := some { blk := 0, off := 0 }, len := 4, size := 7, resizable := true }
        { raw := some { blk := 0, off := 1 }, len := 6, size := 6, resizable := false } 3 =
      some false) := by
  decide

/-- C1, amended.  Let `src` hold the `n` bytes `bs` when `String_ncpy_at(dest, off, src, n)`
is called, with `off + n + 1 < 2^32`, and let no source byte lie in the gap `[len, off)`
of the destination buffer that an in-place call zero-fills.  If the call returns `0`,
the internal length is `off + n + 1`, the bytes `[off, off + n)` of the result are `bs`
and the byte at `off + n` is `0`.  In particular, when `src` is the raw string of a
String `t` whose buffer is another object than the buffer of `dest`,
`String_nequals(dest, t, n)` holds after `String_ncpy(dest, String_raw(t), n)`. -/
theorem C1_ncpy_at_content (h : Heap) (a : Alloc) (dest : string) (off n : Nat)
    (src : Option Ptr) (bs : List Nat) (s2 : string) (h2 : Heap)
    (hb : off + n + 1 < two32) (hsrc : load h src n = some bs)
    (hga : ∀ q i, src = some q → i < n → ¬ gapAlias dest off n q i)
    (hc : String_ncpy_at h a dest off src n = some (0, s2, h2)) :
    s2.len = off + n + 1 ∧
    (∀ i, i < n → byteAt h2 s2.raw (off + i) = bs[i]?) ∧
    byteAt h2 s2.raw (off + n) = some 0 ∧
    (off = 0 → ∀ t : string, String_raw t = src →
      (∀ r q, dest.raw = some r → src = some q → q.blk ≠ r.blk) →
      String_nequals h2 s2 t n = some true) := by
  obtain ⟨r2, L, d, hraw, hlen, _, hterm, hmov, _, _, _, _, _, _, hframe, hpath⟩ := ncpy_at_ok hc
  have e1 : u32 (n + off) = n + off := u32_of_lt (by omega)
  have e2 : u32 (n + off + 1) = n + off + 1 := u32_of_lt (by omega)
  have hbl := load_length hsrc
  have hbytes : ∀ i, i < n → ∃ q v, src = some q ∧ bs[i]? = some v ∧
      rd h q.blk (q.off + i) = some v ∧ rd h2 r2.blk (r2.off + (off + i)) = some v := by
    intro i hi
    obtain ⟨q, hq⟩ := load_ptr hsrc (by omega)
    subst hq
    obtain ⟨v, hv⟩ := getElem?_some_of_lt (l := bs) (i := i) (by omega)
    have hr := load_get hsrc i hi
    rw [hv] at hr
    exact ⟨q, v, rfl, hv, hr, hmov i q v hi rfl hr (hga q i rfl hi) (by omega)⟩
  refine ⟨by rw [hlen, e2]; omega, ?_, ?_, ?_⟩
  · intro i hi
    obtain ⟨q, v, _, hv, _, hr⟩ := hbytes i hi
    rw [hraw, byteAt_some, hv]
    exact hr
  · rw [hraw, byteAt_some]
    rw [e1] at hterm
    rw [Nat.add_comm off n]
    exact hterm
  · intro hoff t ht hsep
    subst hoff
    unfold String_nequals String_ncmp
    by_cases hn : n = 0
    · subst hn
      simp [strncmp]
    · obtain ⟨q, hq⟩ := load_ptr hsrc (by omega)
      subst hq
      have hcmp : strncmp h2 (String_raw s2) (String_raw t) n = some 0 := by
        rw [ht]
        show strncmp h2 s2.raw (some q) n = some 0
        rw [hraw]
        apply strncmp_same
        intro i hi
        obtain ⟨q2, v, hq2, _, hr1, hr2⟩ := hbytes i hi
        simp only [Option.some.injEq] at hq2
        subst hq2
        refine ⟨v, by simpa using hr2, ?_⟩
        have hlt := rd_lt hr1
        rw [hframe q.blk (q.off + i) ?_ (fun r hr => hsep r q hr rfl)]
        · exact hr1
        · rcases hpath with ⟨_, hp, _, _⟩ | ⟨_, _, _, hp, _, _⟩
          · rw [hraw] at hp
            exact hsep r2 q hp.symm rfl
          · rw [hraw] at hp
            simp only [Option.some.injEq] at hp
            subst hp
            simp only
            omega
      rw [hcmp]
      rfl

/-- The copy of `test_ncpy`: six bytes of the text into the empty String, then the
comparison with the String that adopted the text. -/
theorem C1_ncpy_at_content_witness :
    ({ raw := some { blk := 2, off := 0 }, len := 7, size := 8, resizable := true } : string).len
      = 0 + 6 + 1 ∧
    byteAt [some { bytes := hello, dyn := false }, none,
            some { bytes := hello.take 6 ++ [0, 7], dyn := true }]
      (some { blk := 2, off := 0 }) (0 + 6) = some 0 ∧
    String_nequals [some { bytes := hello, dyn := false }, none,
            some { bytes := hello.take 6 ++ [0, 7], dyn := true }]
      { raw := some { blk := 2, off := 0 }, len := 7, size := 8, resizable := true }
      { raw := helloPtr, len := 14, size := 14, resizable := false } 6 = some true :=
  (fun w => ⟨w.1, w.2.2.1,
      w.2.2.2 rfl { raw := helloPtr, len := 14, size := 14, resizable := false } rfl
        (by intro r q hr hq; cases hr; cases hq; decide)⟩)
   (C1_ncpy_at_content emptyHeap (some (fun _ => 7)) emptyString 0 6 helloPtr (hello.take 6)
    { raw := some { blk := 2, off := 0 }, len := 7, size := 8, resizable := true }
    [some { bytes := hello, dyn := false }, none,
     some { bytes := hello.take 6 ++ [0, 7], dyn := true }]
    (by decide) (by decide)
    (by intro q i _ _ hg; exact absurd hg.2.1 (by decide))
    (by decide))

/-- C2 (gap zero-fill).  After a successful `String_ncpy_at(dest, off, src, n)` on a
String of internal length `L < off`, every byte of the result at an index in
`[L, off)` is `0`, on the in-place path and on the reallocating path alike.  On
the empty String of the tests, `String_ncpy_at(s, 16, "Hello World!\n", 13)` gives
16 zero bytes, the 13 bytes of the text and a terminator, with reported length 30. -/
theorem C2_gap_zero_fill :
    (∀ (h : Heap) (a : Alloc) (dest : string) (off n : Nat) (src : Option Ptr)
        (s2 : string) (h2 : Heap),
      String_ncpy_at h a dest off src n = some (0, s2, h2) → dest.len < off →
      ∀ i, dest.len ≤ i → i < off → byteAt h2 s2.raw i = some 0) ∧
    (∀ j1 j2 : Nat → Nat,
      String_new_empty helloHeap true (some j1) = some (some emptyString, emptyHeap) ∧
      ∃ s2 h2, String_ncpy_at emptyHeap (some j2) emptyString 16 helloPtr 13 = some (0, s2, h2) ∧
        String_length s2 = 30 ∧
        load h2 s2.raw 30 = some (List.replicate 16 0 ++ hello)) := by
  constructor
  · intro h a dest off n src s2 h2 hc _ i hi1 hi2
    obtain ⟨r2, L, d, hraw, _, _, _, _, hgap, _⟩ := ncpy_at_ok hc
    rw [hraw, byteAt_some]
    exact hgap i hi1 hi2
  · intro j1 j2
    exact ⟨rfl, _, _, rfl, rfl, rfl⟩

/-- The call of the tests: zero bytes at the indices 1 to 15 of the result. -/
theorem C2_gap_zero_fill_witness :
    ∀ i, 1 ≤ i → i < 16 →
      byteAt
        [some { bytes := hello, dyn := false }, none,
         some { bytes := List.replicate 16 0 ++ hello ++ [7, 7], dyn := true }]
        (some { blk := 2, off := 0 }) i = some 0 :=
  C2_gap_zero_fill.1 emptyHeap (some (fun _ => 7)) emptyString 16 13 helloPtr
    { raw := some { blk := 2, off := 0 }, len := 30, size := 32, resizable := true }
    [some { bytes := hello, dyn := false }, none,
     some { bytes := List.replicate 16 0 ++ hello ++ [7, 7], dyn := true }]
    (by decide) (by decide)

/-- C3 (prefix preservation).  On a heap of the 32-bit platform, a successful
`String_ncpy_at(dest, off, src, n)` on a String of internal length `L` leaves every
byte at an index below `min(L, off)` as it was, whether the write was done in
place or after a reallocation. -/
theorem C3_prefix_preserved (h : Heap) (a : Alloc) (dest : string) (off n : Nat)
    (src : Option Ptr) (s2 : string) (h2 : Heap)
    (h32 : heap32 h = true) (hoff : off < two32)
    (hc : String_ncpy_at h a dest off src n = some (0, s2, h2))
    (i v : Nat) (hi : i < min dest.len off) (hv : byteAt h dest.raw i = some v) :
    byteAt h2 s2.raw i = some v := by
  have hnw := ncpy_at_nowrap hc h32 hoff
  obtain ⟨r2, L, d, hraw, _, _, _, _, _, hkeep, _⟩ := ncpy_at_ok hc
  rw [hraw, byteAt_some]
  have e : u32 (n + off) = n + off := u32_of_lt (by omega)
  have : i < dest.len ∧ i < off := by omega
  exact hkeep i v this.1 this.2 (by omega) hv

/-- The self-copy of the tests at offset 6: the first byte `H` is kept, on the
reallocating path. -/
theorem C3_prefix_preserved_witness :
    byteAt
      [some { bytes := hello, dyn := false }, none,
       some { bytes := hello.take 6 ++ hello ++ List.replicate 12 7, dyn := true }]
      (some { blk := 2, off := 0 }) 0 = some 72 :=
  C3_prefix_preserved
    [some { bytes := hello, dyn := false }, some { bytes := hello ++ [7, 7], dyn := true }]
    (some (fun _ => 7))
    { raw := some { blk := 1, off := 0 }, len := 14, size := 16, resizable := true } 6 13
    (some { blk := 1, off := 0 })
    { raw := some { blk := 2, off := 0 }, len := 20, size := 32, resizable := true }
    [some { bytes := hello, dyn := false }, none,
     some { bytes := hello.take 6 ++ hello ++ List.replicate 12 7, dyn := true }]
    (by decide) (by decide) (by decide) 0 72 (by decide) (by decide)

/-- C4 (self-overlapping copy).  Let `s` have the internal length `L >= 1` and the
content `c` (its first `L` bytes), on a heap of the 32-bit platform, and let
`k <= L - 1`.  A successful `String_ncpy_at(s, k, String_raw(s), L - 1)` leaves the
length `k + L` and the content `c[0..k)`, `c[0..L-1)`, terminator: the source is read
as it was before the call.  The call does succeed in place when `k + L` fits the
capacity, and by reallocation when `s` is growable, owns its buffer, the allocation
succeeds and `k + L <= 2^31`.  From `"Hello World!\n"`, offset 6 gives
`"Hello Hello World!\n"`. -/
theorem C4_self_copy :
    (∀ (h : Heap) (a : Alloc) (s : string) (k : Nat) (cs : List Nat),
      heap32 h = true → 1 ≤ s.len → k ≤ s.len - 1 → load h s.raw s.len = some cs →
      (∀ s2 h2, String_ncpy_at h a s k (String_raw s) (s.len - 1) = some (0, s2, h2) →
        s2.len = k + s.len ∧
        load h2 s2.raw (k + s.len) = some (cs.take k ++ cs.take (s.len - 1) ++ [0])) ∧
      (∀ r L d, s.raw = some r → blockInfo h r.blk = some (L, d) → r.off + s.size ≤ L →
        (k + s.len ≤ s.size ∨
          (s.resizable = true ∧ a ≠ none ∧ r.off = 0 ∧ d = true ∧ k + s.len ≤ 2147483648)) →
        ∃ s2 h2, String_ncpy_at h a s k (String_raw s) (s.len - 1) = some (0, s2, h2))) ∧
    (∀ j1 j2 : Nat → Nat, ∃ s h1 s2 h2,
      String_new_str helloHeap true (some j1) helloPtr = some (some s, h1) ∧
      String_ncpy_at h1 (some j2) s 6 (String_raw s) (String_length s - 1) = some (0, s2, h2) ∧
      load h2 s2.raw 20 = some (hello.take 6 ++ hello)) := by
  refine ⟨?_, fun j1 j2 => ⟨_, _, _, _, rfl, rfl, rfl⟩⟩
  intro h a s k cs h32 hL hk hc
  have hclen := load_length hc
  obtain ⟨r, hr⟩ := load_ptr hc (by omega)
  have hc2 : load h (some r) s.len = some cs := by rw [← hr]; exact hc
  have hoff : k < two32 := by
    obtain ⟨Lb, db, hib, hle⟩ := load_info hc2 (by omega)
    have := (heap32_iff h).mp h32 _ _ _ hib
    omega
  constructor
  · intro s2 h2 hcall
    have hnw := ncpy_at_nowrap hcall h32 hoff
    obtain ⟨r2, L, d, hraw, hlen, _, hterm, hmov, _, hkeep, _, _, _, _, _, _⟩ := ncpy_at_ok hcall
    have e1 : u32 (s.len - 1 + k) = s.len - 1 + k := u32_of_lt (by omega)
    have e2 : u32 (s.len - 1 + k + 1) = s.len - 1 + k + 1 := u32_of_lt (by omega)
    rw [e1] at hterm
    have hcget : ∀ i, i < s.len → rd h r.blk (r.off + i) = cs[i]? := by
      intro i hi
      exact load_get hc2 i hi
    refine ⟨by rw [hlen, e2]; omega, ?_⟩
    rw [hraw]
    apply load_of_rd (by simp [hclen]; omega) (by omega)
    intro i hi
    by_cases h1 : i < k
    · -- the kept bytes
      obtain ⟨v, hv⟩ := getElem?_some_of_lt (l := cs) (i := i) (by omega)
      have := hkeep i v (by omega) h1 (by omega)
        (by rw [hr, byteAt_some, hcget i (by omega)]; exact hv)
      rw [this, List.append_assoc, List.getElem?_append_left (by simp; omega),
        List.getElem?_take_of_lt h1, hv]
    · by_cases h2x : i < k + (s.len - 1)
      · -- the moved bytes
        obtain ⟨v, hv⟩ := getElem?_some_of_lt (l := cs) (i := i - k) (by omega)
        have hg : ¬ gapAlias s k (s.len - 1) r (i - k) := by
          intro hx
          have := hx.2.1
          omega
        have := hmov (i - k) r v (by omega) hr
          (by rw [hcget (i - k) (by omega)]; exact hv) hg (by omega)
        have e : k + (i - k) = i := by omega
        rw [e] at this
        rw [this, List.append_assoc, List.getElem?_append_right (by simp; omega)]
        have hl1 : (List.take k cs).length = k := by simp; omega
        rw [hl1, List.getElem?_append_left (by simp; omega),
          List.getElem?_take_of_lt (by omega), hv]
      · have e : i = s.len - 1 + k := by omega
        subst e
        rw [hterm, List.getElem?_append_right (by simp; omega)]
        have hl1 : (List.take k cs ++ List.take (s.len - 1) cs).length = s.len - 1 + k := by
          simp; omega
        rw [hl1]
        simp
  · intro r0 L d hr0 hinfo hcapreal hpath
    rw [hr] at hr0
    simp only [Option.some.injEq] at hr0
    subst hr0
    have hL32 := (heap32_iff h).mp h32 _ _ _ hinfo
    obtain ⟨bs1, hsrc⟩ : ∃ bs1, load h (String_raw s) (s.len - 1) = some bs1 := by
      obtain ⟨Lb, db, hib, hle⟩ := load_info hc2 (by omega)
      show ∃ bs1, load h s.raw (s.len - 1) = some bs1
      rw [hr]
      exact load_total hib (by omega)
    by_cases hfits : k + s.len ≤ s.size
    · exact ncpy_at_inplace_total hr hinfo (by omega) (by omega) (by omega) hsrc
    · rcases hpath with hp | ⟨hres, ha, hr0, hd, hbound⟩
      · exact absurd hp hfits
      · obtain ⟨junk, rfl⟩ : ∃ junk, a = some junk := by
          cases a with
          | none => exact absurd rfl ha
          | some j => exact ⟨j, rfl⟩
        obtain ⟨Lb, db, hib, hle⟩ := load_info hc2 (by omega)
        rw [hinfo] at hib
        simp only [Option.some.injEq, Prod.mk.injEq] at hib
        apply ncpy_at_grow_total hres (by omega) (by omega) hsrc
        right
        refine ⟨r.blk, L, ?_, ?_, by omega⟩
        · rw [hr]
          rcases r with ⟨rb, ro⟩
          simp only at hr0
          subst hr0
          rfl
        · rw [hinfo, hd]

/-- The self-copy of `test_ncpy_overlapping`, from the state `String_new_str` leaves. -/
theorem C4_self_copy_witness :
    ({ raw := some { blk := 2, off := 0 }, len := 20, size := 32, resizable := true } : string).len
      = 6 + 14 ∧
    load [some { bytes := hello, dyn := false }, none,
          some { bytes := hello.take 6 ++ hello ++ List.replicate 12 7, dyn := true }]
      (some { blk := 2, off := 0 }) (6 + 14) =
      some (hello.take 6 ++ hello.take (14 - 1) ++ [0]) :=
  (C4_self_copy.1
    [some { bytes := hello, dyn := false }, some { bytes := hello ++ [7, 7], dyn := true }]
    (some (fun _ => 7))
    { raw := some { blk := 1, off := 0 }, len := 14, size := 16, resizable := true } 6 hello
    (by decide) (by decide) (by decide) (by decide)).1
    { raw := some { blk := 2, off := 0 }, len := 20, size := 32, resizable := true }
    [some { bytes := hello, dyn := false }, none,
     some { bytes := hello.take 6 ++ hello ++ List.replicate 12 7, dyn := true }]
    (by decide)

/-- C5 (append).  On a heap of the 32-bit platform, let `src` hold the `m` bytes `bs`.
A successful `String_ncat(dest, src, m)` is `String_ncpy_at` at offset `len - 1`; it
adds `m` to the reported length, keeps every byte before the old terminator, puts
`bs` from the position of the old terminator on, and a terminator after it. -/
theorem C5_ncat (h : Heap) (a : Alloc) (dest : string) (src : Option Ptr) (m : Nat)
    (bs : List Nat) (s2 : string) (h2 : Heap)
    (h32 : heap32 h = true) (hlen : dest.len < two32)
    (hsrc : load h src m = some bs)
    (hc : String_ncat h a dest src m = some (0, s2, h2)) :
    String_ncpy_at h a dest (dest.len - 1) src m = some (0, s2, h2) ∧
    String_length s2 = String_length dest + m ∧
    (∀ i v, i + 1 < dest.len → byteAt h dest.raw i = some v → byteAt h2 s2.raw i = some v) ∧
    (∀ i, i < m → byteAt h2 s2.raw (dest.len - 1 + i) = bs[i]?) ∧
    byteAt h2 s2.raw (dest.len - 1 + m) = some 0 := by
  unfold String_ncat at hc
  by_cases hs : src = none
  · simp [hs] at hc
  simp only [hs, if_false] at hc
  have hoff : usub dest.len 1 < two32 := Nat.mod_lt _ (by decide)
  have hnw := ncpy_at_nowrap hc h32 hoff
  have hpos : 1 ≤ dest.len := by
    by_contra hcon
    have h0 : dest.len = 0 := by omega
    rw [h0] at hnw
    have : usub 0 1 = 4294967295 := by decide
    rw [this] at hnw
    unfold two32 at hnw
    omega
  have eoff : usub dest.len 1 = dest.len - 1 := usub_of_le hpos hlen
  rw [eoff] at hc hnw
  obtain ⟨r2, L, d, hraw, hl2, hres, hterm, hmov, _, hkeep, _, _, _, _, _, _⟩ := ncpy_at_ok hc
  have e1 : u32 (m + (dest.len - 1)) = m + (dest.len - 1) := u32_of_lt (by omega)
  have e2 : u32 (m + (dest.len - 1) + 1) = m + (dest.len - 1) + 1 := u32_of_lt (by omega)
  have hbl := load_length hsrc
  refine ⟨hc, ?_, ?_, ?_, ?_⟩
  · unfold String_length
    rw [hres, hl2, e2]
    cases hr : dest.resizable with
    | false =>
      simp only [if_true]
      rw [eoff, usub_of_le (by omega) (by omega)]
      omega
    | true =>
      simp only [Bool.true_eq_false, if_false]
      omega
  · intro i v hi hv
    rw [hraw, byteAt_some]
    exact hkeep i v (by omega) (by omega) (by omega) hv
  · intro i hi
    obtain ⟨q, hq⟩ := load_ptr hsrc (by omega)
    subst hq
    obtain ⟨v, hv⟩ := getElem?_some_of_lt (l := bs) (i := i) (by omega)
    have hr := load_get hsrc i hi
    rw [hv] at hr
    rw [hraw, byteAt_some, hv]
    refine hmov i q v hi rfl hr ?_ (by omega)
    intro hg
    have := hg.2.1
    omega
  · rw [hraw, byteAt_some]
    rw [e1] at hterm
    rw [Nat.add_comm (dest.len - 1) m]
    exact hterm

/-- The first append of `test_ncat_with_initial_string_empty`. -/
theorem C5_ncat_witness :
    String_length { raw := some { blk := 2, off := 0 }, len := 14, size := 16, resizable := true } =
      String_length emptyString + 13 :=
  (C5_ncat emptyHeap (some (fun _ => 7)) emptyString helloPtr 13 (hello.take 13)
    { raw := some { blk := 2, off := 0 }, len := 14, size := 16, resizable := true }
    [some { bytes := hello, dyn := false }, none,
     some { bytes := hello ++ [7, 7], dyn := true }]
    (by decide) (by decide) (by decide) (by decide)).2.1

/-- C6 (repeated append).  Let `p` point to a payload `bs` of `g` bytes outside the
String, let `g * n + 1 < 2^31`, and let every allocation succeed.  Appending `p` with
`String_ncat` `n` times to `String_new_empty()` succeeds and gives the reported length
`g * n + 1` and the content `bs` repeated `n` times, then one terminator.  For
`n >= 1`, the values for which there is a run of `n - 1` appends, and a payload of
non-zero bytes followed by a terminator, starting from `String_new_str(p)` and
appending `n - 1` times gives the same length and content. -/
theorem C6_repeated_append (h : Heap) (p : Ptr) (bs : List Nat) (n : Nat) (j0 : Nat → Nat)
    (junk : Nat → Nat → Nat)
    (hp : load h (some p) bs.length = some bs) (hbound : bs.length * n + 1 < 2147483648) :
    (∃ s0 h0 s h1, String_new_empty h true (some j0) = some (some s0, h0) ∧
        ncat_times (some p) bs.length junk n (s0, h0) = some (s, h1) ∧
        String_length s = bs.length * n + 1 ∧
        load h1 s.raw (bs.length * n + 1) = some (repeated bs n ++ [0])) ∧
    ((∀ x ∈ bs, x ≠ 0) → load h (some p) (bs.length + 1) = some (bs ++ [0]) → 1 ≤ n →
      ∃ s0 h0 s h1, String_new_str h true (some j0) (some p) = some (some s0, h0) ∧
        ncat_times (some p) bs.length junk (n - 1) (s0, h0) = some (s, h1) ∧
        String_length s = bs.length * n + 1 ∧
        load h1 s.raw (bs.length * n + 1) = some (repeated bs n ++ [0])) := by
  have hpn : (some p : Option Ptr) ≠ none := by simp
  -- the payload is outside the block a constructor allocates
  have hout : 0 < bs.length → p.blk ≠ h.length := by
    intro hg
    obtain ⟨Lq, dq, hiq, _⟩ := load_info hp hg
    have := info_lt hiq
    omega
  have hkeep : ∀ (s0 : string) (h0 : Heap), s0.raw = some { blk := h.length, off := 0 } →
      (∀ b j, b ≠ h.length → rd h0 b j = rd h b j) →
      load h0 (some p) bs.length = some bs ∧
      (∀ q r, some p = some q → 0 < bs.length → s0.raw = some r → q.blk ≠ r.blk) := by
    intro s0 h0 hraw hframe
    constructor
    · apply @src_kept h h0 { raw := none, len := 0, size := 0, resizable := true } (some p)
        bs.length bs { blk := h.length, off := 0 } hp
      · intro b j hb _
        exact hframe b j hb
      · intro q hq hg
        simp only [Option.some.injEq] at hq
        subst hq
        exact hout hg
      · intro q r _ _ hr
        simp at hr
    · intro q r hq hg hr
      simp only [Option.some.injEq] at hq
      subst hq
      rw [hraw] at hr
      simp only [Option.some.injEq] at hr
      rw [← hr]
      exact hout hg
  have hfinish : ∀ (s : string) (h1 : Heap), Owns h1 s (repeated bs n ++ [0]) →
      String_length s = bs.length * n + 1 ∧
      load h1 s.raw (bs.length * n + 1) = some (repeated bs n ++ [0]) := by
    intro s h1 ho
    obtain ⟨hres, hlen, _, _, _, _, _, _, hcontent⟩ := ho
    have e : s.len = bs.length * n + 1 := by
      rw [hlen, List.length_append, repeated_length]; simp
    refine ⟨by simp [String_length, hres, e], ?_⟩
    rw [← e]
    exact hcontent
  constructor
  · obtain ⟨s0, h0, hnew, ho, hraw, hframe⟩ := new_empty_spec h j0
    obtain ⟨hsrc0, hsep0⟩ := hkeep s0 h0 hraw hframe
    obtain ⟨s, h1, hrun, ho1, _, _⟩ := @ncat_times_spec (some p) bs junk hpn n h0 s0 []
      (by simpa using ho) hsrc0 hsep0 (by simp; omega)
    have ho2 : Owns h1 s (repeated bs n ++ [0]) := by simpa using ho1
    exact ⟨s0, h0, s, h1, hnew, hrun, hfinish s h1 ho2⟩
  · intro hnz hpz hn
    have hg1 : bs.length + 1 ≤ 2147483648 := by
      have : bs.length * 1 ≤ bs.length * n := Nat.mul_le_mul_left _ hn
      omega
    obtain ⟨s0, h0, hnew, ho, hraw, hframe⟩ := new_str_spec j0 hnz hpz hg1
    obtain ⟨hsrc0, hsep0⟩ := hkeep s0 h0 hraw hframe
    have hb : bs.length + bs.length * (n - 1) + 1 ≤ 2147483648 := by
      have : bs.length + bs.length * (n - 1) = bs.length * n := by
        obtain ⟨m, rfl⟩ : ∃ m, n = m + 1 := ⟨n - 1, by omega⟩
        simp [Nat.mul_succ, Nat.add_comm]
      omega
    obtain ⟨s, h1, hrun, ho1, _, _⟩ := @ncat_times_spec (some p) bs junk hpn (n - 1) h0 s0 bs
      ho hsrc0 hsep0 hb
    have ho2 : Owns h1 s (repeated bs n ++ [0]) := by
      obtain ⟨m, rfl⟩ : ∃ m, n = m + 1 := ⟨n - 1, by omega⟩
      simp only [Nat.add_sub_cancel] at ho1
      rw [repeated_comm] at ho1
      exact ho1
    exact ⟨s0, h0, s, h1, hnew, hrun, hfinish s h1 ho2⟩

/-- The loop of `test_ncat_with_initial_string_empty`: five appends of the 13 bytes of
`"Hello World!\n"`. -/
theorem C6_repeated_append_witness :
    ∃ s0 h0 s h1, String_new_empty helloHeap true (some (fun _ => 7)) = some (some s0, h0) ∧
      ncat_times (some { blk := 0, off := 0 }) 13 (fun _ _ => 7) 5 (s0, h0) = some (s, h1) ∧
      String_length s = 13 * 5 + 1 ∧
      load h1 s.raw (13 * 5 + 1) = some (repeated (hello.take 13) 5 ++ [0]) :=
  (C6_repeated_append helloHeap { blk := 0, off := 0 } (hello.take 13) 5 (fun _ => 7)
    (fun _ _ => 7) (by decide) (by decide)).1

/-- C7, the code against `DStrings.h` ("Operations that need resizing it to succeed
will fail") when `off + n + 1` does not fit `unsigned`: on the String that adopted
`"Hello World!\n"` with claimed size 0 (capacity 14, not growable),
`String_ncpy_at(s, 4294967295, src, 0)` needs `2^32` bytes, but the sum of line 89 wraps
to `0`, the capacity test passes, the call takes the in-place path and its gap fill
runs off the buffer: it does not return `-1`. -/
theorem C7_counterexample :
    String_new_steal helloHeap true helloPtr 0 = some (some stolenHello) ∧
    stolenHello.size < 4294967295 + 0 + 1 ∧
    String_ncpy_at helloHeap none stolenHello 4294967295 helloPtr 0 = none := by
  refine ⟨by decide, by decide, ?_⟩
  have hfill : memset helloHeap (padd stolenHello.raw stolenHello.len) 0
      (4294967295 - stolenHello.len) = none :=
    store_oob (h := helloHeap) (q := { blk := 0, off := 14 })
      (b := { bytes := hello, dyn := false }) rfl
      (by rw [List.length_replicate]; decide)
      (by rw [List.length_replicate]; decide)
  unfold String_ncpy_at
  rw [if_neg (by decide), if_neg (by decide)]
  unfold ncpy_at_write
  rw [if_pos (by decide), hfill]
  rfl

/-- C7, where the need fits `unsigned`.  Let `s` be the String that `String_new_steal`
returns for a claimed size below the content length.  It is not growable; every
`String_ncpy_at` with `off + n + 1 < 2^32` and `off + n + 1` above the capacity, and
every `String_ncat` with `len + n < 2^32` and `len + n` above the capacity, returns `-1`; every
`String_set_size` returns `-1`; and each of these calls leaves the structure
(length, capacity, growable flag, raw pointer) and the whole heap as they were. -/
theorem C7_non_growable (h : Heap) (src : Option Ptr) (size : Nat) (s : string)
    (hs : String_new_steal h true src size = some (some s)) (hsz : size < s.len) :
    s.resizable = false ∧
    (∀ (h1 : Heap) (a : Alloc) (off n : Nat) (p : Option Ptr), (p = none → n = 0) →
      off + n + 1 < two32 → s.size < off + n + 1 →
      String_ncpy_at h1 a s off p n = some (-1, s, h1)) ∧
    (∀ (h1 : Heap) (a : Alloc) (n : Nat) (p : Option Ptr), p ≠ none →
      s.len + n < two32 → s.size < s.len + n →
      String_ncat h1 a s p n = some (-1, s, h1)) ∧
    (∀ (h1 : Heap) (a : Alloc) (k : Nat), String_set_size h1 a s k = some (-1, s, h1)) := by
  obtain ⟨_, hlen, hclamp, _⟩ := new_steal_spec hs
  obtain ⟨hsize, hres⟩ := hclamp hsz
  refine ⟨hres, ?_, ?_, ?_⟩
  · intro h1 a off n p hp hnw hneed
    exact ncpy_at_not_resizable hres hp (by rw [u32_of_lt hnw]; exact hneed)
  · intro h1 a n p hp hnw hneed
    unfold String_ncat
    simp only [hp, if_false]
    have e : usub s.len 1 = s.len - 1 := usub_of_le (by omega) hlen
    rw [e]
    apply ncpy_at_not_resizable hres (fun hc => absurd hc hp)
    have e2 : s.len - 1 + n + 1 = s.len + n := by omega
    rw [e2, u32_of_lt hnw]
    exact hneed
  · intro h1 a k
    simp [String_set_size, hres]

/-- The adopted `buff` of `test_new_steal`: a copy of 20 bytes is refused. -/
theorem C7_non_growable_witness :
    String_ncpy_at stealHeap none stolenHello 0 (some { blk := 1, off := 0 }) 20 =
      some (-1, stolenHello, stealHeap) :=
  (C7_non_growable stealHeap (some { blk := 0, off := 0 }) 2 stolenHello (by decide)
    (by decide)).2.1 stealHeap none 0 20 (some { blk := 1, off := 0 })
    (by intro hc; cases hc) (by decide) (by decide)

/-- C8 as stated fails on the String that adopted `"Hello World!\n"` (capacity 14, not
growable).  (1) A render of 20 bytes at offset 0 returns `-1`, but the first attempt
has already put 13 bytes of it and a terminator in the buffer.  (2) A render of 8
bytes at offset 10 does not fit the 4 bytes that remain, yet the call returns `0`,
with length 19.  (3) A render of 20 bytes at offset 15 is attempted with the bound
`14 - 15` taken in `unsigned` and runs off the buffer. -/
theorem C8_counterexample :
    (String_format_at stealHeap none stolenHello 0 (alphabet.take 20) =
      some (-1, stolenHello,
        [some { bytes := alphabet.take 13 ++ [0], dyn := false },
         some { bytes := alphabet, dyn := false }]) ∧
     load [some { bytes := alphabet.take 13 ++ [0], dyn := false },
           some { bytes := alphabet, dyn := false }] stolenHello.raw 14 ≠
       load stealHeap stolenHello.raw 14) ∧
    String_format_at stealHeap none stolenHello 10 (alphabet.take 8) =
      some (0, { stolenHello with len := 19 },
        [some { bytes := hello.take 10 ++ [97, 98, 99, 0], dyn := false },
         some { bytes := alphabet, dyn := false }]) ∧
    String_format_at stealHeap none stolenHello 15 (alphabet.take 20) = none := by
  decide

/-- C8, amended.  Let `s` be a String that is not growable and whose buffer has its
`capacity` bytes, `offset <= capacity`, and let the rendered output `r` need more
than the capacity (`|r| + 1 > capacity`).  Then `String_format_at` returns `-1`; the
structure (length, capacity, growable flag) is unchanged, no block changes size, and
every byte outside `[offset, capacity)` of the buffer is unchanged.  The bytes
`[offset, capacity)` are not preserved: the first render attempt has written there. -/
theorem C8_format_at_non_growable (h : Heap) (a : Alloc) (s : string) (off : Nat)
    (r : List Nat) (q : Ptr) (L : Nat) (d : Bool)
    (hres : s.resizable = false) (hraw : s.raw = some q)
    (hinfo : blockInfo h q.blk = some (L, d)) (hcap : q.off + s.size ≤ L)
    (hsize : s.size < two32) (hoff : off ≤ s.size)
    (hr : r.length ≤ 2147483647) (hbig : s.size < r.length + 1) :
    ∃ h2, String_format_at h a s off r = some (-1, s, h2) ∧
      (∀ b, blockInfo h2 b = blockInfo h b) ∧
      (∀ b j, ¬ (b = q.blk ∧ q.off + off ≤ j ∧ j < q.off + s.size) → rd h2 b j = rd h b j) := by
  have ecap : usub s.size off = s.size - off := usub_of_le hoff hsize
  have hbw := bytes_written_eq hr
  -- the first render attempt
  have hfirst : ∃ h1, vsnprintf h (padd s.raw off) (usub s.size off) r = some (h1, (r.length : Int)) ∧
      (∀ b, blockInfo h1 b = blockInfo h b) ∧
      (∀ b j, ¬ (b = q.blk ∧ q.off + off ≤ j ∧ j < q.off + s.size) → rd h1 b j = rd h b j) := by
    unfold vsnprintf
    rw [ecap, hraw]
    simp only [padd, Option.map_some', hr, if_true]
    by_cases hc : s.size - off = 0
    · simp only [hc, if_true]
      exact ⟨h, rfl, fun _ => rfl, fun _ _ _ => rfl⟩
    · simp only [hc, if_false]
      have hlen : (List.take (s.size - off - 1) r ++ [0]).length ≤ s.size - off := by
        simp; omega
      obtain ⟨h1, hst⟩ := @store_total h { blk := q.blk, off := q.off + off }
        (List.take (s.size - off - 1) r ++ [0]) L d hinfo (by simp only; omega)
      refine ⟨h1, by rw [hst], fun b => info_store hst b, fun b j hj => ?_⟩
      rw [rd_store hst b j, if_neg]
      intro hx
      apply hj
      simp only at hx
      exact ⟨hx.1, hx.2.1, by omega⟩
  obtain ⟨h1, hv, hi1, hf1⟩ := hfirst
  refine ⟨h1, ?_, hi1, hf1⟩
  unfold String_format_at
  rw [hv]
  simp only [hbw]
  have : r.length + 1 > s.size := hbig
  simp only [this, if_true, resize_and_cpy, resize, hres]

/-- The first render of the counterexample: 20 bytes into the adopted `buff`. -/
theorem C8_format_at_non_growable_witness :
    ∃ h2, String_format_at stealHeap none stolenHello 0 (alphabet.take 20) =
        some (-1, stolenHello, h2) ∧
      (∀ b, blockInfo h2 b = blockInfo stealHeap b) ∧
      (∀ b j, ¬ (b = 0 ∧ 0 + 0 ≤ j ∧ j < 0 + 14) → rd h2 b j = rd stealHeap b j) :=
  C8_format_at_non_growable stealHeap none stolenHello 0 (alphabet.take 20)
    { blk := 0, off := 0 } 14 false (by decide) (by decide) (by decide) (by decide) (by decide)
    (by decide) (by decide) (by decide)

/-- C9 (adoption).  On a heap of the 32-bit platform, for a NUL-terminated `src` of
length `k`, `String_new_steal(src, size)` returns a String whose raw string is `src`
itself and whose internal length is `k + 1`; when `size < k + 1` the capacity is
`k + 1` and the String is not growable, otherwise the capacity is `size` and the
String is growable.  For a `NULL` source the length is `0` and the capacity is
`size`. -/
theorem C9_new_steal (h : Heap) (src : Ptr) (size k : Nat) (h32 : heap32 h = true)
    (hk : strlen h (some src) = some k) :
    (size < k + 1 →
      String_new_steal h true (some src) size =
        some (some { raw := some src, len := k + 1, size := k + 1, resizable := false })) ∧
    (k + 1 ≤ size →
      String_new_steal h true (some src) size =
        some (some { raw := some src, len := k + 1, size := size, resizable := true })) ∧
    String_new_steal h true none size =
      some (some { raw := none, len := 0, size := size, resizable := true }) := by
  have hlt := strlen_lt h32 hk
  have e : u32 (k + 1) = k + 1 := u32_of_lt hlt
  refine ⟨fun hs => ?_, fun hs => ?_, ?_⟩
  · simp [String_new_steal, String_alloc, hk, e, hs]
  · have : ¬ size < k + 1 := by omega
    simp [String_new_steal, String_alloc, hk, e, this]
  · simp [String_new_steal, String_alloc]

/-- The adoptions of `test_new_steal`: `buff` with claimed size 2, the alphabet with
claimed size 8. -/
theorem C9_new_steal_witness :
    String_new_steal stealHeap true (some { blk := 0, off := 0 }) 2 = some (some stolenHello) :=
  (C9_new_steal stealHeap { blk := 0, off := 0 } 2 13 (by decide) (by decide)).1 (by decide)

/-- C10 as stated fails: adopting `buff = "Hello World!\n"` with the claimed size
`strlen(buff) = 13` gives the non-growable String of capacity 14, and `String_ncpy` of
5 bytes of the alphabet into it returns 0, where the claim says the result is not 0. -/
theorem C10_counterexample :
    strlen stealHeap (some { blk := 0, off := 0 }) = some 13 ∧
    String_new_steal stealHeap true (some { blk := 0, off := 0 }) 13 = some (some stolenHello) ∧
    String_ncpy stealHeap none stolenHello (some { blk := 1, off := 0 }) 5 =
      some (0, { stolenHello with len := 6 },
        [some { bytes := [97, 98, 99, 100, 101, 0, 87, 111, 114, 108, 100, 33, 10, 0],
                dyn := false },
         some { bytes := alphabet, dyn := false }]) := by
  refine ⟨by decide, by decide, by decide⟩

/-- C10, amended.  On a heap of the 32-bit platform, for every NUL-terminated `buff` of
length `k`, every claimed size up to `k` (so `strlen(buff)` and every smaller one, such
as 2), every `n` with `1 <= n <= k` and every source of `n` bytes:
`String_new_steal(buff, size)` gives the String of capacity `k + 1` that is not
growable; `String_ncpy` of `n` bytes into it returns `0`, as the copy needs
`n + 1 <= k + 1` bytes and is done in place; and after every such copy that returns
`0`, `String_ncmp` on `n` bytes with a String whose raw string is the source, in
another object than `buff`, is `0`.  At the input of `test_new_steal`: adopting
`buff = "Hello World!\n"` with the claimed size 13 gives the same String as adopting
it with the claimed size 2; the copy of 5 bytes returns `0`; the copy of 8 bytes into
the size-2 adoption returns `0` and `String_ncmp` on 8 bytes is then `0`. -/
theorem C10_copy_into_adopted :
    (∀ (h : Heap) (buff : Ptr) (k size n : Nat) (src : Option Ptr) (bs : List Nat),
      heap32 h = true → strlen h (some buff) = some k → size ≤ k → 1 ≤ n → n ≤ k →
      load h src n = some bs →
      String_new_steal h true (some buff) size =
        some (some { raw := some buff, len := k + 1, size := k + 1, resizable := false }) ∧
      (∃ s2 h2, String_ncpy h none
        { raw := some buff, len := k + 1, size := k + 1, resizable := false } src n =
          some (0, s2, h2)) ∧
      (∀ (a : Alloc) (s2 : string) (h2 : Heap) (t : string) (q : Ptr),
        String_ncpy h a
          { raw := some buff, len := k + 1, size := k + 1, resizable := false } src n =
            some (0, s2, h2) →
        String_raw t = src → src = some q → q.blk ≠ buff.blk →
        String_ncmp h2 s2 t n = some 0)) ∧
    String_new_steal stealHeap true (some { blk := 0, off := 0 }) 13 = some (some stolenHello) ∧
    String_new_steal stealHeap true (some { blk := 0, off := 0 }) 2 = some (some stolenHello) ∧
    String_ncpy stealHeap none stolenHello (some { blk := 1, off := 0 }) 5 =
      some (0, { stolenHello with len := 6 },
        [some { bytes := [97, 98, 99, 100, 101, 0, 87, 111, 114, 108, 100, 33, 10, 0],
                dyn := false },
         some { bytes := alphabet, dyn := false }]) ∧
    String_ncpy stealHeap none stolenHello (some { blk := 1, off := 0 }) 8 =
      some (0, { stolenHello with len := 9 },
        [some { bytes := [97, 98, 99, 100, 101, 102, 103, 104, 0, 108, 100, 33, 10, 0],
                dyn := false },
         some { bytes := alphabet, dyn := false }]) ∧
    String_ncmp
        [some { bytes := [97, 98, 99, 100, 101, 102, 103, 104, 0, 108, 100, 33, 10, 0],
                dyn := false },
         some { bytes := alphabet, dyn := false }]
        { stolenHello with len := 9 }
        { raw := some { blk := 1, off := 0 }, len := 27, size := 27, resizable := false } 8 =
      some 0 := by
  refine ⟨?_, by decide, by decide, by decide, by decide, by decide⟩
  intro h buff k size n src bs h32 hk hsz hn1 hn2 hsrc
  have hlt := strlen_lt h32 hk
  have e : u32 (k + 1) = k + 1 := u32_of_lt hlt
  obtain ⟨L, d, hinfo, hle⟩ := strlen_info hk
  refine ⟨?_, ?_, ?_⟩
  · have hc : size < k + 1 := by omega
    simp [String_new_steal, String_alloc, hk, e, hc]
  · unfold String_ncpy
    exact @ncpy_at_inplace_total h none
      { raw := some buff, len := k + 1, size := k + 1, resizable := false } 0 n src buff L d bs
      rfl hinfo (by omega) (by omega) (by simp only; omega) hsrc
  · intro a s2 h2 t q hc ht hq hne
    unfold String_ncpy at hc
    subst hq
    unfold String_ncmp
    rw [ht]
    show strncmp h2 s2.raw (some q) n = some 0
    refine ncpy_compare (by omega) hsrc ?_ hc
    intro r hr
    simp only [Option.some.injEq] at hr
    rw [← hr]
    exact hne

/-- The copies of `test_new_steal`: 5 bytes of the alphabet into the adoption of
`"Hello World!\n"` with claimed size 13, and 8 bytes into the adoption with claimed
size 2, return 0. -/
theorem C10_copy_into_adopted_witness :
    (String_new_steal stealHeap true (some { blk := 0, off := 0 }) 13 =
        some (some { raw := some { blk := 0, off := 0 }, len := 13 + 1, size := 13 + 1,
                     resizable := false }) ∧
      ∃ s2 h2, String_ncpy stealHeap none
        { raw := some { blk := 0, off := 0 }, len := 13 + 1, size := 13 + 1,
          resizable := false } (some { blk := 1, off := 0 }) 5 = some (0, s2, h2)) ∧
    (String_new_steal stealHeap true (some { blk := 0, off := 0 }) 2 =
        some (some { raw := some { blk := 0, off := 0 }, len := 13 + 1, size := 13 + 1,
                     resizable := false }) ∧
      String_ncmp
        [some { bytes := [97, 98, 99, 100, 101, 102, 103, 104, 0, 108, 100, 33, 10, 0],
                dyn := false },
         some { bytes := alphabet, dyn := false }]
        { stolenHello with len := 9 }
        { raw := some { blk := 1, off := 0 }, len := 27, size := 27, resizable := false } 8 =
      some 0) :=
  have h5 := C10_copy_into_adopted.1 stealHeap { blk := 0, off := 0 } 13 13 5
    (some { blk := 1, off := 0 }) (alphabet.take 5) (by decide) (by decide) (by decide)
    (by decide) (by decide) (by decide)
  have h8 := C10_copy_into_adopted.1 stealHeap { blk := 0, off := 0 } 13 2 8
    (some { blk := 1, off := 0 }) (alphabet.take 8) (by decide) (by decide) (by decide)
    (by decide) (by decide) (by decide)
  ⟨⟨h5.1, h5.2.1⟩,
   ⟨h8.1, h8.2.2 none { stolenHello with len := 9 }
      [some { bytes := [97, 98, 99, 100, 101, 102, 103, 104, 0, 108, 100, 33, 10, 0],
              dyn := false },
       some { bytes := alphabet, dyn := false }]
      { raw := some { blk := 1, off := 0 }, len := 27, size := 27, resizable := false }
      { blk := 1, off := 0 } (by decide) rfl rfl (by decide)⟩⟩

/-- C11 (length reporting).  `String_length` of a growable String is its internal
length (content bytes and terminator); of a non-growable String whose internal length
is at least 1 it is one less, and every non-growable String that `String_new_steal`
returns is such a String.  On a heap of the 32-bit platform and for a
NUL-terminated `x` of length `k`: every String returned by `String_new_str(x)` has
`String_length` `k + 1`, and `String_new_str(x)` returns one when both allocations
succeed and `k + 1 <= 2^31`; `String_new_steal(x, 0)` returns a String whose
`String_length` is `k`.  `String_size` is the capacity field. -/
theorem C11_length_reporting :
    (∀ s : string, s.resizable = true → String_length s = s.len) ∧
    (∀ s : string, s.resizable = false → 1 ≤ s.len → s.len < two32 →
      String_length s + 1 = s.len) ∧
    (∀ (h : Heap) (src : Option Ptr) (size : Nat) (s : string),
      String_new_steal h true src size = some (some s) → s.resizable = false →
      String_length s + 1 = s.len) ∧
    (∀ (h : Heap) (x : Ptr) (k : Nat), heap32 h = true → strlen h (some x) = some k →
      (∀ (a : Alloc) (s : string) (h1 : Heap),
        String_new_str h true a (some x) = some (some s, h1) → String_length s = k + 1) ∧
      (k + 1 ≤ 2147483648 → ∀ junk : Nat → Nat,
        ∃ s h1, String_new_str h true (some junk) (some x) = some (some s, h1)) ∧
      (∃ s, String_new_steal h true (some x) 0 = some (some s) ∧ String_length s = k)) ∧
    (∀ s : string, String_size s = s.size) := by
  refine ⟨?_, ?_, ?_, ?_, fun _ => rfl⟩
  · intro s hs
    simp [String_length, hs]
  · intro s hs h1 h2
    simp only [String_length, hs, if_true]
    rw [usub_of_le h1 h2]
    omega
  · intro h src size s hs hres
    obtain ⟨_, hlen, _, h2⟩ := new_steal_spec hs
    have hlt : size < s.len := by
      by_contra hc
      have := (h2 hc).2
      rw [hres] at this
      exact absurd this (by decide)
    simp only [String_length, hres, if_true]
    rw [usub_of_le (by omega) hlen]
    omega
  · intro h x k h32 hk
    have hlt := strlen_lt h32 hk
    have e : u32 k = k := u32_of_lt (by omega)
    refine ⟨?_, ?_, ?_⟩
    · intro a s h1 hn
      simp only [String_new_str, hk, e] at hn
      obtain ⟨bs, hld, ho, _⟩ := new_ok h32 hk hn
      have hbl := load_length hld
      obtain ⟨hres, hlen, _⟩ := ho
      simp only [String_length, hres, Bool.true_eq_false, if_false, hlen, List.length_append,
        List.length_singleton, hbl]
      omega
    · intro hb junk
      obtain ⟨s, h1, hn⟩ := new_total k junk hk (by omega)
      exact ⟨s, h1, by simp only [String_new_str, hk, e]; exact hn⟩
    · refine ⟨{ raw := some x, len := k + 1, size := k + 1, resizable := false }, ?_, ?_⟩
      · have e1 : u32 (k + 1) = k + 1 := u32_of_lt hlt
        simp [String_new_steal, String_alloc, hk, e1]
      · simp only [String_length, if_true]
        rw [usub_of_le (by omega) hlt]
        omega

/-- The Strings of `test_new` and `test_new_steal`: `String_new_str("Hello World!\n")`
has length 14, the adopted `"Hello World!\n"` has length 13. -/
theorem C11_length_reporting_witness :
    String_length stolenHello + 1 = stolenHello.len ∧
    (∃ s h1, String_new_str helloHeap true (some (fun _ => 7)) helloPtr = some (some s, h1)) ∧
    (∃ s, String_new_steal stealHeap true (some { blk := 0, off := 0 }) 0 = some (some s) ∧
      String_length s = 13) :=
  ⟨C11_length_reporting.2.1 stolenHello (by decide) (by decide) (by decide),
   (C11_length_reporting.2.2.2.1 helloHeap { blk := 0, off := 0 } 13 (by decide)
     (by decide)).2.1 (by decide) (fun _ => 7),
   (C11_length_reporting.2.2.2.1 stealHeap { blk := 0, off := 0 } 13 (by decide)
     (by decide)).2.2⟩

/-- C13 as stated fails: for `b = "a"` (`k = 1`), `String_new(b, 1)` has length 2 and
`String_dup_slice` of it from 0 to 1 copies both of its bytes and adds a terminator,
so the reported length is 3, not `k + 1 = 2`. -/
theorem C13_counterexample :
    String_new [some { bytes := [97, 0], dyn := false }] true (some (fun _ => 7))
        (some { blk := 0, off := 0 }) 1 =
      some (some { raw := some { blk := 1, off := 0 }, len := 2, size := 2, resizable := true },
        [some { bytes := [97, 0], dyn := false }, some { bytes := [97, 0], dyn := true }]) ∧
    String_dup_slice
        [some { bytes := [97, 0], dyn := false }, some { bytes := [97, 0], dyn := true }]
        true (some (fun _ => 7))
        { raw := some { blk := 1, off := 0 }, len := 2, size := 2, resizable := true } 0 1 =
      some (some { raw := some { blk := 2, off := 0 }, len := 3, size := 4, resizable := true },
        [some { bytes := [97, 0], dyn := false }, some { bytes := [97, 0], dyn := true },
         some { bytes := [97, 0, 0, 7], dyn := true }]) ∧
    String_length { raw := some { blk := 2, off := 0 }, len := 3, size := 4, resizable := true }
      ≠ 1 + 1 := by
  refine ⟨by decide, by decide, by decide⟩

/-- C13, amended.  For every `b` of `k` non-zero bytes whose byte `b[k]` is readable,
when the allocations succeed and `k + 2 <= 2^31`: `String_new(b, k)` returns a String
`s`, and `String_dup_slice(s, 0, k)` returns a String whose reported length is `k + 2`
and whose content is `b` followed by two terminators (the terminator of `s`, copied as
byte `k` of the slice, and the one the copy adds). -/
theorem C13_round_trip (h : Heap) (b : Ptr) (bs : List Nat) (v : Nat) (j1 j2 : Nat → Nat)
    (hnz : ∀ x ∈ bs, x ≠ 0) (hb : load h (some b) (bs.length + 1) = some (bs ++ [v]))
    (hlen : bs.length + 2 ≤ 2147483648) :
    ∃ s h1 t h2, String_new h true (some j1) (some b) bs.length = some (some s, h1) ∧
      String_dup_slice h1 true (some j2) s 0 bs.length = some (some t, h2) ∧
      String_length t = bs.length + 2 ∧
      load h2 t.raw (bs.length + 2) = some (bs ++ [0, 0]) := by
  have hget : ∀ j, j < bs.length + 1 → byteAt h (some b) j = (bs ++ [v])[j]? := by
    intro j hj
    rw [byteAt_some]
    exact load_get hb j hj
  have hm : strnlen h (some b) bs.length = some bs.length := by
    unfold strnlen
    have := @strnlen_loop_spec h (some b) bs.length 0 ?_ ?_
    · simpa using this
    · intro j _ hj
      rw [hget j (by omega), List.getElem?_append_left (by omega)]
      obtain ⟨w, hw⟩ := getElem?_some_of_lt (l := bs) (i := j) (by omega)
      exact ⟨w, hw, hnz w (List.getElem?_mem hw)⟩
    · rw [hget _ (by omega)]
      simp
  have hld : load h (some b) bs.length = some bs := by
    by_cases h0 : bs.length = 0
    · rw [h0, load_zero]
      rw [List.length_eq_zero.mp h0]
    · have := load_slice hb 0 bs.length (by omega) (by omega)
      simpa using this
  obtain ⟨s, h1, hcall, ho, _, _⟩ := @ncpy_at_fresh h j1 (some b) _ _ hld (by omega)
  obtain ⟨_, hsl, _, _, _, _, _, _, hsc⟩ := ho
  have hsl2 : s.len = bs.length + 1 := by simpa using hsl
  obtain ⟨e1, e2⟩ := slice_spec hsc (Nat.zero_le bs.length) (by omega)
    (by rw [hsl2]; unfold two32; omega)
  simp only [Nat.sub_zero, List.drop_zero] at e1 e2
  rw [List.take_of_length_le (by simp)] at e2
  obtain ⟨t, h2, hcall2, ho2, _, _⟩ := @ncpy_at_fresh h1 j2 _ _ _ e2 (by omega)
  rw [← e1] at hcall2
  obtain ⟨htr, htl, _, _, _, _, _, _, htc⟩ := ho2
  have htl2 : t.len = bs.length + 2 := by simpa using htl
  rw [htl2] at htc
  refine ⟨s, h1, t, h2, new_fold (by simpa using hm) hcall,
    dup_fold (Nat.zero_le _) hcall2, ?_, by simpa using htc⟩
  simp only [String_length, htr, Bool.true_eq_false, if_false, htl2]

/-- The round trip on `b = "Hello World!\n"` (`k = 13`): reported length 15. -/
theorem C13_round_trip_witness :
    ∃ s h1 t h2, String_new helloHeap true (some (fun _ => 7)) (some { blk := 0, off := 0 })
        (hello.take 13).length = some (some s, h1) ∧
      String_dup_slice h1 true (some (fun _ => 7)) s 0 (hello.take 13).length =
        some (some t, h2) ∧
      String_length t = (hello.take 13).length + 2 ∧
      load h2 t.raw ((hello.take 13).length + 2) = some (hello.take 13 ++ [0, 0]) :=
  C13_round_trip helloHeap { blk := 0, off := 0 } (hello.take 13) 0 (fun _ => 7) (fun _ => 7)
    (by decide) (by decide) (by decide)

/-- C14, the code against the docstrings of `resize` ("resizes s so it can hold at
least n chars") and of `round_up_to_the_next_power_of_2` ("num's next power of 2")
above `2^31`: `String_ncpy_at(s, 2147483648, NULL, 0)` on a fresh growable String
requests `2^31 + 1` bytes; the round-up wraps to 1, so the reallocation inside the call
leaves capacity 1, below the requested minimum, and the gap fill then runs off the
one-byte buffer: the call has no defined result. -/
theorem C14_counterexample :
    round_up_to_the_next_power_of_2 (u32 (2147483648 + 0 + 1)) = 1 ∧
    resize_and_cpy [] (some (fun _ => 7))
        { raw := none, len := 0, size := 0, resizable := true }
        (u32 (2147483648 + 0 + 1)) 2147483648 =
      some (some { blk := 0, off := 0 },
        { raw := some { blk := 0, off := 0 }, len := 0, size := 1, resizable := true },
        [some { bytes := [7], dyn := true }]) ∧
    String_ncpy_at [] (some (fun _ => 7))
      { raw := none, len := 0, size := 0, resizable := true } 2147483648 none 0 = none := by
  have hrc : resize_and_cpy [] (some (fun _ => 7))
        { raw := none, len := 0, size := 0, resizable := true }
        (u32 (2147483648 + 0 + 1)) 2147483648 =
      some (some { blk := 0, off := 0 },
        { raw := some { blk := 0, off := 0 }, len := 0, size := 1, resizable := true },
        [some { bytes := [7], dyn := true }]) := by decide
  refine ⟨by decide, hrc, ?_⟩
  have hfill : memset [some { bytes := [7], dyn := true }]
      (some { blk := 0, off := 0 }) 0 2147483648 = none :=
    store_oob (h := [some { bytes := [7], dyn := true }]) (q := { blk := 0, off := 0 })
      (b := { bytes := [7], dyn := true }) rfl
      (by rw [List.length_replicate]; decide)
      (by rw [List.length_replicate]; decide)
  unfold String_ncpy_at
  rw [if_neg (by decide), if_pos (by decide), hrc]
  simp only
  unfold ncpy_at_write
  rw [if_pos (by decide)]
  simp only [padd, Option.map_some', Nat.add_zero, Nat.sub_zero]
  rw [hfill]
  rfl

/-- C14, where the request does not wrap.  `round_up_to_the_next_power_of_2` always
returns a power of two, and a value not below its argument for arguments from 1 to
`2^31`.  For all 32-bit unsigned `off` and `n`: when `String_ncpy_at(dest, off, src, n)`
takes the reallocating path and returns 0, the new capacity is a power of two and at least `off + n + 1`;
the same for `String_ncat` with `off = len - 1`; and when `String_format_at(s, off, ...)`
with rendered output `r` takes the reallocating path and returns 0, the new capacity
is a power of two and at least the requested `off + (|r| + 1) + 1`. -/
theorem C14_growth_policy :
    (∀ x, ∃ e, round_up_to_the_next_power_of_2 x = 2 ^ e) ∧
    (∀ x, 1 ≤ x → x ≤ 2147483648 → x ≤ round_up_to_the_next_power_of_2 x) ∧
    (∀ (h : Heap) (a : Alloc) (dest : string) (off n : Nat) (src : Option Ptr)
        (s2 : string) (h2 : Heap),
      off < two32 → n < two32 → dest.size < u32 (off + n + 1) →
      String_ncpy_at h a dest off src n = some (0, s2, h2) →
      (∃ e, s2.size = 2 ^ e) ∧ off + n + 1 ≤ s2.size) ∧
    (∀ (h : Heap) (a : Alloc) (dest : string) (n : Nat) (src : Option Ptr)
        (s2 : string) (h2 : Heap),
      n < two32 → dest.size < u32 (usub dest.len 1 + n + 1) →
      String_ncat h a dest src n = some (0, s2, h2) →
      (∃ e, s2.size = 2 ^ e) ∧ usub dest.len 1 + n + 1 ≤ s2.size) ∧
    (∀ (h : Heap) (a : Alloc) (s : string) (off : Nat) (r : List Nat)
        (s2 : string) (h2 : Heap),
      off < two32 → r.length ≤ 2147483647 → s.size < r.length + 1 →
      String_format_at h a s off r = some (0, s2, h2) →
      (∃ e, s2.size = 2 ^ e) ∧ off + (r.length + 1) + 1 ≤ s2.size) := by
  refine ⟨?_, fun x h1 h2 => round_up_ge h1 h2, ?_, ?_, ?_⟩
  · intro x
    obtain ⟨e, _, he⟩ := round_up_pow x
    exact ⟨e, he⟩
  · intro h a dest off n src s2 h2 hoff hn hg hc
    exact ncpy_at_grow_size hoff hn hg hc
  · intro h a dest n src s2 h2 hn hg hc
    unfold String_ncat at hc
    by_cases hsrc : src = none
    · simp [hsrc] at hc
    · rw [if_neg hsrc] at hc
      have hoff : usub dest.len 1 < two32 := by
        unfold usub
        exact Nat.mod_lt _ (by decide)
      exact ncpy_at_grow_size hoff hn hg hc
  · intro h a s off r s2 h2 hoff hr hg hc
    exact format_at_grow_size hoff hr hg hc

/-- The growth steps of `test_cat` and `test_format`: appending the 13 bytes of
`"Hello World!\n"` to the empty String and formatting them into it both leave
capacity 16, a power of two. -/
theorem C14_growth_policy_witness :
    (String_ncat emptyHeap (some (fun _ => 7)) emptyString helloPtr 13 =
        some (0, { raw := some { blk := 2, off := 0 }, len := 14, size := 16, resizable := true },
          [some { bytes := hello, dyn := false }, none,
           some { bytes := hello ++ [7, 7], dyn := true }]) ∧
      (∃ e, (16 : Nat) = 2 ^ e) ∧ usub emptyString.len 1 + 13 + 1 ≤ 16) ∧
    (String_format_at emptyHeap (some (fun _ => 7)) emptyString 0 (hello.take 13) =
        some (0, { raw := some { blk := 2, off := 0 }, len := 14, size := 16, resizable := true },
          [some { bytes := hello, dyn := false }, none,
           some { bytes := hello ++ [7, 7], dyn := true }]) ∧
      (∃ e, (16 : Nat) = 2 ^ e) ∧ 0 + ((hello.take 13).length + 1) + 1 ≤ 16) :=
  ⟨⟨by decide,
    C14_growth_policy.2.2.2.1 emptyHeap (some (fun _ => 7)) emptyString 13 helloPtr
      { raw := some { blk := 2, off := 0 }, len := 14, size := 16, resizable := true }
      [some { bytes := hello, dyn := false }, none, some { bytes := hello ++ [7, 7], dyn := true }]
      (by decide) (by decide) (by decide)⟩,
   ⟨by decide,
    C14_growth_policy.2.2.2.2 emptyHeap (some (fun _ => 7)) emptyString 0 (hello.take 13)
      { raw := some { blk := 2, off := 0 }, len := 14, size := 16, resizable := true }
      [some { bytes := hello, dyn := false }, none, some { bytes := hello ++ [7, 7], dyn := true }]
      (by decide) (by decide) (by decide) (by decide)⟩⟩

/-- C15, the code against `DStrings.h`.  For every growable String `s` and every 32-bit
`k` other than the current capacity, a `String_set_size(s, k)` that returns 0 leaves
`String_size(s) == max(k, 1)`, and when `max(k, 1)` is not below the length it keeps
the length and the content bytes.  When `k` equals the capacity the call returns 0
before `k < 2` is treated as 1: on `String_new_steal(NULL, 0)` (capacity 0),
`String_set_size(s, 0)` returns 0 and the capacity stays 0, not 1.  On the String of
`test_shrink` (capacity 7) `String_set_size(s, 0)` gives size 1 and length 1. -/
theorem C15_set_size :
    (∀ (h : Heap) (a : Alloc) (s : string) (k : Nat) (s2 : string) (h2 : Heap),
      k < two32 → k ≠ String_size s → String_set_size h a s k = some (0, s2, h2) →
      String_size s2 = max k 1 ∧
      (s.len ≤ max k 1 → s2.len = s.len ∧
        ∀ i v, i < s.len → byteAt h s.raw i = some v → byteAt h2 s2.raw i = some v)) ∧
    String_new_steal [] true none 0 =
      some (some { raw := none, len := 0, size := 0, resizable := true }) ∧
    String_set_size [] (some (fun _ => 7))
        { raw := none, len := 0, size := 0, resizable := true } 0 =
      some (0, { raw := none, len := 0, size := 0, resizable := true }, []) ∧
    String_size { raw := none, len := 0, size := 0, resizable := true } ≠ max 0 1 ∧
    String_set_size [none, some { bytes := [97, 98, 99, 100, 101, 102, 0], dyn := true }]
        (some (fun _ => 7))
        { raw := some { blk := 1, off := 0 }, len := 7, size := 7, resizable := true } 0 =
      some (0, { raw := some { blk := 2, off := 0 }, len := 1, size := 1, resizable := true },
        [none, none, some { bytes := [0], dyn := true }]) := by
  refine ⟨?_, by decide, by decide, by decide, by decide⟩
  intro h a s k s2 h2 hk32 hk hc
  obtain ⟨hsz, hraw, _, _, _, hkeep, hbytes⟩ := set_size_ok hc hk hk32
  refine ⟨hsz, fun hle => ⟨hkeep (by omega), ?_⟩⟩
  intro i v hi hv
  rw [hraw]
  simp only [byteAt, Nat.zero_add]
  exact hbytes i v (by omega) (fun hlt => absurd hlt (by omega)) hv

/-- The second call of `test_shrink`: `String_set_size(s, 0)` on the String of capacity 7
leaves capacity `max(0, 1) = 1`. -/
theorem C15_set_size_witness :
    String_size { raw := some { blk := 2, off := 0 }, len := 1, size := 1, resizable := true } =
      max 0 1 :=
  (C15_set_size.1 [none, some { bytes := [97, 98, 99, 100, 101, 102, 0], dyn := true }]
    (some (fun _ => 7))
    { raw := some { blk := 1, off := 0 }, len := 7, size := 7, resizable := true } 0
    { raw := some { blk := 2, off := 0 }, len := 1, size := 1, resizable := true }
    [none, none, some { bytes := [0], dyn := true }] (by decide) (by decide) (by decide)).1

/-- C16 as stated fails at `k = 0`: on the String of `test_shrink` (length 7, capacity 7)
`String_set_size(s, 0)` returns 0 and leaves length 1 and capacity 1, as the test
asserts, not 0.  It also fails when `k` equals the capacity of a String whose length
is above its capacity, which the call leaves as it is: `String_format_at` of 8 bytes at
offset 10 leaves the growable `"Hello World!\n"` (capacity 16) with length 19, and
`String_set_size(s, 16)` then keeps length 19. -/
theorem C16_counterexample :
    (0 < String_length
        { raw := some { blk := 1, off := 0 }, len := 7, size := 7, resizable := true } ∧
      String_set_size [none, some { bytes := [97, 98, 99, 100, 101, 102, 0], dyn := true }]
          (some (fun _ => 7))
          { raw := some { blk := 1, off := 0 }, len := 7, size := 7, resizable := true } 0 =
        some (0, { raw := some { blk := 2, off := 0 }, len := 1, size := 1, resizable := true },
          [none, none, some { bytes := [0], dyn := true }]) ∧
      String_length
        { raw := some { blk := 2, off := 0 }, len := 1, size := 1, resizable := true } ≠ 0 ∧
      String_size
        { raw := some { blk := 2, off := 0 }, len := 1, size := 1, resizable := true } ≠ 0) ∧
    (String_format_at [some { bytes := hello ++ [7, 7], dyn := true }] (some (fun _ => 7))
          { raw := some { blk := 0, off := 0 }, len := 14, size := 16, resizable := true } 10
          (alphabet.take 8) =
        some (0, { raw := some { blk := 0, off := 0 }, len := 19, size := 16, resizable := true },
          [some { bytes := [72, 101, 108, 108, 111, 32, 87, 111, 114, 108, 97, 98, 99, 100,
                            101, 0], dyn := true }]) ∧
      16 < String_length
        { raw := some { blk := 0, off := 0 }, len := 19, size := 16, resizable := true } ∧
      String_set_size
          [some { bytes := [72, 101, 108, 108, 111, 32, 87, 111, 114, 108, 97, 98, 99, 100,
                            101, 0], dyn := true }] (some (fun _ => 7))
          { raw := some { blk := 0, off := 0 }, len := 19, size := 16, resizable := true } 16 =
        some (0, { raw := some { blk := 0, off := 0 }, len := 19, size := 16, resizable := true },
          [some { bytes := [72, 101, 108, 108, 111, 32, 87, 111, 114, 108, 97, 98, 99, 100,
                            101, 0], dyn := true }]) ∧
      String_length
        { raw := some { blk := 0, off := 0 }, len := 19, size := 16, resizable := true } ≠ 16) := by
  refine ⟨⟨by decide, by decide, by decide, by decide⟩, by decide, by decide, by decide,
    by decide⟩

/-- C16, amended.  For every growable String `s` and every `k` with
`1 <= k < String_length(s)` other than the capacity of `s` (as is every such `k` when
the length is at most the capacity): a `String_set_size(s, k)` that returns 0 keeps
the first `k - 1` bytes, leaves a terminator at index `k - 1`, and leaves
`String_length(s) == k` and `String_size(s) == k`; and the call returns 0 when `s` owns
its buffer and the allocation succeeds. -/
theorem C16_shrink (h : Heap) (s : string) (k : Nat) (hres : s.resizable = true)
    (hlen : s.len < two32) (hk1 : 1 ≤ k) (hk : k < String_length s)
    (hks : k ≠ String_size s) :
    (∀ (a : Alloc) (s2 : string) (h2 : Heap),
      String_set_size h a s k = some (0, s2, h2) →
        String_size s2 = k ∧ String_length s2 = k ∧ byteAt h2 s2.raw (k - 1) = some 0 ∧
        ∀ i v, i < k - 1 → byteAt h s.raw i = some v → byteAt h2 s2.raw i = some v) ∧
    (∀ (junk : Nat → Nat) (cs : List Nat), Owns h s cs →
      ∃ s2 h2, String_set_size h (some junk) s k = some (0, s2, h2)) := by
  have hl : String_length s = s.len := by simp [String_length, hres]
  rw [hl] at hk
  have hk32 : k < two32 := by omega
  have hmax : max k 1 = k := by omega
  refine ⟨?_, fun junk cs ho => set_size_total junk k ho hk32⟩
  intro a s2 h2 hc
  obtain ⟨hsz, hraw, hres2, _, hsh, _, hbytes⟩ := set_size_ok hc hks hk32
  rw [hmax] at hsz hsh hbytes
  obtain ⟨hl2, hz⟩ := hsh hk
  refine ⟨hsz, ?_, ?_, ?_⟩
  · simp [String_length, hres2, hl2]
  · rw [hraw]
    simp only [byteAt, Nat.zero_add]
    exact hz
  · intro i v hi hv
    rw [hraw]
    simp only [byteAt, Nat.zero_add]
    exact hbytes i v (by omega) (fun _ => by omega) hv

section

set_option maxRecDepth 8000

/-- The first call of `test_shrink`: the String of 157 bytes set to size 7 reports
size 7 and length 7, and holds `"abcdef"`. -/
theorem C16_shrink_witness :
    String_set_size shrinkHeap (some (fun _ => 7)) shrinkString 7 =
      some (0, { raw := some { blk := 1, off := 0 }, len := 7, size := 7, resizable := true },
        [none, some { bytes := [97, 98, 99, 100, 101, 102, 0], dyn := true }]) ∧
    String_size { raw := some { blk := 1, off := 0 }, len := 7, size := 7, resizable := true } = 7 ∧
    String_length { raw := some { blk := 1, off := 0 }, len := 7, size := 7, resizable := true } = 7 :=
  have hw := (C16_shrink shrinkHeap shrinkString 7 (by decide) (by decide) (by decide)
    (by decide) (by decide)).1 (some (fun _ => 7))
    { raw := some { blk := 1, off := 0 }, len := 7, size := 7, resizable := true }
    [none, some { bytes := [97, 98, 99, 100, 101, 102, 0], dyn := true }] (by decide)
  ⟨by decide, hw.1, hw.2.1⟩

end

/-- C17, the code against `DStrings.h`.  `String_format_at` tests the rendered length
against the whole capacity, not against the room after `offset`, and zero-fills the
gap only on the reallocating path.  On the growable `"Hello World!\n"` (length 14,
capacity 16), formatting the 8 bytes `"abcdefgh"` at offset 10 returns 0 with the
output cut to `"abcde"`, length 19 and capacity 16, where `String_ncpy_at` of the same
bytes reallocates to 32 and holds all 8 bytes.  On the emptied String (length 1,
capacity 8, reached by `String_ncpy(s, "", 0)` on `"abcdefg"`), formatting `"xy"` at
offset 3 leaves the old bytes `b`, `c` in the gap, where `String_ncpy_at` writes zeros.
On the empty String, `String_format` of `"Hello World!\n"` takes the reallocating path
and leaves the rendered text and length 14, as `test_format` asserts. -/
theorem C17_format_at_vs_ncpy_at :
    String_format_at formatHeap (some (fun _ => 7)) formatString 10 (alphabet.take 8) =
      some (0, { raw := some { blk := 0, off := 0 }, len := 19, size := 16, resizable := true },
        [some { bytes := [72, 101, 108, 108, 111, 32, 87, 111, 114, 108, 97, 98, 99, 100, 101,
                          0], dyn := true },
         some { bytes := alphabet, dyn := false }]) ∧
    String_ncpy_at formatHeap (some (fun _ => 7)) formatString 10
        (some { blk := 1, off := 0 }) 8 =
      some (0, { raw := some { blk := 2, off := 0 }, len := 19, size := 32, resizable := true },
        [none, some { bytes := alphabet, dyn := false },
         some { bytes := [72, 101, 108, 108, 111, 32, 87, 111, 114, 108, 97, 98, 99, 100, 101,
                          102, 103, 104, 0, 7, 7, 7, 7, 7, 7, 7, 7, 7, 7, 7, 7, 7],
                dyn := true }]) ∧
    String_ncpy_at
        [some { bytes := [97, 98, 99, 100, 101, 102, 103, 0], dyn := true },
         some { bytes := [120, 121, 0], dyn := false }] none
        { raw := some { blk := 0, off := 0 }, len := 8, size := 8, resizable := true } 0
        (some { blk := 1, off := 2 }) 0 = some (0, gapString, gapHeap) ∧
    String_format_at gapHeap (some (fun _ => 7)) gapString 3 [120, 121] =
      some (0, { raw := some { blk := 0, off := 0 }, len := 6, size := 8, resizable := true },
        [some { bytes := [0, 98, 99, 120, 121, 0, 103, 0], dyn := true },
         some { bytes := [120, 121, 0], dyn := false }]) ∧
    String_ncpy_at gapHeap (some (fun _ => 7)) gapString 3 (some { blk := 1, off := 0 }) 2 =
      some (0, { raw := some { blk := 0, off := 0 }, len := 6, size := 8, resizable := true },
        [some { bytes := [0, 0, 0, 120, 121, 0, 103, 0], dyn := true },
         some { bytes := [120, 121, 0], dyn := false }]) ∧
    String_format_at emptyHeap (some (fun _ => 7)) emptyString 0 (hello.take 13) =
      some (0, { raw := some { blk := 2, off := 0 }, len := 14, size := 16, resizable := true },
        [some { bytes := hello, dyn := false }, none,
         some { bytes := hello ++ [7, 7], dyn := true }]) := by
  refine ⟨by decide, by decide, by decide, by decide, by decide, by decide⟩

/-- C18, the code against the invariant.  On a heap of the 32-bit platform every String
returned by `String_new` or `String_new_steal` is well-formed, every String left by a
`String_ncpy_at` or `String_ncat` that returns 0 is well-formed, and a `String_set_size`
that returns 0 keeps a well-formed String well-formed.  `String_format_at` does not:
on the well-formed growable `"Hello World!\n"` (length 14, capacity 16), formatting the
4 bytes `"abc!"` at offset 13 returns 0 and leaves length 18 above the capacity 16,
with index 17 outside the buffer. -/
theorem C18_invariant :
    (∀ (h : Heap) (ok : Bool) (a : Alloc) (src : Option Ptr) (n : Nat) (s : string)
        (h1 : Heap),
      heap32 h = true → String_new h ok a src n = some (some s, h1) → WellFormed h1 s) ∧
    (∀ (h : Heap) (src : Option Ptr) (size : Nat) (s : string),
      heap32 h = true → String_new_steal h true src size = some (some s) → WellFormed h s) ∧
    (∀ (h : Heap) (a : Alloc) (dest : string) (off n : Nat) (src : Option Ptr) (s2 : string)
        (h2 : Heap),
      heap32 h = true → off < two32 →
      String_ncpy_at h a dest off src n = some (0, s2, h2) → WellFormed h2 s2) ∧
    (∀ (h : Heap) (a : Alloc) (dest : string) (n : Nat) (src : Option Ptr) (s2 : string)
        (h2 : Heap),
      heap32 h = true →
      String_ncat h a dest src n = some (0, s2, h2) → WellFormed h2 s2) ∧
    (∀ (h : Heap) (a : Alloc) (s : string) (k : Nat) (s2 : string) (h2 : Heap),
      WellFormed h s → k < two32 →
      String_set_size h a s k = some (0, s2, h2) → WellFormed h2 s2) ∧
    WellFormed formatHeap formatString ∧
    String_format_at formatHeap (some (fun _ => 7)) formatString 13 [97, 98, 99, 33] =
      some (0, { raw := some { blk := 0, off := 0 }, len := 18, size := 16, resizable := true },
        [some { bytes := [72, 101, 108, 108, 111, 32, 87, 111, 114, 108, 100, 33, 10, 97, 98,
                          0], dyn := true },
         some { bytes := alphabet, dyn := false }]) ∧
    ¬ WellFormed
        [some { bytes := [72, 101, 108, 108, 111, 32, 87, 111, 114, 108, 100, 33, 10, 97, 98,
                          0], dyn := true },
         some { bytes := alphabet, dyn := false }]
        { raw := some { blk := 0, off := 0 }, len := 18, size := 16, resizable := true } := by
  refine ⟨?_, ?_, ?_, ?_, ?_, ?_, by decide, ?_⟩
  · intro h ok a src n s h1 h32 hn
    exact new_wf h32 hn
  · intro h src size s h32 hs
    exact new_steal_wf h32 hs
  · intro h a dest off n src s2 h2 h32 hoff hc
    have hnw := ncpy_at_nowrap hc h32 hoff
    exact (ncpy_at_wf h32 hoff (by omega) hc).2
  · intro h a dest n src s2 h2 h32 hc
    unfold String_ncat at hc
    by_cases hsrc : src = none
    · simp [hsrc] at hc
    · rw [if_neg hsrc] at hc
      have hoff : usub dest.len 1 < two32 := by
        unfold usub
        exact Nat.mod_lt _ (by decide)
      have hnw := ncpy_at_nowrap hc h32 hoff
      exact (ncpy_at_wf h32 hoff (by omega) hc).2
  · intro h a s k s2 h2 hwf hk hc
    exact set_size_wf hwf hk hc
  · unfold WellFormed
    decide
  · unfold WellFormed
    decide

/-- The String left by `String_ncpy_at` of `"abcdefgh"` at offset 10 of the growable
`"Hello World!\n"` is well-formed. -/
theorem C18_invariant_witness :
    WellFormed
      [none, some { bytes := alphabet, dyn := false },
       some { bytes := [72, 101, 108, 108, 111, 32, 87, 111, 114, 108, 97, 98, 99, 100, 101,
                        102, 103, 104, 0, 7, 7, 7, 7, 7, 7, 7, 7, 7, 7, 7, 7, 7],
              dyn := true }]
      { raw := some { blk := 2, off := 0 }, len := 19, size := 32, resizable := true } :=
  C18_invariant.2.2.1 formatHeap (some (fun _ => 7)) formatString 10 8
    (some { blk := 1, off := 0 })
    { raw := some { blk := 2, off := 0 }, len := 19, size := 32, resizable := true }
    [none, some { bytes := alphabet, dyn := false },
     some { bytes := [72, 101, 108, 108, 111, 32, 87, 111, 114, 108, 97, 98, 99, 100, 101,
                      102, 103, 104, 0, 7, 7, 7, 7, 7, 7, 7, 7, 7, 7, 7, 7, 7],
            dyn := true }]
    (by decide) (by decide) (by decide)

/-- C19, the code against `DStrings.h`.  `String_ncmp` returns the value of `strncmp`:
its sign is that of the lexicographic order of the two raw strings limited to the
first `n` bytes and cut at the first terminator (negative when `s1 < s2`, zero when
they are equal, positive when `s1 > s2`), and it returns on every pair of
NUL-terminated raw strings.  The value is the difference of the first two bytes that
differ, not `-1` or `1`: for `"a"` and `"c"`, `String_ncmp` with the maximum `n`, which
is `String_cmp`, returns `-2`, and `String_equals` is false. -/
theorem C19_ncmp :
    (∀ (h : Heap) (s1 s2 : string) (n : Nat) (p q : Ptr) (b1 b2 : Block) (r : Int),
      s1.raw = some p → s2.raw = some q →
      blockAt h p.blk = some b1 → blockAt h q.blk = some b2 →
      String_ncmp h s1 s2 n = some r →
      (r < 0 ↔ List.Lex (· < ·) (comparedBytes n (b1.bytes.drop p.off))
        (comparedBytes n (b2.bytes.drop q.off))) ∧
      (r = 0 ↔ comparedBytes n (b1.bytes.drop p.off) = comparedBytes n (b2.bytes.drop q.off)) ∧
      (0 < r ↔ List.Lex (· < ·) (comparedBytes n (b2.bytes.drop q.off))
        (comparedBytes n (b1.bytes.drop p.off)))) ∧
    (∀ (h : Heap) (s1 s2 : string) (n k1 k2 : Nat),
      strlen h s1.raw = some k1 → strlen h s2.raw = some k2 →
      ∃ r, String_ncmp h s1 s2 n = some r) ∧
    String_ncmp acHeap
        { raw := some { blk := 0, off := 0 }, len := 2, size := 2, resizable := false }
        { raw := some { blk := 1, off := 0 }, len := 2, size := 2, resizable := false }
        4294967295 = some (-2) ∧
    String_cmp acHeap
        { raw := some { blk := 0, off := 0 }, len := 2, size := 2, resizable := false }
        { raw := some { blk := 1, off := 0 }, len := 2, size := 2, resizable := false } =
      some (-2) ∧
    String_equals acHeap
        { raw := some { blk := 0, off := 0 }, len := 2, size := 2, resizable := false }
        { raw := some { blk := 1, off := 0 }, len := 2, size := 2, resizable := false } =
      some false ∧
    List.Lex (· < ·) (comparedBytes 4294967295 [97, 0]) (comparedBytes 4294967295 [99, 0]) := by
  refine ⟨?_, ?_, by decide, by decide, by decide, ?_⟩
  · intro h s1 s2 n p q b1 b2 r hp hq hb1 hb2 hc
    unfold String_ncmp String_raw strncmp at hc
    by_cases hn : n = 0
    · subst hn
      simp only [if_true, Option.some.injEq] at hc
      subst hc
      simp [comparedBytes_zero]
    · rw [if_neg hn, hp, hq] at hc
      simp only [hb1, hb2] at hc
      exact strncmpBytes_sign n _ _ r hc
  · intro h s1 s2 n k1 k2 h1 h2
    unfold String_ncmp String_raw strncmp
    by_cases hn : n = 0
    · exact ⟨0, by simp [hn]⟩
    · rw [if_neg hn]
      cases hp : s1.raw with
      | none => simp [hp, strlen] at h1
      | some p =>
        cases hq : s2.raw with
        | none => simp [hq, strlen] at h2
        | some q =>
          rw [hp] at h1
          rw [hq] at h2
          unfold strlen at h1 h2
          simp only at h1 h2
          cases hb1 : blockAt h p.blk with
          | none => simp [hb1] at h1
          | some b1 =>
            cases hb2 : blockAt h q.blk with
            | none => simp [hb2] at h2
            | some b2 =>
              simp only [hb1, hb2] at h1 h2 ⊢
              by_cases hl1 : p.off ≤ b1.bytes.length
              · by_cases hl2 : q.off ≤ b2.bytes.length
                · rw [if_pos hl1] at h1
                  rw [if_pos hl2] at h2
                  exact strncmpBytes_total n _ _ k1 k2 h1 h2
                · simp [hl2] at h2
              · simp [hl1] at h1
  · simp only [comparedBytes]
    exact List.Lex.rel (by decide)

/-- The comparison of `"a"` with `"c"`: the result `-2` is negative, as `"a" < "c"`. -/
theorem C19_ncmp_witness :
    ((-2 : Int) < 0 ↔
      List.Lex (· < ·) (comparedBytes 4294967295 ([97, 0].drop 0))
        (comparedBytes 4294967295 ([99, 0].drop 0))) :=
  (C19_ncmp.1 acHeap
    { raw := some { blk := 0, off := 0 }, len := 2, size := 2, resizable := false }
    { raw := some { blk := 1, off := 0 }, len := 2, size := 2, resizable := false }
    4294967295 { blk := 0, off := 0 } { blk := 1, off := 0 }
    { bytes := [97, 0], dyn := false } { bytes := [99, 0], dyn := false } (-2)
    rfl rfl rfl rfl (by decide)).1

/-- C21 (`round_up_to_the_next_power_of_2`).  For every `num` with `1 <= num <= 2^31`
the result is a power of two, is not below `num`, is below `2 * num`, is at most every
power of two that is not below `num` (it is the smallest such power), and equals `num`
when `num` is a power of two; for `num == 0` the result is 1. -/
theorem C21_round_up (num : Nat) (h1 : 1 ≤ num) (h2 : num ≤ 2147483648) :
    (∃ e, round_up_to_the_next_power_of_2 num = 2 ^ e) ∧
    num ≤ round_up_to_the_next_power_of_2 num ∧
    round_up_to_the_next_power_of_2 num < 2 * num ∧
    (∀ e, num ≤ 2 ^ e → round_up_to_the_next_power_of_2 num ≤ 2 ^ e) ∧
    ((∃ e, num = 2 ^ e) → round_up_to_the_next_power_of_2 num = num) ∧
    round_up_to_the_next_power_of_2 0 = 1 := by
  have hu : usub num 1 = num - 1 := usub_of_le h1 (by unfold two32; omega)
  have key : (∃ e, round_up_to_the_next_power_of_2 num = 2 ^ e) ∧
      num ≤ round_up_to_the_next_power_of_2 num ∧
      round_up_to_the_next_power_of_2 num < 2 * num ∧
      (∀ e, num ≤ 2 ^ e → round_up_to_the_next_power_of_2 num ≤ 2 ^ e) := by
    rcases round_up_cases num with ⟨hz, hr⟩ | ⟨hbig, _⟩ | ⟨p, hp, hge, hlt, hr⟩
    · rw [hu] at hz
      have : num = 1 := by omega
      subst this
      rw [hr]
      refine ⟨⟨0, rfl⟩, Nat.le_refl _, by omega, fun e _ => Nat.one_le_two_pow⟩
    · rw [hu] at hbig
      omega
    · rw [hu] at hge hlt
      rw [hr]
      have hpow : 2 ^ (p + 1) = 2 * 2 ^ p := by rw [Nat.pow_succ]; omega
      refine ⟨⟨p + 1, rfl⟩, by omega, by omega, ?_⟩
      intro e he
      have hlt2 : 2 ^ p < 2 ^ e := by omega
      have hpe : p < e := by
        by_contra hc
        have := Nat.pow_le_pow_right (show 0 < 2 by norm_num) (show e ≤ p by omega)
        omega
      exact Nat.pow_le_pow_right (by norm_num) hpe
  obtain ⟨k1, k2, k3, k4⟩ := key
  refine ⟨k1, k2, k3, k4, ?_, by decide⟩
  rintro ⟨e, he⟩
  have := k4 e (by omega)
  omega

/-- The capacities of `test_shrink`: a request of 27 bytes gives 32, a request of 32
gives 32. -/
theorem C21_round_up_witness :
    round_up_to_the_next_power_of_2 27 = 32 ∧
    round_up_to_the_next_power_of_2 27 < 2 * 27 ∧
    ((∃ e, 32 = 2 ^ e) → round_up_to_the_next_power_of_2 32 = 32) :=
  ⟨by decide, (C21_round_up 27 (by decide) (by decide)).2.2.1,
   (C21_round_up 32 (by decide) (by decide)).2.2.2.2.1⟩

/-- C22 (the two implementations agree).  For every heap, allocator outcome, String
state, offset, source and `n`, `String_ncpy_at` of `String.c` and `String_ncpy_at` of
`DStrings.c` have the same outcome: the same result code, the same structure (raw
pointer, length, capacity, growable flag) and the same heap, and one is undefined
exactly when the other is. -/
theorem C22_implementations_agree (h : Heap) (a : Alloc) (dest : string) (off : Nat)
    (src : Option Ptr) (n : Nat) :
    String_c.String_ncpy_at h a dest off src n = String_ncpy_at h a dest off src n := by
  unfold String_c.String_ncpy_at String_ncpy_at resize_and_cpy
  by_cases h1 : src = none ∧ n ≠ 0
  · rw [if_pos h1, if_pos h1]
  rw [if_neg h1, if_neg h1]
  by_cases h2 : dest.size < u32 (off + n + 1)
  · rw [if_pos h2, if_pos h2]
    rcases hx : resize h a dest (u32 (off + n + 1)) with ⟨o, s1, hh⟩
    cases o with
    | none => rfl
    | some old =>
      simp only
      by_cases h3 : s1.len ≤ off
      · simp only [h3, if_true]
        cases hm : memmove hh s1.raw (some old) s1.len with
        | none => rfl
        | some h4 => rfl
      · simp only [h3, if_false]
        cases hm : memmove hh s1.raw (some old) off with
        | none => rfl
        | some h4 => rfl
  · rw [if_neg h2, if_neg h2]

/-- C23, the code against the bound of the render.  When `offset` is at most the
capacity, the bound `size - offset` that `String_format_at` gives to the first render
does not wrap, and a render that returns has changed no byte outside the indices
`[offset, size)` of the buffer.  When `offset` is above the capacity the unsigned
subtraction wraps: on the empty String (capacity 1), `String_format_at(s, 2, "%s", "x")`
gives the render the bound `4294967295` at `raw + 2`, outside the one-byte allocation,
and the call has no defined result. -/
theorem C23_format_at_bound :
    (∀ (h : Heap) (s : string) (off : Nat) (r : List Nat) (q : Ptr) (h1 : Heap) (ret : Int),
      off ≤ s.size → s.size < two32 → s.raw = some q →
      vsnprintf h (padd s.raw off) (usub s.size off) r = some (h1, ret) →
      usub s.size off = s.size - off ∧
      (∀ b j, ¬ (b = q.blk ∧ q.off + off ≤ j ∧ j < q.off + s.size) → rd h1 b j = rd h b j) ∧
      (∀ b, blockInfo h1 b = blockInfo h b)) ∧
    String_new_empty helloHeap true (some (fun _ => 7)) = some (some emptyString, emptyHeap) ∧
    emptyString.size < 2 ∧
    usub emptyString.size 2 = 4294967295 ∧
    vsnprintf emptyHeap (padd emptyString.raw 2) (usub emptyString.size 2) [120] = none ∧
    String_format_at emptyHeap (some (fun _ => 7)) emptyString 2 [120] = none := by
  refine ⟨?_, by decide, by decide, by decide, by decide, by decide⟩
  intro h s off r q h1 ret hoff hsz hraw hv
  have e : usub s.size off = s.size - off := usub_of_le hoff hsz
  rw [hraw, e] at hv
  simp only [padd, Option.map_some'] at hv
  refine ⟨e, ?_, ?_⟩
  · intro b j hout
    refine vsnprintf_frame hv b j ?_
    intro hc
    apply hout
    simp only at hc
    exact ⟨hc.1, hc.2.1, by omega⟩
  · intro b
    exact vsnprintf_info hv b

/-- The first render of `String_format_at(s, 10, "%s", "abcdefgh")` on the growable
`"Hello World!\n"` (capacity 16): the bound is `16 - 10 = 6`. -/
theorem C23_format_at_bound_witness :
    usub formatString.size 10 = formatString.size - 10 :=
  (C23_format_at_bound.1 formatHeap formatString 10 (alphabet.take 8) { blk := 0, off := 0 }
    [some { bytes := [72, 101, 108, 108, 111, 32, 87, 111, 114, 108, 97, 98, 99, 100, 101, 0],
            dyn := true },
     some { bytes := alphabet, dyn := false }] 8
    (by decide) (by decide) rfl (by decide)).1

/-- C24 (copy and append stay inside the allocation).  Let `s` be a String obtained from
`String_new` by successful calls of `String_ncpy_at`, `String_ncat` and
`String_set_size`, on a heap of the 32-bit platform, and let `off + n + 1 < 2^31`.  The
buffer of `s` is a `malloc` block of exactly `size` bytes.  A write outside a block
leaves a call without a defined result; `String_ncpy_at(s, off, src, n)` has one and
returns 0 whenever `src` holds `n` readable bytes and the allocation succeeds, and
after every call that returns 0 the buffer is a block of exactly the resulting capacity,
`off + n + 1` is at most that capacity (so the prefix copy, the gap fill, the move and
the terminator, all at indices up to `off + n`, lie below it), and no byte of any other
block has changed.  The same holds for `String_ncat` when `off` is `len - 1`. -/
theorem C24_copy_inside (h : Heap) (s : string) (off n : Nat) (hd : Derived false h s)
    (h32 : heap32 h = true) (hnw : off + n + 1 < 2147483648) :
    Allocated h s ∧
    (∀ (a : Alloc) (src : Option Ptr) (s2 : string) (h2 : Heap),
      String_ncpy_at h a s off src n = some (0, s2, h2) →
        Allocated h2 s2 ∧ off + n + 1 ≤ s2.size ∧
        (∀ b j, (∀ q, s.raw = some q → b ≠ q.blk) → (∀ q, s2.raw = some q → b ≠ q.blk) →
          rd h2 b j = rd h b j)) ∧
    (∀ (junk : Nat → Nat) (src : Option Ptr) (bs : List Nat), load h src n = some bs →
      ∃ s2 h2, String_ncpy_at h (some junk) s off src n = some (0, s2, h2)) ∧
    (off = s.len - 1 →
      (∀ (a : Alloc) (src : Option Ptr) (s2 : string) (h2 : Heap),
        String_ncat h a s src n = some (0, s2, h2) →
          Allocated h2 s2 ∧ off + n + 1 ≤ s2.size ∧
          (∀ b j, (∀ q, s.raw = some q → b ≠ q.blk) → (∀ q, s2.raw = some q → b ≠ q.blk) →
            rd h2 b j = rd h b j)) ∧
      (∀ (junk : Nat → Nat) (src : Ptr) (bs : List Nat), load h (some src) n = some bs →
        ∃ s2 h2, String_ncat h (some junk) s (some src) n = some (0, s2, h2))) := by
  have hal := derived_alloc hd
  have hoff : off < two32 := by unfold two32; omega
  have step : ∀ (a : Alloc) (src : Option Ptr) (s2 : string) (h2 : Heap),
      String_ncpy_at h a s off src n = some (0, s2, h2) →
        Allocated h2 s2 ∧ off + n + 1 ≤ s2.size ∧
        (∀ b j, (∀ q, s.raw = some q → b ≠ q.blk) → (∀ q, s2.raw = some q → b ≠ q.blk) →
          rd h2 b j = rd h b j) := by
    intro a src s2 h2 hc
    obtain ⟨ha2, _, hsz⟩ := ncpy_at_alloc (Or.inl hal) h32 hoff hc
    obtain ⟨r2, _, _, hraw2, _, _, _, _, _, _, _, _, _, _, hframe, _⟩ := ncpy_at_ok hc
    refine ⟨ha2, hsz, ?_⟩
    intro b j hb1 hb2
    exact hframe b j (hb2 r2 hraw2) hb1
  refine ⟨hal, step, fun junk src bs hsrc => ncpy_at_alloc_total junk hal hnw hsrc, ?_⟩
  intro hoffeq
  obtain ⟨_, hl1, hle, hs32, _⟩ := hal
  have hu : usub s.len 1 = off := by
    rw [usub_of_le hl1 (by omega), hoffeq]
  constructor
  · intro a src s2 h2 hc
    unfold String_ncat at hc
    by_cases hsrc : src = none
    · simp [hsrc] at hc
    · rw [if_neg hsrc, hu] at hc
      exact step a src s2 h2 hc
  · intro junk src bs hsrc
    unfold String_ncat
    rw [if_neg (by simp), hu]
    exact ncpy_at_alloc_total junk (derived_alloc hd) hnw hsrc

/-- The calls of `test_cat` on the String of `String_new_empty()`: copying and appending
the 13 bytes of `"Hello World!\n"` return 0. -/
theorem C24_copy_inside_witness :
    Allocated emptyHeap emptyString ∧
    (∃ s2 h2, String_ncpy_at emptyHeap (some (fun _ => 7)) emptyString 0 helloPtr 13 =
      some (0, s2, h2)) ∧
    (∃ s2 h2, String_ncat emptyHeap (some (fun _ => 7)) emptyString
      (some { blk := 0, off := 0 }) 13 = some (0, s2, h2)) :=
  have hw := C24_copy_inside emptyHeap emptyString 0 13
    (@Derived.new false helloHeap true (some (fun _ => 7)) none 0 emptyString emptyHeap
      (by decide) (by decide))
    (by decide) (by decide)
  ⟨hw.1, hw.2.2.1 (fun _ => 7) helloPtr (hello.take 13) (by decide),
   (hw.2.2.2 (by decide)).2 (fun _ => 7) { blk := 0, off := 0 } (hello.take 13) (by decide)⟩

/-- C25 as stated fails for `String_new_steal` with a `NULL` source: the String it
returns has length 0 and no buffer, also when the claimed size (here 5) is not 0.  On
such a String the offset `len - 1` of `String_ncat` wraps to `4294967295`, the append of
3 bytes reallocates to 4 bytes and its gap fill runs off them, and `String_ncpy_at` of 2
bytes into the claimed capacity 5 writes through the `NULL` pointer: neither call has a
defined result. -/
theorem C25_counterexample :
    String_new_steal helloHeap true none 0 =
      some (some { raw := none, len := 0, size := 0, resizable := true }) ∧
    String_new_steal helloHeap true none 5 =
      some (some { raw := none, len := 0, size := 5, resizable := true }) ∧
    ¬ 1 ≤ ({ raw := none, len := 0, size := 5, resizable := true } : string).len ∧
    (0 < ({ raw := none, len := 0, size := 5, resizable := true } : string).size ∧
      ({ raw := none, len := 0, size := 5, resizable := true } : string).raw = none) ∧
    usub ({ raw := none, len := 0, size := 0, resizable := true } : string).len 1 =
      4294967295 ∧
    String_ncpy_at helloHeap none { raw := none, len := 0, size := 5, resizable := true } 0
      helloPtr 2 = none ∧
    String_ncat helloHeap (some (fun _ => 7))
      { raw := none, len := 0, size := 0, resizable := true } helloPtr 3 = none := by
  refine ⟨by decide, by decide, by decide, by decide, by decide, by decide, ?_⟩
  have hrc : resize_and_cpy helloHeap (some (fun _ => 7))
        { raw := none, len := 0, size := 0, resizable := true }
        (u32 (4294967295 + 3 + 1)) 4294967295 =
      some (some { blk := 1, off := 0 },
        { raw := some { blk := 1, off := 0 }, len := 0, size := 4, resizable := true },
        [some { bytes := hello, dyn := false }, some { bytes := [7, 7, 7, 7], dyn := true }]) := by
    decide
  have hfill : memset
      [some { bytes := hello, dyn := false }, some { bytes := [7, 7, 7, 7], dyn := true }]
      (some { blk := 1, off := 0 }) 0 4294967295 = none :=
    store_oob
      (h := [some { bytes := hello, dyn := false }, some { bytes := [7, 7, 7, 7], dyn := true }])
      (q := { blk := 1, off := 0 }) (b := { bytes := [7, 7, 7, 7], dyn := true }) rfl
      (by rw [List.length_replicate]; decide)
      (by rw [List.length_replicate]; decide)
  unfold String_ncat
  rw [if_neg (by decide)]
  have hu : usub ({ raw := none, len := 0, size := 0, resizable := true } : string).len 1 =
      4294967295 := by decide
  rw [hu]
  unfold String_ncpy_at
  rw [if_neg (by decide), if_pos (by decide), hrc]
  simp only
  unfold ncpy_at_write
  rw [if_pos (by decide)]
  simp only [padd, Option.map_some', Nat.add_zero, Nat.sub_zero]
  rw [hfill]
  rfl

/-- C25, amended.  Every String returned by `String_new`, or by `String_new_steal` on a
source that is not `NULL`, and every String obtained from one by calls of
`String_ncpy_at`, `String_ncat` and `String_set_size` that return 0 (on heaps of the
32-bit platform), has an internal length of at least 1 and a buffer, so the offset
`len - 1` of `String_ncat` does not wrap.  `String_new_steal` on a `NULL` source returns
a growable String of length 0 without a buffer, whose capacity is the claimed size. -/
theorem C25_length_and_allocation (st : Bool) (h : Heap) (s : string)
    (hd : Derived st h s) :
    1 ≤ s.len ∧ s.raw ≠ none ∧ usub s.len 1 + 1 = s.len ∧
    (∀ size, String_new_steal h true none size =
      some (some { raw := none, len := 0, size := size, resizable := true })) := by
  obtain ⟨h1, h2, h3⟩ := derived_len hd
  refine ⟨h1, h3, ?_, ?_⟩
  · rw [usub_of_le h1 h2]
    omega
  · intro size
    simp [String_new_steal, String_alloc]

/-- The adopted `"Hello World!\n"` of `test_new_steal`: length 14, buffer `buff`. -/
theorem C25_length_and_allocation_witness :
    1 ≤ stolenHello.len ∧ stolenHello.raw ≠ none ∧
    usub stolenHello.len 1 + 1 = stolenHello.len :=
  have hw := C25_length_and_allocation true stealHeap stolenHello
    (@Derived.steal stealHeap { blk := 0, off := 0 } 2 stolenHello (by decide) (by decide))
  ⟨hw.1, hw.2.1, hw.2.2.1⟩

end DStrings
